import Mathlib

/-! # microCurv: scan conversion of closed polygonal curves (`fill_curve.cpp`)

A shallow embedding of `src/fill_curve.cpp`.

Modelling conventions.
* `int` values are unbounded integers (all coordinates are assumed to be within `int` range,
  so that the cast `(int)f`, truncation toward zero, is defined).
* A raster buffer `T*` is a flat `List α`; a pointer into it is an offset (`Nat`).
  A write `*im = value` is `List.set`.
* The interval table `std::vector<std::vector<float>>` is a `List (List ℚ)`.
* A call that does not return normally (a failed `assert`) yields `none`.
* `float` values are rationals. The functions of `fill_curve.cpp` are given twice: first with
  exact arithmetic on `float` values, then, in the namespace `Binary32`, with every
  arithmetic operation rounded to binary32 as the program does it. Comparisons, casts to
  `int` and copies of values are the same in both.
-/

namespace MicroCurv

/-! ## Data model -/

/-- Modelled from the spec: the type `Point` is declared in a header that is not part of the
sources. A 2D coordinate with two floating-point components `x`, `y`; addition is
componentwise and two points are different when some component differs. -/
structure Point where
  x : ℚ
  y : ℚ
deriving DecidableEq, Repr

instance : Add Point := ⟨fun a b => ⟨a.x + b.x, a.y + b.y⟩⟩

instance : Inhabited Point := ⟨⟨0, 0⟩⟩

/-- The constant `static const Point delta(-0.5f,-0.5f)`. -/
def delta : Point := ⟨-1/2, -1/2⟩

/-- The cast `(int)f`: truncation toward zero. -/
def toInt (f : ℚ) : Int := if 0 ≤ f then ⌊f⌋ else ⌈f⌉

/-- Sign of `f2-f1`: `(f1<f2)? +1: -1`. -/
def sign (f1 f2 : ℚ) : Int := if f1 < f2 then 1 else -1

/-- The test `f==(float)(int)f`. -/
def is_integer (f : ℚ) : Bool := decide (f = ((toInt f : Int) : ℚ))

/-- The interval table: one list of bounds per row. -/
abbrev Table := List (List ℚ)

/-! ## Row filler -/

/-- The loop `for(;it!=inter.end() && *it<0; ++it) bIn = !bIn;` of `fill_line`.
The iterator is the list of the bounds that are still ahead. -/
def skip_left : Bool → List ℚ → Bool × List ℚ
  | bIn, [] => (bIn, [])
  | bIn, x :: rest => if x < 0 then skip_left (!bIn) rest else (bIn, x :: rest)

/-- The inner loop `while(*it<i) { bIn = !bIn; if(++it == inter.end()) ... }` of `fill_line`.
An empty iterator in the result means that the end of the bounds was reached
(the caller then checks `assert(!bIn)` and returns). -/
def skip_lt (i : ℚ) : Bool → List ℚ → Bool × List ℚ
  | bIn, [] => (bIn, [])
  | bIn, x :: rest => if x < i then skip_lt i (!bIn) rest else (bIn, x :: rest)

/-- The algorithm `std::fill(first, last, value)` over offsets of the buffer. -/
def fill_range (value : α) : Nat → Nat → List α → List α
  | 0, _, buf => buf
  | n + 1, first, buf => fill_range value n (first + 1) (buf.set first value)

/-- The loop `for(; im<end; i++, im++)` of `fill_line`; the first argument is `end - im`,
the number of pixels left in the row. -/
def sweep (value : α) : Nat → Nat → ℚ → Bool → List ℚ → List α → Option (List α)
  | 0, _, _, _, _, buf => some buf
  | n + 1, im, i, bIn, it, buf =>
    match skip_lt i bIn it with
    | (b, []) => if b then none else some buf
    | (b, x :: rest) =>
      sweep value n (im + 1) (i + 1) b (x :: rest)
        (if b ∨ x = i then buf.set im value else buf)

/-- The function `fill_line(value, im, end, inter)`: fills one line of the image. The result is
the buffer together with the (sorted in place) bounds of the row. -/
def fill_line (value : α) (buf : List α) (im end_ : Nat) (inter : List ℚ) :
    Option (List α × List ℚ) :=
  let inter := inter.insertionSort (· ≤ ·)
  match skip_left false inter with
  | (_, []) => some (buf, inter)
  | (bIn, x :: rest) =>
    let buf := if bIn then fill_range value (min end_ (im + (toInt x).toNat) - im) im buf else buf
    let i : ℚ := ((toInt x : Int) : ℚ)
    let im := im + (toInt x).toNat
    (sweep value (end_ - im) im i bIn (x :: rest) buf).map (fun b => (b, inter))

/-- The loop `for(int i=0; i<h; i++) if(! inter[i].empty()) fill_line(...)` of `fill_inter`;
the first argument is `h - i`, the number of rows left. -/
def fill_inter_loop (value : α) (w : Nat) :
    Nat → Nat → List α → Table → Option (List α × Table)
  | 0, _, im, inter => some (im, inter)
  | n + 1, i, im, inter =>
    if (inter.getD i []).isEmpty then fill_inter_loop value w n (i + 1) im inter
    else
      match fill_line value im (i * w) ((i + 1) * w) (inter.getD i []) with
      | none => none
      | some (im', row) => fill_inter_loop value w n (i + 1) im' (inter.set i row)

/-- The function `fill_inter(value, im, w, h, inter)`: fills the intervals of every row. -/
def fill_inter (value : α) (im : List α) (w h : Nat) (inter : Table) :
    Option (List α × Table) :=
  fill_inter_loop value w h 0 im inter

/-! ## Edge walker -/

/-- The state of `struct PolyIterator`: current vertex, along horizontal edgel?, direction. -/
structure PolyIterator where
  p : Point
  bHorizontal : Bool
  dir : Int
deriving DecidableEq, Repr

/-- The loop of `last_point` over the reversed curve; the second argument is the index `i`. -/
def last_point_loop (p0 : Point) : List Point → Nat → Nat
  | [], _ => 0
  | pt :: rest, i => if pt ≠ p0 then i else last_point_loop p0 rest (i - 1)

/-- The function `last_point(curve)`: index of the last point of the curve that differs from
the first one (0 for a single vertex). -/
def last_point (curve : List Point) : Nat :=
  last_point_loop (curve.headD default) curve.reverse (curve.length - 1)

/-- The constructor `PolyIterator::PolyIterator(curve)`. -/
def PolyIterator.init (curve : List Point) : PolyIterator :=
  let i := last_point curve
  let q := curve.getD i default + delta
  let p := curve.getD 0 default + delta
  if q.y = p.y then
    { p := p, bHorizontal := is_integer p.y, dir := sign q.x p.x }
  else
    { p := p, bHorizontal := false, dir := sign q.y p.y }

/-- The member `std::vector::resize(size)` on the table: rows beyond `size` are dropped,
missing rows are added empty. -/
def resize (inter : Table) (size : Nat) : Table :=
  inter.take size ++ List.replicate (size - inter.length) []

/-- The function `init_inter(inter, size)`: resize, then clear every row. -/
def init_inter (inter : Table) (size : Nat) : Table :=
  (resize inter size).map (fun _ => [])

/-- The function `bound(inter, x, iy)`: add a bound of interval on line `iy` at position `x`. -/
def bound (inter : Table) (x : ℚ) (iy : Int) : Table :=
  if 0 ≤ iy ∧ iy < (inter.length : Int) then
    inter.set iy.toNat (inter.getD iy.toNat [] ++ [x])
  else inter

/-- The loop `for(int j=iy1; j!=iy2; j+=dir)` of `add_point`. The first argument bounds the
number of iterations: when it is used up before `j` reaches `iy2` the result is `none`.
A failure of the assertion on `xj` gives `none` as well. -/
def row_loop (q p : Point) (a : ℚ) (dir iy2 : Int) : Nat → Int → Table → Option Table
  | 0, j, inter => if j = iy2 then some inter else none
  | n + 1, j, inter =>
    if j = iy2 then some inter
    else if (if dir > 0 then p.y ≤ (j : ℚ) else (j : ℚ) ≤ p.y) then
      row_loop q p a dir iy2 n (j + dir) inter
    else
      let xj := q.x + a * ((j : ℚ) - q.y)
      if (q.x ≤ xj ∧ xj ≤ p.x) ∨ (p.x ≤ xj ∧ xj ≤ q.x) then
        row_loop q p a dir iy2 n (j + dir) (bound inter xj j)
      else none

/-- The member `PolyIterator::add_point(pi, inter)`: add the segment to point `pi` to the
current polyline. The stepping loop is given `|iy2 - iy1|` iterations, which is exactly the
number it takes (see `row_loop_reaches`). -/
def add_point (s : PolyIterator) (pi : Point) (inter : Table) : Option (PolyIterator × Table) :=
  let q := s.p
  let p := pi + delta
  let dirP := s.dir
  if q.y = p.y then
    if q.x ≠ p.x ∧ is_integer q.y then
      let dir := sign q.x p.x
      if s.bHorizontal then
        some ({ p := p, bHorizontal := true, dir := dir },
          if dirP ≠ dir then bound inter q.x (toInt q.y) else inter)
      else
        some ({ p := p, bHorizontal := true, dir := dir },
          if dirP = dir then bound inter q.x (toInt q.y) else inter)
    else some ({ p := p, bHorizontal := s.bHorizontal, dir := s.dir }, inter)
  else
    let dir := sign q.y p.y
    let iy1 := toInt q.y
    let iy2 := toInt p.y + dir
    let a := (q.x - p.x) / (q.y - p.y)
    let (inter, iy1) :=
      if s.bHorizontal then
        ((if dirP ≠ dir then bound inter q.x iy1 else inter), iy1 + dir)
      else if dir ≠ dirP ∧ q.y = ((iy1 : Int) : ℚ) then
        (bound (bound inter q.x iy1) q.x iy1, iy1 + dir)
      else if dir > 0 ∧ ((iy1 : Int) : ℚ) < q.y then
        (inter, iy1 + dir)
      else (inter, iy1)
    (row_loop q p a dir iy2 (iy2 - iy1).natAbs iy1 inter).map
      (fun t => ({ p := p, bHorizontal := false, dir := dir }, t))

/-- The loop `for(; it!=line.end(); ++it) p.add_point(*it, *inter)` of `fill_curve`. -/
def add_points (s : PolyIterator) : List Point → Table → Option (PolyIterator × Table)
  | [], inter => some (s, inter)
  | pt :: rest, inter =>
    match add_point s pt inter with
    | none => none
    | some (s', inter') => add_points s' rest inter'

/-! ## Entry point -/

/-- The function `fill_point(p, value, out, w)`: fill a curve with a single vertex. A write
outside the buffer has no defined result (`none`). -/
def fill_point (p : Point) (value : α) (out : List α) (w : Nat) : Option (List α) :=
  let p := p + delta
  if is_integer p.x ∧ is_integer p.y then
    let idx : Int := toInt p.y * (w : Int) + toInt p.x
    if 0 ≤ idx ∧ idx < (out.length : Int) then some (out.set idx.toNat value) else none
  else some out

/-- The function `fill_curve(line, value, out, w, h, inter)`: fill the interior region of the
curve. The optional table pointer is `none` for a null pointer. The result is the buffer and
the caller's table (`none` when the table was allocated and deleted inside the call). -/
def fill_curve (line : List Point) (value : α) (out : List α) (w h : Nat)
    (inter : Option Table) : Option (List α × Option Table) :=
  if line.isEmpty then some (out, inter)
  else
    let p := PolyIterator.init line
    if p.dir = 0 then
      (fill_point (line.headD default) value out w).map (fun o => (o, inter))
    else
      let bAllocInter := inter.isNone
      let tbl : Table :=
        match inter with
        | none => List.replicate h []
        | some t => init_inter t h
      match add_points p line.tail tbl with
      | none => none
      | some (p, tbl) =>
        match add_point p (line.headD default) tbl with
        | none => none
        | some (_, tbl) =>
          match fill_inter value out w h tbl with
          | none => none
          | some (out, tbl) => some (out, if bAllocInter then none else some tbl)

/-! ## Specification vocabulary -/

/-- A bound list `S` read up to the iterator `it`: the bounds passed so far are all below `i`
and `bIn` is the parity of their number. -/
def SweepInv (S : List ℚ) (i : ℚ) (bIn : Bool) (it : List ℚ) : Prop :=
  ∃ pre, S = pre ++ it ∧ (∀ x ∈ pre, x < i) ∧ (bIn = true ↔ Odd pre.length)

/-- Whether column `c` is filled for the bounds `S`: an odd number of bounds lies strictly
below `c`, or some bound equals `c`. -/
def Inside (S : List ℚ) (c : ℚ) : Prop := Odd (S.countP (· < c)) ∨ c ∈ S

/-- Writing `v` at every offset of `ws`. -/
def paint (v : α) (ws : List Nat) (buf : List α) : List α :=
  ws.foldl (fun b i => b.set i v) buf

/-- The interval table built by `fill_curve` for a curve and `h` rows: the constructor, then
`add_point` for every vertex after the first, then for the first vertex. -/
def edge_walk (line : List Point) (h : Nat) : Option Table :=
  match add_points (PolyIterator.init line) line.tail (List.replicate h []) with
  | none => none
  | some (p, tbl) =>
    match add_point p (line.headD default) tbl with
    | none => none
    | some (_, tbl) => some tbl

/-- The vertex that precedes the first one on the closed curve: the last vertex that differs
from the first one, or the first vertex itself when all vertices are equal. -/
def prev_vertex (curve : List Point) : Point :=
  (curve.reverse.find? (fun x => decide (x ≠ curve.headD default))).getD (curve.headD default)

/-- The state in which the walker arrives at the shifted vertex `p` from the shifted
vertex `q`, as computed by the constructor. -/
def arrive (q p : Point) : PolyIterator :=
  if q.y = p.y then
    { p := p, bHorizontal := is_integer p.y, dir := sign q.x p.x }
  else
    { p := p, bHorizontal := false, dir := sign q.y p.y }

/-- Two walker states that behave alike: same vertex, same horizontal flag, and the same
direction whenever the vertex lies on a row boundary (the direction is not read otherwise). -/
def Sim (s1 s2 : PolyIterator) : Prop :=
  s1.p = s2.p ∧ s1.bHorizontal = s2.bHorizontal ∧ (is_integer s1.p.y = true → s1.dir = s2.dir)

/-- The horizontal flag is only set on a row boundary. -/
def Aligned (s : PolyIterator) : Prop :=
  s.bHorizontal = true → is_integer s.p.y = true

/-- Recording a list of bounds `(x, iy)` in order. -/
def apply_bounds (bs : List (ℚ × Int)) (T : Table) : Table :=
  bs.foldl (fun T b => bound T b.1 b.2) T

/-- Two tables with the same rows up to the order of the bounds inside each row. -/
def TPerm (T1 T2 : Table) : Prop :=
  T1.length = T2.length ∧ ∀ r, (T1.getD r []).Perm (T2.getD r [])

/-- Two outcomes of the edge walk that the row filler cannot tell apart: both failed, or two
tables with the same bounds on every row. -/
def WalkRel (r1 r2 : Option Table) : Prop :=
  (r1 = none ∧ r2 = none) ∨ ∃ T1 T2, r1 = some T1 ∧ r2 = some T2 ∧ TPerm T1 T2

/-- The start row `iy1` of the stepping loop of `add_point`, for the edge from the current
vertex of `s` to the shifted vertex `p`, after the horizontal-exit, local-peak and rounding
adjustments. -/
def start_row (s : PolyIterator) (p : Point) : Int :=
  if s.bHorizontal then toInt s.p.y + sign s.p.y p.y
  else if sign s.p.y p.y ≠ s.dir ∧ s.p.y = ((toInt s.p.y : Int) : ℚ) then
    toInt s.p.y + sign s.p.y p.y
  else if sign s.p.y p.y > 0 ∧ ((toInt s.p.y : Int) : ℚ) < s.p.y then
    toInt s.p.y + sign s.p.y p.y
  else toInt s.p.y

/-- The bounds that `add_point` records before its stepping loop, for the edge from the
current vertex of `s` to the shifted vertex `p`: one bound when leaving a horizontal run
against its direction, two at a local peak. -/
def pre_bounds (s : PolyIterator) (p : Point) : List (ℚ × Int) :=
  if s.bHorizontal then
    (if s.dir ≠ sign s.p.y p.y then [(s.p.x, toInt s.p.y)] else [])
  else if sign s.p.y p.y ≠ s.dir ∧ s.p.y = ((toInt s.p.y : Int) : ℚ) then
    [(s.p.x, toInt s.p.y), (s.p.x, toInt s.p.y)]
  else []

/-- The loop `for(int i=1; i<h; i++) data[i*w-1] = data[i*w] = 0;` of `blank_border`
(`main_extraction.cpp`); the first argument is `h - i`, the number of iterations left. The
image is a flat list of `unsigned char` values. (For `w = 0` the index `i*w-1` of the source
wraps around; here it is 0.) -/
def blank_strips (w : Nat) : Nat → Nat → List Nat → List Nat
  | 0, _, data => data
  | n + 1, i, data => blank_strips w n (i + 1) ((data.set (i * w) 0).set (i * w - 1) 0)

/-- The loop `for(int i=0; i<w; i++) data[i] = 0;` of `blank_border`, where `data` points at
offset `off` of the image; the first argument is `w - i`. -/
def blank_line (off : Nat) : Nat → Nat → List Nat → List Nat
  | 0, _, data => data
  | n + 1, i, data => blank_line off n (i + 1) (data.set (off + i) 0)

/-- The function `blank_border(data, w, h)`: put one pixel wide blank strips at the border of
the image. -/
def blank_border (data : List Nat) (w h : Nat) : List Nat :=
  let data := blank_strips w (h - 1) 1 data
  let data := blank_line 0 w 0 data
  blank_line ((h - 1) * w) w 0 data

/-- The side of row `r` on which the walker stands, as a parity: 0 below the row, 1 above
it; on the row itself, the side the walker came from (1 when it came down), or, along a
horizontal run, 1 when the run goes right. The number of bounds on row `r` changes parity
exactly when the side does. -/
def side (r : Nat) (s : PolyIterator) : Nat :=
  if s.p.y < (r : ℚ) then 0
  else if (r : ℚ) < s.p.y then 1
  else if s.bHorizontal then (if s.dir = 1 then 1 else 0)
  else (if s.dir = 1 then 0 else 1)

/-! ## The program in binary32 arithmetic

The definitions above take `float` as exact rationals. The namespace `Binary32` holds the
functions of `fill_curve.cpp` whose arithmetic is rounded: a `float` is a rational `x` with
`round32 x = x` and `|x| < 2^128`, and every operation on `float` values (IEEE 754 binary32,
round to nearest, ties to even, each operation rounded on its own: `float` expressions are
evaluated in `float` precision and a product and a sum are not fused) is the exact operation
followed by `round32`. Comparisons and the cast `(int)f` are exact; the functions that do no
arithmetic (`sign`, `toInt`, `bound`, `last_point`, `skip_left`, `skip_lt`, `fill_range`,
`init_inter`) are the ones above. -/

namespace Binary32

deriving instance DecidableEq for Except

/-- The power `2^k` for an integer exponent. -/
def pow2 (k : Int) : ℚ :=
  if 0 ≤ k then ((2 ^ k.toNat : Nat) : ℚ) else 1 / ((2 ^ (-k).toNat : Nat) : ℚ)

/-- The number of halvings of `n` that leave at least 1, with at most `f` of them. -/
def log2f : Nat → Nat → Nat
  | 0, _ => 0
  | f + 1, n => if 2 ≤ n then log2f f (n / 2) + 1 else 0

/-- The binary exponent of a nonzero rational `x`: the integer `k` with
`2^k ≤ |x| < 2^(k+1)`. -/
def ilog2 (x : ℚ) : Int :=
  if pow2 ((log2f x.num.natAbs x.num.natAbs : Int) - (log2f x.den x.den : Int)) ≤ |x| then
    (log2f x.num.natAbs x.num.natAbs : Int) - (log2f x.den x.den : Int)
  else (log2f x.num.natAbs x.num.natAbs : Int) - (log2f x.den x.den : Int) - 1

/-- The integer nearest to `q`, the even one of the two in a tie. -/
def round_even (q : ℚ) : Int :=
  if q - ⌊q⌋ < 1 / 2 then ⌊q⌋
  else if 1 / 2 < q - ⌊q⌋ then ⌊q⌋ + 1
  else if ⌊q⌋ % 2 = 0 then ⌊q⌋ else ⌊q⌋ + 1

/-- Rounding to binary32: the nearest multiple of `2^e`, ties to the even multiple, where
`e = max (ilog2 x - 23) (-149)` gives 24 significant bits (fewer for a subnormal result). A
result of magnitude `2^128` or more stands for an infinity (see `fin32`). -/
def round32 (x : ℚ) : ℚ :=
  if x = 0 then 0
  else (round_even (x / pow2 (max (ilog2 x - 23) (-149))) : ℚ) * pow2 (max (ilog2 x - 23) (-149))

/-- The rounded result of an operation, `none` when it is an infinity. -/
def fin32 (x : ℚ) : Option ℚ :=
  if |round32 x| < pow2 128 then some (round32 x) else none

/-- The conversion `(float)n` of an `int`. -/
def ofInt (n : Int) : ℚ := round32 (n : ℚ)

/-- Modelled from the spec: the operator `+` of `Point` (declared in a header that is not part
of the sources), componentwise addition of `float` values. -/
def add (a b : Point) : Point := ⟨round32 (a.x + b.x), round32 (a.y + b.y)⟩

/-- The test `f==(float)(int)f`. -/
def is_integer (f : ℚ) : Bool := decide (f = ofInt (toInt f))

/-- The constructor `PolyIterator::PolyIterator(curve)`. -/
def init (curve : List Point) : PolyIterator :=
  let i := last_point curve
  let q := add (curve.getD i default) delta
  let p := add (curve.getD 0 default) delta
  if q.y = p.y then
    { p := p, bHorizontal := is_integer p.y, dir := sign q.x p.x }
  else
    { p := p, bHorizontal := false, dir := sign q.y p.y }

/-- The slope `float a = (q.x-p.x) / (q.y-p.y)` of `add_point`; `none` stands for an infinity
or a NaN. -/
def slope (q p : Point) : Option ℚ :=
  match fin32 (q.x - p.x), fin32 (q.y - p.y) with
  | some dx, some dy => if dy = 0 then none else fin32 (dx / dy)
  | _, _ => none

/-- The crossing `float xj = q.x + a*((float)j-q.y)` of `add_point`; `none` stands for an
infinity or a NaN (which is what `xj` is as soon as `a` or an intermediate result is one). -/
def crossing (q : Point) (a : Option ℚ) (j : Int) : Option ℚ :=
  match a, fin32 (ofInt j - q.y) with
  | some a, some t =>
    match fin32 (a * t) with
    | some m => fin32 (q.x + m)
    | none => none
  | _, _ => none

/-- The loop `for(int j=iy1; j!=iy2; j+=dir)` of `add_point`. The first argument bounds the
number of iterations. The result is `ok` with the table when `j` reaches `iy2`, and `error`
with the table as it is at that moment when the assertion on `xj` fails (every comparison of
the assertion is false for a NaN, and one in each conjunction for an infinity) or when the
iterations are used up. -/
def row_loop (q p : Point) (a : Option ℚ) (dir iy2 : Int) :
    Nat → Int → Table → Except Table Table
  | 0, j, inter => if j = iy2 then .ok inter else .error inter
  | n + 1, j, inter =>
    if j = iy2 then .ok inter
    else if (if dir > 0 then p.y ≤ ofInt j else ofInt j ≤ p.y) then
      row_loop q p a dir iy2 n (j + dir) inter
    else
      match crossing q a j with
      | none => .error inter
      | some xj =>
        if (q.x ≤ xj ∧ xj ≤ p.x) ∨ (p.x ≤ xj ∧ xj ≤ q.x) then
          row_loop q p a dir iy2 n (j + dir) (bound inter xj j)
        else .error inter

/-- The member `PolyIterator::add_point(pi, inter)`: add the segment to point `pi` to the
current polyline. The stepping loop is given `|iy2 - iy1|` iterations. The result is `error`
with the table of that moment when the assertion of the loop fails. -/
def add_point (s : PolyIterator) (pi : Point) (inter : Table) :
    Except Table (PolyIterator × Table) :=
  let q := s.p
  let p := add pi delta
  let dirP := s.dir
  if q.y = p.y then
    if q.x ≠ p.x ∧ is_integer q.y then
      let dir := sign q.x p.x
      if s.bHorizontal then
        .ok ({ p := p, bHorizontal := true, dir := dir },
          if dirP ≠ dir then bound inter q.x (toInt q.y) else inter)
      else
        .ok ({ p := p, bHorizontal := true, dir := dir },
          if dirP = dir then bound inter q.x (toInt q.y) else inter)
    else .ok ({ p := p, bHorizontal := s.bHorizontal, dir := s.dir }, inter)
  else
    let dir := sign q.y p.y
    let iy1 := toInt q.y
    let iy2 := toInt p.y + dir
    let a := slope q p
    let (inter, iy1) :=
      if s.bHorizontal then
        ((if dirP ≠ dir then bound inter q.x iy1 else inter), iy1 + dir)
      else if dir ≠ dirP ∧ q.y = ofInt iy1 then
        (bound (bound inter q.x iy1) q.x iy1, iy1 + dir)
      else if dir > 0 ∧ ofInt iy1 < q.y then
        (inter, iy1 + dir)
      else (inter, iy1)
    (row_loop q p a dir iy2 (iy2 - iy1).natAbs iy1 inter).map
      (fun t => ({ p := p, bHorizontal := false, dir := dir }, t))

/-- The loop `for(; it!=line.end(); ++it) p.add_point(*it, *inter)` of `fill_curve`. -/
def add_points (s : PolyIterator) : List Point → Table → Except Table (PolyIterator × Table)
  | [], inter => .ok (s, inter)
  | pt :: rest, inter =>
    match add_point s pt inter with
    | .error t => .error t
    | .ok (s', inter') => add_points s' rest inter'

/-- The function `fill_point(p, value, out, w)`: fill a curve with a single vertex. A write
outside the buffer has no defined result (`none`). -/
def fill_point (p : Point) (value : α) (out : List α) (w : Nat) : Option (List α) :=
  let p := add p delta
  if is_integer p.x ∧ is_integer p.y then
    let idx : Int := toInt p.y * (w : Int) + toInt p.x
    if 0 ≤ idx ∧ idx < (out.length : Int) then some (out.set idx.toNat value) else none
  else some out

/-- The loop `for(; im<end; i++, im++)` of `fill_line`; the first argument is `end - im`, the
number of pixels left in the row. The pixel number `i` is a `float`: `i++` is rounded. -/
def sweep (value : α) : Nat → Nat → ℚ → Bool → List ℚ → List α → Option (List α)
  | 0, _, _, _, _, buf => some buf
  | n + 1, im, i, bIn, it, buf =>
    match skip_lt i bIn it with
    | (b, []) => if b then none else some buf
    | (b, x :: rest) =>
      sweep value n (im + 1) (round32 (i + 1)) b (x :: rest)
        (if b ∨ x = i then buf.set im value else buf)

/-- The function `fill_line(value, im, end, inter)`: fills one line of the image. The result is
the buffer together with the (sorted in place) bounds of the row; `none` when the assertion
`assert(!bIn)` fails. -/
def fill_line (value : α) (buf : List α) (im end_ : Nat) (inter : List ℚ) :
    Option (List α × List ℚ) :=
  let inter := inter.insertionSort (· ≤ ·)
  match skip_left false inter with
  | (_, []) => some (buf, inter)
  | (bIn, x :: rest) =>
    let buf := if bIn then fill_range value (min end_ (im + (toInt x).toNat) - im) im buf else buf
    let i : ℚ := ofInt (toInt x)
    let im := im + (toInt i).toNat
    (sweep value (end_ - im) im i bIn (x :: rest) buf).map (fun b => (b, inter))

/-- The loop `for(int i=0; i<h; i++) if(! inter[i].empty()) fill_line(...)` of `fill_inter`;
the first argument is `h - i`, the number of rows left. -/
def fill_inter_loop (value : α) (w : Nat) :
    Nat → Nat → List α → Table → Option (List α × Table)
  | 0, _, im, inter => some (im, inter)
  | n + 1, i, im, inter =>
    if (inter.getD i []).isEmpty then fill_inter_loop value w n (i + 1) im inter
    else
      match fill_line value im (i * w) ((i + 1) * w) (inter.getD i []) with
      | none => none
      | some (im', row) => fill_inter_loop value w n (i + 1) im' (inter.set i row)

/-- The function `fill_inter(value, im, w, h, inter)`: fills the intervals of every row. -/
def fill_inter (value : α) (im : List α) (w h : Nat) (inter : Table) :
    Option (List α × Table) :=
  fill_inter_loop value w h 0 im inter

/-- The function `fill_curve(line, value, out, w, h, inter)`: fill the interior region of the
curve. The optional table pointer is `none` for a null pointer. The result is the buffer and
the caller's table (`none` when the table was allocated and deleted inside the call); the call
as a whole is `none` when an assertion fails. -/
def fill_curve (line : List Point) (value : α) (out : List α) (w h : Nat)
    (inter : Option Table) : Option (List α × Option Table) :=
  if line.isEmpty then some (out, inter)
  else
    let p := init line
    if p.dir = 0 then
      (fill_point (line.headD default) value out w).map (fun o => (o, inter))
    else
      let bAllocInter := inter.isNone
      let tbl : Table :=
        match inter with
        | none => List.replicate h []
        | some t => init_inter t h
      match add_points p line.tail tbl with
      | .error _ => none
      | .ok (p, tbl) =>
        match add_point p (line.headD default) tbl with
        | .error _ => none
        | .ok (_, tbl) =>
          match fill_inter value out w h tbl with
          | none => none
          | some (out, tbl) => some (out, if bAllocInter then none else some tbl)

/-- The interval table built by `fill_curve` for a curve and `h` rows: the constructor, then
`add_point` for every vertex after the first, then for the first vertex; `error` with the
table of that moment when an assertion of `add_point` fails. -/
def edge_walk (line : List Point) (h : Nat) : Except Table Table :=
  match add_points (init line) line.tail (List.replicate h []) with
  | .error t => .error t
  | .ok (p, tbl) =>
    match add_point p (line.headD default) tbl with
    | .error t => .error t
    | .ok (_, tbl) => .ok tbl

/-- A vertex with integer coordinates from 0 to `2^23`: its shift by `delta` is a binary32
number. -/
def OnGrid (pt : Point) : Prop :=
  ∃ a b : Nat, a ≤ 2 ^ 23 ∧ b ≤ 2 ^ 23 ∧ pt = ⟨(a : ℚ), (b : ℚ)⟩

end Binary32

/-! # Theorems -/

theorem skip_left_eq_skip_lt (b : Bool) (l : List ℚ) : skip_left b l = skip_lt 0 b l := by
  induction l generalizing b with
  | nil => rfl
  | cons x rest ih => simp [skip_left, skip_lt, ih]

theorem skip_lt_inv (S : List ℚ) (i : ℚ) (b : Bool) (it : List ℚ) (h : SweepInv S i b it) :
    SweepInv S i (skip_lt i b it).1 (skip_lt i b it).2 ∧
      ∀ x, (skip_lt i b it).2.head? = some x → i ≤ x := by
  induction it generalizing b with
  | nil => simpa [skip_lt] using h
  | cons x rest ih =>
    by_cases hx : x < i
    · have hstep : skip_lt i b (x :: rest) = skip_lt i (!b) rest := by simp [skip_lt, hx]
      rw [hstep]
      apply ih
      obtain ⟨pre, hS, hpre, hb⟩ := h
      refine ⟨pre ++ [x], by simp [hS], ?_, ?_⟩
      · intro y hy
        rcases List.mem_append.1 hy with hy | hy
        · exact hpre y hy
        · simpa [List.mem_singleton.1 hy] using hx
      · rw [List.length_append, List.length_singleton, Nat.odd_add_one, ← hb]
        cases b <;> simp
    · have hstep : skip_lt i b (x :: rest) = (b, x :: rest) := by simp [skip_lt, hx]
      rw [hstep]
      refine ⟨h, ?_⟩
      intro y hy
      simp only [List.head?_cons, Option.some.injEq] at hy
      subst hy
      exact not_lt.1 hx

theorem inside_perm {S T : List ℚ} (h : S.Perm T) (c : ℚ) : Inside S c ↔ Inside T c := by
  unfold Inside
  rw [h.countP_eq, h.mem_iff]

theorem countP_lt_of_split (pre it : List ℚ) (c : ℚ) (hpre : ∀ x ∈ pre, x < c)
    (hit : ∀ x ∈ it, c ≤ x) : (pre ++ it).countP (· < c) = pre.length := by
  rw [List.countP_append]
  have h1 : pre.countP (· < c) = pre.length := by
    rw [List.countP_eq_length]
    intro x hx
    simpa using hpre x hx
  have h2 : it.countP (· < c) = 0 := by
    rw [List.countP_eq_zero]
    intro x hx
    simpa using hit x hx
  omega

theorem sorted_head_le {x : ℚ} {rest : List ℚ} (h : (x :: rest).Sorted (· ≤ ·)) :
    ∀ y ∈ x :: rest, x ≤ y := by
  intro y hy
  rcases List.mem_cons.1 hy with rfl | hy
  · exact le_refl _
  · exact List.rel_of_sorted_cons h y hy


theorem fill_range_length (v : α) (n first : Nat) (buf : List α) :
    (fill_range v n first buf).length = buf.length := by
  induction n generalizing first buf with
  | zero => rfl
  | succ n ih => simp [fill_range, ih]

theorem fill_range_getElem? (v : α) (n first : Nat) (buf : List α) (idx : Nat)
    (hidx : idx < buf.length) :
    (fill_range v n first buf)[idx]? =
      if first ≤ idx ∧ idx < first + n then some v else buf[idx]? := by
  induction n generalizing first buf with
  | zero =>
    have : ¬ (first ≤ idx ∧ idx < first + 0) := by omega
    rw [if_neg this]
    rfl
  | succ n ih =>
    rw [fill_range, ih (first + 1) (buf.set first v) (by simpa using hidx), List.getElem?_set]
    by_cases h1 : first = idx
    · subst h1
      simp [hidx]
    · by_cases h2 : first + 1 ≤ idx
      · have h3 : first ≤ idx := by omega
        by_cases h4 : idx < first + 1 + n
        · have h5 : idx < first + (n + 1) := by omega
          simp [h2, h3, h4, h5]
        · have h5 : ¬ idx < first + (n + 1) := by omega
          simp [h1, h4, h5]
      · have h3 : ¬ first ≤ idx := by omega
        simp [h1, h2, h3]

/-- A column at or beyond every bound of an even list is not inside. -/
theorem not_inside_of_all_lt (S : List ℚ) (c : ℚ) (heven : Even S.length)
    (h : ∀ x ∈ S, x < c) : ¬ Inside S c := by
  rintro (hodd | hmem)
  · have := countP_lt_of_split S [] c h (by simp)
    rw [List.append_nil] at this
    rw [this] at hodd
    exact (Nat.not_odd_iff_even.2 heven) hodd
  · exact lt_irrefl _ (h c hmem)

theorem inside_iff_of_split (pre it : List ℚ) (c : ℚ) (b : Bool) (hpre : ∀ x ∈ pre, x < c)
    (hit : ∀ x ∈ it, c ≤ x) (hb : b = true ↔ Odd pre.length) :
    Inside (pre ++ it) c ↔ (b = true ∨ c ∈ it) := by
  unfold Inside
  rw [countP_lt_of_split pre it c hpre hit, ← hb, List.mem_append]
  constructor
  · rintro (h | h | h)
    · exact Or.inl h
    · exact absurd (hpre c h) (lt_irrefl _)
    · exact Or.inr h
  · rintro (h | h)
    · exact Or.inl h
    · exact Or.inr (Or.inr h)

theorem sweep_spec (v : α) (S : List ℚ) (hS : S.Sorted (· ≤ ·)) (heven : Even S.length)
    (n : Nat) : ∀ (im : Nat) (i : ℚ) (b : Bool) (it : List ℚ) (buf : List α),
    SweepInv S i b it → (n ≠ 0 → im + n ≤ buf.length) →
    ∃ buf', sweep v n im i b it buf = some buf' ∧ buf'.length = buf.length ∧
      ∀ idx, idx < buf.length →
        (im ≤ idx ∧ idx < im + n ∧ Inside S (i + ((idx - im : Nat) : ℚ)) → buf'[idx]? = some v) ∧
        (¬ (im ≤ idx ∧ idx < im + n ∧ Inside S (i + ((idx - im : Nat) : ℚ))) →
          buf'[idx]? = buf[idx]?) := by
  induction n with
  | zero =>
    intro im i b it buf _ _
    refine ⟨buf, rfl, rfl, ?_⟩
    intro idx _
    refine ⟨?_, fun _ => rfl⟩
    rintro ⟨h1, h2, _⟩
    omega
  | succ n ih =>
    intro im i b it buf hinv hlen0
    have hlen := hlen0 (Nat.succ_ne_zero n)
    obtain ⟨hinv', hhead⟩ := skip_lt_inv S i b it hinv
    obtain ⟨pre, hpre_eq, hpre, hb⟩ := hinv'
    rcases hsk : skip_lt i b it with ⟨b', it'⟩
    rw [hsk] at hpre_eq hb hhead
    simp only at hpre_eq hb hhead
    cases it' with
    | nil =>
      rw [List.append_nil] at hpre_eq
      subst hpre_eq
      have hb' : b' = false := by
        cases b'
        · rfl
        · exact absurd (hb.1 rfl) (Nat.not_odd_iff_even.2 heven)
      subst hb'
      refine ⟨buf, by simp [sweep, hsk], rfl, ?_⟩
      intro idx _
      refine ⟨?_, fun _ => rfl⟩
      rintro ⟨_, _, hin⟩
      exfalso
      refine not_inside_of_all_lt S _ heven ?_ hin
      intro x hx
      have := hpre x hx
      have h0 : (0 : ℚ) ≤ ((idx - im : Nat) : ℚ) := Nat.cast_nonneg _
      linarith
    | cons x rest =>
      have hxi : i ≤ x := hhead x rfl
      have hsorted_it : (x :: rest).Sorted (· ≤ ·) := by
        rw [hpre_eq] at hS
        exact (List.pairwise_append.1 hS).2.1
      have hit : ∀ y ∈ x :: rest, i ≤ y := fun y hy =>
        le_trans hxi (sorted_head_le hsorted_it y hy)
      have hin_i : Inside S i ↔ (b' = true ∨ x = i) := by
        rw [hpre_eq, inside_iff_of_split pre (x :: rest) i b' hpre hit hb]
        constructor
        · rintro (h | h)
          · exact Or.inl h
          · exact Or.inr (le_antisymm (sorted_head_le hsorted_it i h) hxi)
        · rintro (h | h)
          · exact Or.inl h
          · exact Or.inr (by simp [h])
      have hinv2 : SweepInv S (i + 1) b' (x :: rest) :=
        ⟨pre, hpre_eq, fun y hy => by have := hpre y hy; linarith, hb⟩
      have himlt : im < buf.length := by omega
      set buf1 := (if b' = true ∨ x = i then buf.set im v else buf) with hbuf1
      have hlen1 : buf1.length = buf.length := by
        rw [hbuf1]; split <;> simp
      obtain ⟨buf', hsw, hlen', hpix⟩ :=
        ih (im + 1) (i + 1) b' (x :: rest) buf1 hinv2 (by intro _; rw [hlen1]; omega)
      refine ⟨buf', ?_, by rw [hlen', hlen1], ?_⟩
      · simp only [sweep, hsk]
        exact hsw
      · intro idx hidx
        have hpix' := hpix idx (by rw [hlen1]; exact hidx)
        by_cases hidx_eq : idx = im
        · subst hidx_eq
          have hkeep : buf'[idx]? = buf1[idx]? := hpix'.2 (by omega)
          have hi0 : i + ((idx - idx : Nat) : ℚ) = i := by simp
          rw [hi0, hin_i, hkeep, hbuf1]
          constructor
          · rintro ⟨_, _, h⟩
            rw [if_pos h, List.getElem?_set_self hidx]
          · intro h
            have h' : ¬ (b' = true ∨ x = i) := fun hh => h ⟨le_refl _, by omega, hh⟩
            rw [if_neg h']
        · have hq : i + 1 + ((idx - (im + 1) : Nat) : ℚ) = i + ((idx - im : Nat) : ℚ) ∨
              idx < im := by
            by_cases hlt : idx < im
            · exact Or.inr hlt
            · left
              have : idx - im = (idx - (im + 1)) + 1 := by omega
              rw [this]
              push_cast
              ring
          have hb1 : buf1[idx]? = buf[idx]? := by
            rw [hbuf1]
            split
            · exact List.getElem?_set_ne (Ne.symm hidx_eq)
            · rfl
          rcases hq with hq | hlt
          · rw [hq] at hpix'
            rw [hb1] at hpix'
            constructor
            · rintro ⟨h1, h2, h3⟩
              exact hpix'.1 ⟨by omega, by omega, h3⟩
            · intro h
              apply hpix'.2
              rintro ⟨h1, h2, h3⟩
              exact h ⟨by omega, by omega, h3⟩
          · constructor
            · rintro ⟨h1, _, _⟩
              omega
            · intro _
              rw [← hb1]
              apply hpix'.2
              rintro ⟨h1, _, _⟩
              omega


theorem toInt_of_nonneg {x : ℚ} (hx : 0 ≤ x) :
    0 ≤ toInt x ∧ ((toInt x : Int) : ℚ) ≤ x ∧ x < ((toInt x : Int) : ℚ) + 1 := by
  unfold toInt
  rw [if_pos hx]
  exact ⟨Int.floor_nonneg.2 hx, Int.floor_le x, Int.lt_floor_add_one x⟩

theorem skip_left_spec (S : List ℚ) :
    SweepInv S 0 (skip_left false S).1 (skip_left false S).2 ∧
      ∀ x, (skip_left false S).2.head? = some x → 0 ≤ x := by
  rw [skip_left_eq_skip_lt]
  exact skip_lt_inv S 0 false S ⟨[], rfl, by simp, by simp⟩

/-- The effect of `fill_line` on the buffer, for a row of `w` pixels at offset `im` and an even
number of bounds. -/
theorem fill_line_spec (v : α) (buf : List α) (im w : Nat) (inter : List ℚ)
    (heven : Even inter.length) (hlen : im + w ≤ buf.length) :
    ∃ buf', fill_line v buf im (im + w) inter = some (buf', inter.insertionSort (· ≤ ·)) ∧
      buf'.length = buf.length ∧
      ∀ idx, idx < buf.length →
        (im ≤ idx ∧ idx < im + w ∧ Inside inter ((idx - im : Nat) : ℚ) → buf'[idx]? = some v) ∧
        (¬ (im ≤ idx ∧ idx < im + w ∧ Inside inter ((idx - im : Nat) : ℚ)) →
          buf'[idx]? = buf[idx]?) := by
  set S := inter.insertionSort (· ≤ ·) with hSdef
  have hperm : S.Perm inter := List.perm_insertionSort _ _
  have hS : S.Sorted (· ≤ ·) := List.sorted_insertionSort _ _
  have hevenS : Even S.length := by rw [hperm.length_eq]; exact heven
  have hins : ∀ c, Inside inter c ↔ Inside S c := fun c => (inside_perm hperm c).symm
  obtain ⟨⟨pre, hpre_eq, hpre, hb⟩, hhead⟩ := skip_left_spec S
  rcases hsk : skip_left false S with ⟨b, it⟩
  rw [hsk] at hpre_eq hb hhead
  simp only at hpre_eq hb hhead
  cases it with
  | nil =>
    refine ⟨buf, by simp [fill_line, ← hSdef, hsk], rfl, ?_⟩
    intro idx _
    refine ⟨?_, fun _ => rfl⟩
    rintro ⟨_, _, hin⟩
    exfalso
    rw [hins] at hin
    refine not_inside_of_all_lt S _ hevenS ?_ hin
    intro x hx
    rw [hpre_eq, List.append_nil] at hx
    have := hpre x hx
    have h0 : (0 : ℚ) ≤ ((idx - im : Nat) : ℚ) := Nat.cast_nonneg _
    linarith
  | cons x rest =>
    have hx0 : 0 ≤ x := hhead x rfl
    obtain ⟨ht0, htle, htlt⟩ := toInt_of_nonneg hx0
    obtain ⟨tn, htn⟩ := Int.eq_ofNat_of_zero_le ht0
    have htnq : ((toInt x : Int) : ℚ) = (tn : ℚ) := by rw [htn]; simp
    have htoNat : (toInt x).toNat = tn := by rw [htn]; simp
    have hsorted_it : (x :: rest).Sorted (· ≤ ·) := by
      rw [hpre_eq] at hS
      exact (List.pairwise_append.1 hS).2.1
    set buf1 := (if b = true then fill_range v (min (im + w) (im + tn) - im) im buf else buf)
      with hbuf1
    have hlen1 : buf1.length = buf.length := by
      rw [hbuf1]; split
      · exact fill_range_length _ _ _ _
      · rfl
    have hinv : SweepInv S (tn : ℚ) b (x :: rest) := by
      refine ⟨pre, hpre_eq, ?_, hb⟩
      intro y hy
      have := hpre y hy
      have h0 : (0 : ℚ) ≤ (tn : ℚ) := Nat.cast_nonneg _
      linarith
    obtain ⟨buf', hsw, hlen', hpix⟩ := sweep_spec v S hS hevenS (im + w - (im + tn)) (im + tn)
      (tn : ℚ) b (x :: rest) buf1 hinv (by intro _; rw [hlen1]; omega)
    refine ⟨buf', ?_, by rw [hlen', hlen1], ?_⟩
    · simp only [fill_line, ← hSdef, hsk, htoNat, htnq, ← hbuf1, hsw, Option.map_some']
    · intro idx hidx
      have hpix' := hpix idx (by rw [hlen1]; exact hidx)
      by_cases hright : im + tn ≤ idx
      · -- columns reached by the sweep
        have hq : (tn : ℚ) + ((idx - (im + tn) : Nat) : ℚ) = ((idx - im : Nat) : ℚ) := by
          have : idx - im = tn + (idx - (im + tn)) := by omega
          rw [this]; push_cast; ring
        rw [hq, ← hins] at hpix'
        have hb1 : buf1[idx]? = buf[idx]? := by
          rw [hbuf1]
          split
          · rw [fill_range_getElem? v _ im buf idx hidx]
            have : ¬ (im ≤ idx ∧ idx < im + (min (im + w) (im + tn) - im)) := by omega
            rw [if_neg this]
          · rfl
        rw [hb1] at hpix'
        constructor
        · rintro ⟨h1, h2, h3⟩
          exact hpix'.1 ⟨hright, by omega, h3⟩
        · intro h
          apply hpix'.2
          rintro ⟨h1, h2, h3⟩
          exact h ⟨by omega, by omega, h3⟩
      · -- columns before the first non-negative bound
        have hkeep : buf'[idx]? = buf1[idx]? := hpix'.2 (by omega)
        rw [hkeep]
        by_cases hleft : im ≤ idx
        · have hc : ((idx - im : Nat) : ℚ) < x := by
            have h1 : idx - im + 1 ≤ tn := by omega
            have h2 : ((idx - im + 1 : Nat) : ℚ) ≤ (tn : ℚ) := by exact_mod_cast h1
            push_cast at h2
            rw [htnq] at htle
            linarith
          have hin : Inside inter ((idx - im : Nat) : ℚ) ↔ b = true := by
            rw [hins, hpre_eq, inside_iff_of_split pre (x :: rest) _ b ?_ ?_ hb]
            · constructor
              · rintro (h | h)
                · exact h
                · exact absurd (sorted_head_le hsorted_it _ h) (not_le.2 hc)
              · exact Or.inl
            · intro y hy
              have := hpre y hy
              have h0 : (0 : ℚ) ≤ ((idx - im : Nat) : ℚ) := Nat.cast_nonneg _
              linarith
            · intro y hy
              exact le_trans (le_of_lt hc) (sorted_head_le hsorted_it y hy)
          rw [hin, hbuf1]
          constructor
          · rintro ⟨_, h2, h3⟩
            rw [if_pos h3, fill_range_getElem? v _ im buf idx hidx]
            have : im ≤ idx ∧ idx < im + (min (im + w) (im + tn) - im) := by omega
            rw [if_pos this]
          · intro h
            by_cases hbt : b = true
            · rw [if_pos hbt, fill_range_getElem? v _ im buf idx hidx]
              have : ¬ (im ≤ idx ∧ idx < im + (min (im + w) (im + tn) - im)) := by
                rintro ⟨h1, h2⟩
                exact h ⟨h1, by omega, hbt⟩
              rw [if_neg this]
            · rw [if_neg hbt]
        · constructor
          · rintro ⟨h1, _, _⟩
            exact absurd h1 hleft
          · intro _
            rw [hbuf1]
            split
            · rw [fill_range_getElem? v _ im buf idx hidx]
              have : ¬ (im ≤ idx ∧ idx < im + (min (im + w) (im + tn) - im)) := by omega
              rw [if_neg this]
            · rfl

/-! ## C1: the row filler -/

theorem sweep_eq_none_iff (v : α) (S : List ℚ) (n : Nat) :
    ∀ (im : Nat) (i : ℚ) (b : Bool) (it : List ℚ) (buf : List α),
    SweepInv S i b it →
    (sweep v n im i b it buf = none ↔
      Odd S.length ∧ ∃ k : Nat, k < n ∧ ∀ x ∈ S, x < i + (k : ℚ)) := by
  induction n with
  | zero =>
    intro im i b it buf _
    simp [sweep]
  | succ n ih =>
    intro im i b it buf hinv
    obtain ⟨hinv', hhead⟩ := skip_lt_inv S i b it hinv
    obtain ⟨pre, hpre_eq, hpre, hb⟩ := hinv'
    rcases hsk : skip_lt i b it with ⟨b', it'⟩
    rw [hsk] at hpre_eq hb hhead
    simp only at hpre_eq hb hhead
    cases it' with
    | nil =>
      rw [List.append_nil] at hpre_eq
      subst hpre_eq
      simp only [sweep, hsk]
      constructor
      · intro h
        cases b'
        · simp at h
        · exact ⟨hb.1 rfl, 0, Nat.succ_pos n, by simpa using hpre⟩
      · rintro ⟨hodd, _⟩
        rw [hb.2 hodd]
        rfl
    | cons x rest =>
      have hxi : i ≤ x := hhead x rfl
      have hxS : x ∈ S := by rw [hpre_eq]; simp
      have hinv2 : SweepInv S (i + 1) b' (x :: rest) :=
        ⟨pre, hpre_eq, fun y hy => by have := hpre y hy; linarith, hb⟩
      simp only [sweep, hsk]
      rw [ih (im + 1) (i + 1) b' (x :: rest) _ hinv2]
      constructor
      · rintro ⟨hodd, k, hk, hall⟩
        refine ⟨hodd, k + 1, by omega, ?_⟩
        intro y hy
        have := hall y hy
        push_cast
        linarith
      · rintro ⟨hodd, k, hk, hall⟩
        cases k with
        | zero =>
          have := hall x hxS
          simp only [Nat.cast_zero, add_zero] at this
          exact absurd this (not_lt.2 hxi)
        | succ k =>
          refine ⟨hodd, k, by omega, ?_⟩
          intro y hy
          have := hall y hy
          push_cast at this
          linarith

/-- When `fill_line` fails its consistency check `assert(!bIn)`, for a row of `w` pixels. -/
theorem fill_line_eq_none_iff (v : α) (buf : List α) (im w : Nat) (inter : List ℚ) :
    fill_line v buf im (im + w) inter = none ↔
      Odd inter.length ∧ (∃ x ∈ inter, 0 ≤ x) ∧ ∀ x ∈ inter, x < (w : ℚ) - 1 := by
  set S := inter.insertionSort (· ≤ ·) with hSdef
  have hperm : S.Perm inter := List.perm_insertionSort _ _
  have hS : S.Sorted (· ≤ ·) := List.sorted_insertionSort _ _
  rw [← hperm.length_eq]
  have hmem : ∀ x, x ∈ inter ↔ x ∈ S := fun x => hperm.mem_iff.symm
  simp only [hmem]
  obtain ⟨⟨pre, hpre_eq, hpre, hb⟩, hhead⟩ := skip_left_spec S
  rcases hsk : skip_left false S with ⟨b, it⟩
  rw [hsk] at hpre_eq hb hhead
  simp only at hpre_eq hb hhead
  cases it with
  | nil =>
    rw [List.append_nil] at hpre_eq
    simp only [fill_line, ← hSdef, hsk]
    constructor
    · intro h
      simp at h
    · rintro ⟨_, ⟨x, hx, hx0⟩, _⟩
      rw [hpre_eq] at hx
      exact absurd (hpre x hx) (not_lt.2 hx0)
  | cons x rest =>
    have hx0 : 0 ≤ x := hhead x rfl
    have hxS : x ∈ S := by rw [hpre_eq]; simp
    obtain ⟨ht0, htle, htlt⟩ := toInt_of_nonneg hx0
    obtain ⟨tn, htn⟩ := Int.eq_ofNat_of_zero_le ht0
    have htnq : ((toInt x : Int) : ℚ) = (tn : ℚ) := by rw [htn]; simp
    have htoNat : (toInt x).toNat = tn := by rw [htn]; simp
    rw [htnq] at htle htlt
    have hinv : SweepInv S (tn : ℚ) b (x :: rest) := by
      refine ⟨pre, hpre_eq, ?_, hb⟩
      intro y hy
      have := hpre y hy
      have h0 : (0 : ℚ) ≤ (tn : ℚ) := Nat.cast_nonneg _
      linarith
    simp only [fill_line, ← hSdef, hsk, htoNat, htnq, Option.map_eq_none']
    rw [sweep_eq_none_iff v S _ _ _ _ _ _ hinv]
    constructor
    · rintro ⟨hodd, k, hk, hall⟩
      refine ⟨hodd, ⟨x, hxS, hx0⟩, ?_⟩
      intro y hy
      have h1 := hall y hy
      have h2 : tn + k + 1 ≤ w := by omega
      have h3 : ((tn + k + 1 : Nat) : ℚ) ≤ (w : ℚ) := by exact_mod_cast h2
      push_cast at h3
      linarith
    · rintro ⟨hodd, _, hall⟩
      have hxw := hall x hxS
      have h1 : (tn : ℚ) < (w : ℚ) - 1 := lt_of_le_of_lt htle hxw
      have h2 : tn + 1 < w := by
        have : ((tn + 1 : Nat) : ℚ) < (w : ℚ) := by push_cast; linarith
        exact_mod_cast this
      refine ⟨hodd, w - 1 - tn, by omega, ?_⟩
      intro y hy
      have h3 := hall y hy
      have h4 : ((w - 1 - tn : Nat) : ℚ) = (w : ℚ) - 1 - (tn : ℚ) := by
        rw [Nat.cast_sub (by omega), Nat.cast_sub (by omega)]
        simp
      rw [h4]
      linarith

/-! ## C7: recording a bound -/

/-- C7. Out-of-range rows are dropped: `bound` never changes the number of rows; it leaves
the table unchanged when `iy < 0` or `iy` is at least the number of rows; otherwise it appends
`x` to row `iy` and leaves every other row unchanged. -/
theorem bound_frame (inter : Table) (x : ℚ) (iy : Int) :
    (bound inter x iy).length = inter.length ∧
    (iy < 0 ∨ (inter.length : Int) ≤ iy → bound inter x iy = inter) ∧
    (0 ≤ iy ∧ iy < (inter.length : Int) →
      (bound inter x iy)[iy.toNat]? = (inter[iy.toNat]?).map (· ++ [x]) ∧
      ∀ r : Nat, r ≠ iy.toNat → (bound inter x iy)[r]? = inter[r]?) := by
  refine ⟨?_, ?_, ?_⟩
  · unfold bound
    split <;> simp
  · intro h
    unfold bound
    rw [if_neg (by omega)]
  · intro h
    have hlt : iy.toNat < inter.length := by omega
    unfold bound
    rw [if_pos h]
    refine ⟨?_, ?_⟩
    · rw [List.getElem?_set_self hlt, List.getElem?_eq_getElem hlt, List.getD_eq_getElem _ _ hlt]
      rfl
    · intro r hr
      exact List.getElem?_set_ne (Ne.symm hr)

/-- C7, at a concrete table: a bound on row 1 of three rows. -/
theorem bound_frame_witness :
    (bound [[], [1], []] 2 1).length = [[], [(1 : ℚ)], []].length ∧
    ((1 : Int) < 0 ∨ ([[], [(1 : ℚ)], []].length : Int) ≤ 1 →
      bound [[], [1], []] 2 1 = [[], [1], []]) ∧
    ((0 : Int) ≤ 1 ∧ (1 : Int) < ([[], [(1 : ℚ)], []].length : Int) →
      (bound [[], [1], []] 2 1)[(1 : Int).toNat]? =
        ([[], [(1 : ℚ)], []][(1 : Int).toNat]?).map (· ++ [2]) ∧
      ∀ r : Nat, r ≠ (1 : Int).toNat → (bound [[], [1], []] 2 1)[r]? = [[], [(1 : ℚ)], []][r]?) :=
  bound_frame [[], [1], []] 2 1

/-! ## C8: a reused interval table -/

theorem resize_length (inter : Table) (size : Nat) : (resize inter size).length = size := by
  unfold resize
  rw [List.length_append, List.length_take, List.length_replicate]
  omega

/-- Whatever the table held before, `init_inter` leaves `size` empty rows. -/
theorem init_inter_eq (inter : Table) (size : Nat) :
    init_inter inter size = List.replicate size [] := by
  unfold init_inter
  rw [List.eq_replicate_iff]
  refine ⟨by rw [List.length_map, resize_length], ?_⟩
  intro b hb
  obtain ⟨_, _, rfl⟩ := List.mem_map.1 hb
  rfl

/-- The buffer computed by `fill_curve` does not depend on the table argument. -/
theorem fill_curve_fst_table (line : List Point) (value : α) (out : List α) (w h : Nat)
    (t1 t2 : Option Table) :
    (fill_curve line value out w h t1).map Prod.fst =
      (fill_curve line value out w h t2).map Prod.fst := by
  have htbl : ∀ t : Option Table,
      (match t with
        | none => List.replicate h []
        | some t => init_inter t h) = (List.replicate h [] : Table) := by
    intro t
    cases t with
    | none => rfl
    | some t => exact init_inter_eq t h
  unfold fill_curve
  simp only [htbl]
  by_cases hl : line.isEmpty = true
  · simp [hl]
  · simp only [hl]
    by_cases hd : (PolyIterator.init line).dir = 0
    · simp [hd, Option.map_map, Function.comp_def]
    · simp only [hd, if_false, Bool.false_eq_true]
      cases add_points (PolyIterator.init line) line.tail (List.replicate h []) with
      | none => rfl
      | some r =>
        obtain ⟨p, tbl⟩ := r
        simp only
        cases add_point p (line.headD default) tbl with
        | none => rfl
        | some r2 =>
          obtain ⟨p2, tbl2⟩ := r2
          simp only
          cases fill_inter value out w h tbl2 with
          | none => rfl
          | some r3 => rfl

/-- C8. Reused-table correctness: whatever a caller-supplied interval table holds (any number
of rows, any bounds), `fill_curve` called with that table produces the same buffer as
`fill_curve` called with no table; hence filling curve `A` then curve `B` through one shared
table gives the same buffer as filling them with two internally allocated tables. -/
theorem fill_curve_reused_table (A B : List Point) (va vb : α) (out : List α) (w h : Nat)
    (t : Table) :
    (fill_curve A va out w h (some t)).map Prod.fst =
      (fill_curve A va out w h none).map Prod.fst ∧
    ((fill_curve A va out w h (some t)).bind
        (fun r => fill_curve B vb r.1 w h r.2)).map Prod.fst =
      ((fill_curve A va out w h none).bind
        (fun r => fill_curve B vb r.1 w h none)).map Prod.fst := by
  have h1 := fill_curve_fst_table A va out w h (some t) none
  refine ⟨h1, ?_⟩
  cases hA : fill_curve A va out w h (some t) with
  | none =>
    rw [hA] at h1
    cases hA' : fill_curve A va out w h none with
    | none => rfl
    | some r => rw [hA'] at h1; simp at h1
  | some r =>
    rw [hA] at h1
    cases hA' : fill_curve A va out w h none with
    | none => rw [hA'] at h1; simp at h1
    | some r' =>
      rw [hA'] at h1
      simp only [Option.map_some', Option.some.injEq] at h1
      simp only [Option.some_bind, h1]
      exact fill_curve_fst_table B vb r'.1 w h r.2 none

/-! ## C9: idempotence -/

theorem paint_length (v : α) (ws : List Nat) (buf : List α) :
    (paint v ws buf).length = buf.length := by
  induction ws generalizing buf with
  | nil => rfl
  | cons i ws ih => simp [paint, List.foldl_cons] at ih ⊢; rw [ih]; simp

theorem paint_append (v : α) (ws1 ws2 : List Nat) (buf : List α) :
    paint v (ws1 ++ ws2) buf = paint v ws2 (paint v ws1 buf) := by
  simp [paint, List.foldl_append]

theorem paint_getElem? (v : α) (ws : List Nat) (buf : List α) (idx : Nat) :
    (paint v ws buf)[idx]? = if idx ∈ ws ∧ idx < buf.length then some v else buf[idx]? := by
  induction ws generalizing buf with
  | nil => simp [paint]
  | cons i ws ih =>
    have hstep : paint v (i :: ws) buf = paint v ws (buf.set i v) := rfl
    rw [hstep, ih, List.length_set, List.getElem?_set]
    by_cases h1 : idx ∈ ws
    · by_cases h2 : idx < buf.length
      · simp [h1, h2]
      · have : buf[idx]? = none := List.getElem?_eq_none (by omega)
        by_cases h3 : i = idx
        · subst h3; simp [h2]; omega
        · simp [h1, h2, h3, this]
    · by_cases h3 : i = idx
      · subst h3
        by_cases h2 : i < buf.length
        · simp [h1, h2]
        · have : buf[i]? = none := List.getElem?_eq_none (by omega)
          simp [h1, h2, this]
      · have : ¬ idx = i := fun h => h3 h.symm
        simp [h1, h3, this]

theorem paint_idem (v : α) (ws : List Nat) (buf : List α) :
    paint v ws (paint v ws buf) = paint v ws buf := by
  apply List.ext_getElem?
  intro idx
  rw [paint_getElem?, paint_length, paint_getElem?]
  by_cases h : idx ∈ ws ∧ idx < buf.length
  · simp [h]
  · simp [h]

theorem fill_range_eq_paint (v : α) (n first : Nat) (buf : List α) :
    fill_range v n first buf = paint v (List.range' first n) buf := by
  induction n generalizing first buf with
  | zero => rfl
  | succ n ih =>
    rw [fill_range, ih, List.range'_succ]
    rfl

/-- The loop `sweep` either fails for every buffer or writes at offsets that do not depend
on the buffer. -/
theorem sweep_paints (v : α) (n : Nat) : ∀ (im : Nat) (i : ℚ) (b : Bool) (it : List ℚ),
    (∀ buf : List α, sweep v n im i b it buf = none) ∨
    ∃ ws, ∀ buf : List α, sweep v n im i b it buf = some (paint v ws buf) := by
  induction n with
  | zero =>
    intro im i b it
    exact Or.inr ⟨[], fun buf => rfl⟩
  | succ n ih =>
    intro im i b it
    rcases hsk : skip_lt i b it with ⟨b', it'⟩
    cases it' with
    | nil =>
      cases b'
      · exact Or.inr ⟨[], fun buf => by simp [sweep, hsk, paint]⟩
      · exact Or.inl (fun buf => by simp [sweep, hsk])
    | cons x rest =>
      rcases ih (im + 1) (i + 1) b' (x :: rest) with hn | ⟨ws, hws⟩
      · exact Or.inl (fun buf => by simp only [sweep, hsk]; exact hn _)
      · by_cases hc : b' = true ∨ x = i
        · refine Or.inr ⟨im :: ws, fun buf => ?_⟩
          simp only [sweep, hsk, if_pos hc, hws]
          rfl
        · refine Or.inr ⟨ws, fun buf => ?_⟩
          simp only [sweep, hsk, if_neg hc, hws]

theorem fill_line_paints (v : α) (im e : Nat) (inter : List ℚ) :
    (∀ buf : List α, fill_line v buf im e inter = none) ∨
    ∃ ws, ∀ buf : List α,
      fill_line v buf im e inter = some (paint v ws buf, inter.insertionSort (· ≤ ·)) := by
  rcases hsk : skip_left false (inter.insertionSort (· ≤ ·)) with ⟨b, it⟩
  cases it with
  | nil => exact Or.inr ⟨[], fun buf => by simp [fill_line, hsk, paint]⟩
  | cons x rest =>
    rcases sweep_paints v (e - (im + (toInt x).toNat)) (im + (toInt x).toNat)
      ((toInt x : Int) : ℚ) b (x :: rest) with hn | ⟨ws, hws⟩
    · exact Or.inl (fun buf => by simp only [fill_line, hsk, hn, Option.map_none'])
    · cases b with
      | false =>
        refine Or.inr ⟨ws, fun buf => ?_⟩
        simp [fill_line, hsk, hws]
      | true =>
        refine Or.inr ⟨List.range' im (min e (im + (toInt x).toNat) - im) ++ ws, fun buf => ?_⟩
        simp [fill_line, hsk, hws, fill_range_eq_paint, paint_append]

theorem fill_inter_loop_paints (v : α) (w : Nat) (n : Nat) : ∀ (i : Nat) (inter : Table),
    (∀ im : List α, fill_inter_loop v w n i im inter = none) ∨
    ∃ ws T, ∀ im : List α, fill_inter_loop v w n i im inter = some (paint v ws im, T) := by
  induction n with
  | zero =>
    intro i inter
    exact Or.inr ⟨[], inter, fun im => rfl⟩
  | succ n ih =>
    intro i inter
    by_cases hemp : (inter.getD i []).isEmpty = true
    · rcases ih (i + 1) inter with hn | ⟨ws, T, hws⟩
      · exact Or.inl (fun im => by simp only [fill_inter_loop, hemp, if_true]; exact hn im)
      · exact Or.inr ⟨ws, T, fun im => by simp only [fill_inter_loop, hemp, if_true]; exact hws im⟩
    · rcases fill_line_paints (α := α) v (i * w) ((i + 1) * w) (inter.getD i []) with hn | ⟨ws1, h1⟩
      · exact Or.inl (fun im => by simp only [fill_inter_loop, hemp, hn]; rfl)
      · rcases ih (i + 1) (inter.set i ((inter.getD i []).insertionSort (· ≤ ·))) with
          hn | ⟨ws, T, hws⟩
        · exact Or.inl (fun im => by simp only [fill_inter_loop, hemp, h1]; exact hn _)
        · refine Or.inr ⟨ws1 ++ ws, T, fun im => ?_⟩
          simp only [fill_inter_loop, hemp, h1, paint_append]
          exact hws _

theorem fill_inter_idem (v : α) (w h : Nat) (inter : Table) (im im' : List α) (T : Table)
    (hfill : fill_inter v im w h inter = some (im', T)) :
    fill_inter v im' w h inter = some (im', T) := by
  unfold fill_inter at *
  rcases fill_inter_loop_paints (α := α) v w h 0 inter with hn | ⟨ws, T', hws⟩
  · rw [hn] at hfill
    exact absurd hfill (by simp)
  · rw [hws] at hfill
    simp only [Option.some.injEq, Prod.mk.injEq] at hfill
    rw [hws, ← hfill.1, paint_idem, hfill.2]

theorem sign_ne_zero (f1 f2 : ℚ) : sign f1 f2 ≠ 0 := by
  unfold sign
  split <;> decide

theorem init_dir_ne_zero (line : List Point) : (PolyIterator.init line).dir ≠ 0 := by
  unfold PolyIterator.init
  simp only
  split <;> exact sign_ne_zero _ _

/-- The buffer computed by `fill_curve` on a non-empty curve: the edge walk, then the fill of
the rows. -/
theorem fill_curve_fst_eq (line : List Point) (value : α) (out : List α) (w h : Nat)
    (t : Option Table) (hne : line ≠ []) :
    (fill_curve line value out w h t).map Prod.fst =
      (edge_walk line h).bind (fun T => (fill_inter value out w h T).map Prod.fst) := by
  rw [fill_curve_fst_table line value out w h t none]
  have hl : line.isEmpty = false := by
    cases line with
    | nil => exact absurd rfl hne
    | cons a l => rfl
  unfold fill_curve edge_walk
  simp only [hl, init_dir_ne_zero, if_false, Bool.false_eq_true]
  cases add_points (PolyIterator.init line) line.tail (List.replicate h []) with
  | none => rfl
  | some r =>
    obtain ⟨p, tbl⟩ := r
    simp only
    cases add_point p (line.headD default) tbl with
    | none => rfl
    | some r2 =>
      obtain ⟨p2, tbl2⟩ := r2
      simp only [Option.some_bind]
      cases fill_inter value out w h tbl2 with
      | none => rfl
      | some r3 => rfl

/-- C9. Idempotence: when `fill_curve` completes on a curve, a value and a buffer, applying
it again to the resulting buffer with the same curve and value (and any table argument)
completes and gives that same buffer. -/
theorem fill_curve_idempotent (line : List Point) (value : α) (out out' : List α) (w h : Nat)
    (t t' t2 : Option Table) (hfill : fill_curve line value out w h t = some (out', t')) :
    (fill_curve line value out' w h t2).map Prod.fst = some out' := by
  cases line with
  | nil =>
    simp only [fill_curve, List.isEmpty_nil, if_true, Option.some.injEq, Prod.mk.injEq] at hfill
    simp [fill_curve, hfill.1]
  | cons a l =>
    have h1 : (fill_curve (a :: l) value out w h t).map Prod.fst = some out' := by
      rw [hfill]; rfl
    rw [fill_curve_fst_eq _ _ _ _ _ _ (List.cons_ne_nil a l)] at h1 ⊢
    cases hT : edge_walk (a :: l) h with
    | none => rw [hT] at h1; simp at h1
    | some T =>
      rw [hT] at h1
      simp only [Option.some_bind] at h1 ⊢
      cases hfi : fill_inter value out w h T with
      | none => rw [hfi] at h1; simp at h1
      | some r =>
        obtain ⟨o, T'⟩ := r
        rw [hfi] at h1
        simp only [Option.map_some', Option.some.injEq] at h1
        subst h1
        rw [fill_inter_idem value w h T out o T' hfi]
        rfl

/-- C9, at a concrete curve: the square with corners `(0,0)` and `(2,2)` on a 3x3 buffer. -/
theorem fill_curve_idempotent_witness :
    fill_curve [⟨0, 0⟩, ⟨2, 0⟩, ⟨2, 2⟩, ⟨0, 2⟩] (1 : Nat) [0, 0, 0, 0, 0, 0, 0, 0, 0] 3 3 none =
      some ([1, 1, 0, 1, 1, 0, 0, 0, 0], none) ∧
    (fill_curve [⟨0, 0⟩, ⟨2, 0⟩, ⟨2, 2⟩, ⟨0, 2⟩] (1 : Nat) [1, 1, 0, 1, 1, 0, 0, 0, 0] 3 3
      none).map Prod.fst = some [1, 1, 0, 1, 1, 0, 0, 0, 0] :=
  ⟨by decide!, fill_curve_idempotent [⟨0, 0⟩, ⟨2, 0⟩, ⟨2, 2⟩, ⟨0, 2⟩] 1
    [0, 0, 0, 0, 0, 0, 0, 0, 0] [1, 1, 0, 1, 1, 0, 0, 0, 0] 3 3 none none none (by decide!)⟩

/-! ## C4: a curve with a single vertex -/

/-- A zero-length edge: `add_point` towards the current vertex changes nothing. -/
theorem add_point_same (s : PolyIterator) (pi : Point) (inter : Table)
    (hp : s.p = pi + delta) : add_point s pi inter = some (s, inter) := by
  unfold add_point
  simp only [← hp, ne_eq, not_true_eq_false, false_and, if_true, if_false]

theorem fill_inter_loop_empty (v : α) (w : Nat) (inter : Table)
    (hemp : ∀ r, inter.getD r [] = []) (n : Nat) :
    ∀ (i : Nat) (im : List α), fill_inter_loop v w n i im inter = some (im, inter) := by
  induction n with
  | zero => intro i im; rfl
  | succ n ih =>
    intro i im
    simp only [fill_inter_loop, hemp, List.isEmpty_nil, if_true]
    exact ih _ _

theorem getD_replicate_nil (h r : Nat) : (List.replicate h ([] : List ℚ)).getD r [] = [] := by
  rw [List.getD_eq_getElem?_getD, List.getElem?_replicate]
  split <;> rfl

theorem last_point_single (pt : Point) : last_point [pt] = 0 := by
  simp [last_point, last_point_loop]

theorem init_single (pt : Point) : (PolyIterator.init [pt]).p = pt + delta := by
  unfold PolyIterator.init
  simp only [last_point_single, List.getD_cons_zero, if_true]

theorem edge_walk_single (pt : Point) (h : Nat) :
    edge_walk [pt] h = some (List.replicate h []) := by
  unfold edge_walk
  simp only [List.tail_cons, add_points, List.headD_cons]
  rw [add_point_same _ _ _ (init_single pt)]

/-- C4. The code on a curve with a single vertex: `sign` never returns 0, so the test
`p.dir==0` of `fill_curve` never holds and `fill_point` is never called. For every point, also
one whose shifted coordinates are exact integers, `fill_curve` leaves the buffer unchanged;
the point `(5.5, 3.5)` on an 8x8 zero buffer fills nothing. -/
theorem fill_curve_single_vertex_unchanged :
    (∀ (α : Type) (pt : Point) (value : α) (out : List α) (w h : Nat) (t : Option Table),
      (fill_curve [pt] value out w h t).map Prod.fst = some out) ∧
    fill_curve [⟨11/2, 7/2⟩] (1 : Nat) (List.replicate 64 0) 8 8 none =
      some (List.replicate 64 0, none) := by
  have hgen : ∀ (α : Type) (pt : Point) (value : α) (out : List α) (w h : Nat)
      (t : Option Table), (fill_curve [pt] value out w h t).map Prod.fst = some out := by
    intro α pt value out w h t
    rw [fill_curve_fst_eq _ _ _ _ _ _ (List.cons_ne_nil pt []), edge_walk_single]
    simp only [Option.some_bind, fill_inter]
    rw [fill_inter_loop_empty value w _ (getD_replicate_nil h)]
    rfl
  refine ⟨hgen, ?_⟩
  have h1 := hgen Nat ⟨11/2, 7/2⟩ 1 (List.replicate 64 0) 8 8 none
  cases hf : fill_curve [⟨11/2, 7/2⟩] (1 : Nat) (List.replicate 64 0) 8 8 none with
  | none => rw [hf] at h1; simp at h1
  | some r =>
    obtain ⟨o, t⟩ := r
    rw [hf] at h1
    simp only [Option.map_some', Option.some.injEq] at h1
    subst h1
    have h2 : t = none := by
      have := congrArg (Option.map Prod.snd) hf
      simp only [Option.map_some'] at this
      rw [← Option.some_inj, ← this]
      decide!
    rw [h2]

/-! ## C5: parity of the rows of the interval table -/

/-- C5. The code on the curve `(0.5,0.25), (0.5,0), (1.5,0)`, which lies inside the raster,
with a table of one row: the downward edge from shifted `y = -0.25` to `y = -0.5` starts its
row loop at `(int)(-0.25) = 0` and records the bound `0` on row 0, a row it does not cross;
the upward closing edge records nothing there. Row 0 ends with a single bound, and
`fill_curve` on a 2x1 buffer fails the consistency check of `fill_line`. -/
theorem edge_walk_odd_row :
    edge_walk [⟨1/2, 1/4⟩, ⟨1/2, 0⟩, ⟨3/2, 0⟩] 1 = some [[0]] ∧
    fill_curve [⟨1/2, 1/4⟩, ⟨1/2, 0⟩, ⟨3/2, 0⟩] (1 : Nat) [0, 0] 2 1 none = none := by
  decide!

/-! ## The constructor and the closing edge -/

theorem last_point_loop_spec (p0 : Point) (rev : List Point) :
    (∀ q, rev.find? (fun x => decide (x ≠ p0)) = some q →
      rev.reverse[last_point_loop p0 rev (rev.length - 1)]? = some q) ∧
    (rev.find? (fun x => decide (x ≠ p0)) = none →
      last_point_loop p0 rev (rev.length - 1) = 0) := by
  induction rev with
  | nil => simp [last_point_loop]
  | cons pt rest ih =>
    have hlen : (pt :: rest).length - 1 = rest.length := by simp
    rw [hlen]
    by_cases hpt : pt ≠ p0
    · have hloop : last_point_loop p0 (pt :: rest) rest.length = rest.length := by
        simp [last_point_loop, hpt]
      rw [hloop]
      have hfind : (pt :: rest).find? (fun x => decide (x ≠ p0)) = some pt :=
        List.find?_cons_of_pos _ (by simpa using hpt)
      rw [hfind]
      constructor
      · intro q hq
        simp only [Option.some.injEq] at hq
        subst hq
        simp
      · intro hq
        simp at hq
    · have hloop : last_point_loop p0 (pt :: rest) rest.length =
          last_point_loop p0 rest (rest.length - 1) := by
        simp [last_point_loop, hpt]
      have hfind : (pt :: rest).find? (fun x => decide (x ≠ p0)) =
          rest.find? (fun x => decide (x ≠ p0)) :=
        List.find?_cons_of_neg _ (by simpa using hpt)
      rw [hloop, hfind]
      refine ⟨?_, ih.2⟩
      intro q hq
      have h1 := ih.1 q hq
      have hlt : last_point_loop p0 rest (rest.length - 1) < rest.reverse.length := by
        by_contra hcon
        rw [List.getElem?_eq_none (by omega)] at h1
        exact absurd h1 (by simp)
      rw [List.reverse_cons, List.getElem?_append_left hlt]
      exact h1

theorem getD_last_point (curve : List Point) :
    curve.getD (last_point curve) default = prev_vertex curve := by
  have h := last_point_loop_spec (curve.headD default) curve.reverse
  rw [List.length_reverse, List.reverse_reverse] at h
  unfold prev_vertex last_point
  cases hf : curve.reverse.find? (fun x => decide (x ≠ curve.headD default)) with
  | none =>
    rw [h.2 hf]
    cases curve <;> rfl
  | some q =>
    rw [List.getD_eq_getElem?_getD, h.1 q hf]
    rfl

theorem init_eq_arrive (curve : List Point) :
    PolyIterator.init curve =
      arrive (prev_vertex curve + delta) (curve.headD default + delta) := by
  have h0 : curve.getD 0 default = curve.headD default := by cases curve <;> rfl
  unfold PolyIterator.init arrive
  simp only [getD_last_point, h0]

/-! ## C10: duplicate consecutive points -/

theorem add_point_p (s s' : PolyIterator) (pi : Point) (T T' : Table)
    (h : add_point s pi T = some (s', T')) : s'.p = pi + delta := by
  unfold add_point at h
  simp only at h
  split at h
  · split at h
    · split at h <;>
      · simp only [Option.some.injEq, Prod.mk.injEq] at h
        rw [← h.1]
    · simp only [Option.some.injEq, Prod.mk.injEq] at h
      rw [← h.1]
  · simp only [Option.map_eq_some'] at h
    obtain ⟨t, _, ht⟩ := h
    simp only [Prod.mk.injEq] at ht
    rw [← ht.1]

theorem add_points_append (s : PolyIterator) (l1 l2 : List Point) (T : Table) :
    add_points s (l1 ++ l2) T = (add_points s l1 T).bind (fun r => add_points r.1 l2 r.2) := by
  induction l1 generalizing s T with
  | nil => rfl
  | cons pt l1 ih =>
    simp only [List.cons_append, add_points]
    cases add_point s pt T with
    | none => rfl
    | some r => exact ih r.1 r.2

theorem add_points_dup (s : PolyIterator) (pre post : List Point) (pt : Point) (T : Table) :
    add_points s (pre ++ pt :: pt :: post) T = add_points s (pre ++ pt :: post) T := by
  rw [add_points_append, add_points_append]
  congr 1
  funext r
  simp only [add_points]
  cases h : add_point r.1 pt r.2 with
  | none => rfl
  | some r' =>
    obtain ⟨s', T'⟩ := r'
    simp only
    rw [add_point_same s' pt T' (add_point_p _ _ _ _ _ h)]

theorem find?_dup (f : Point → Bool) (A B : List Point) (pt : Point) :
    (A ++ pt :: pt :: B).find? f = (A ++ pt :: B).find? f := by
  rw [List.find?_append, List.find?_append]
  congr 1
  cases hf : f pt
  · rw [List.find?_cons_of_neg _ (by simp [hf])]
  · rw [List.find?_cons_of_pos _ hf, List.find?_cons_of_pos _ hf]

theorem prev_vertex_dup (pre post : List Point) (pt : Point) :
    prev_vertex (pre ++ pt :: pt :: post) = prev_vertex (pre ++ pt :: post) := by
  have hhead : (pre ++ pt :: pt :: post).headD default = (pre ++ pt :: post).headD default := by
    cases pre <;> rfl
  unfold prev_vertex
  rw [hhead]
  congr 1
  have h1 : (pre ++ pt :: pt :: post).reverse = post.reverse ++ pt :: pt :: pre.reverse := by
    simp
  have h2 : (pre ++ pt :: post).reverse = post.reverse ++ pt :: pre.reverse := by
    simp
  rw [h1, h2, find?_dup]

theorem edge_walk_eq (line : List Point) (h : Nat) :
    edge_walk line h =
      (add_points (PolyIterator.init line) (line.tail ++ [line.headD default])
        (List.replicate h [])).map Prod.snd := by
  unfold edge_walk
  rw [add_points_append]
  cases add_points (PolyIterator.init line) line.tail (List.replicate h []) with
  | none => rfl
  | some r =>
    obtain ⟨p, tbl⟩ := r
    simp only [Option.some_bind, add_points]
    cases add_point p (line.headD default) tbl with
    | none => rfl
    | some r2 => rfl

theorem edge_walk_dup (pre post : List Point) (pt : Point) (h : Nat) :
    edge_walk (pre ++ pt :: pt :: post) h = edge_walk (pre ++ pt :: post) h := by
  rw [edge_walk_eq, edge_walk_eq, init_eq_arrive, init_eq_arrive, prev_vertex_dup]
  cases pre with
  | nil =>
    simp only [List.nil_append, List.headD_cons, List.tail_cons, List.cons_append, add_points]
    rw [add_point_same _ _ _ (by simp only [arrive]; split <;> rfl)]
    rfl
  | cons a pre =>
    simp only [List.cons_append, List.headD_cons, List.tail_cons, List.append_assoc]
    rw [add_points_dup]

/-- The result of `fill_curve` on a non-empty curve: the edge walk, then the fill of the
rows. -/
theorem fill_curve_eq (line : List Point) (value : α) (out : List α) (w h : Nat)
    (t : Option Table) (hne : line ≠ []) :
    fill_curve line value out w h t =
      (edge_walk line h).bind (fun T => (fill_inter value out w h T).map
        (fun r => (r.1, if t.isNone then none else some r.2))) := by
  have htbl : (match t with
        | none => List.replicate h []
        | some t => init_inter t h) = (List.replicate h [] : Table) := by
    cases t with
    | none => rfl
    | some t => exact init_inter_eq t h
  have hl : line.isEmpty = false := by
    cases line with
    | nil => exact absurd rfl hne
    | cons a l => rfl
  unfold fill_curve edge_walk
  simp only [hl, init_dir_ne_zero, if_false, Bool.false_eq_true, htbl]
  cases add_points (PolyIterator.init line) line.tail (List.replicate h []) with
  | none => rfl
  | some r =>
    obtain ⟨p, tbl⟩ := r
    simp only
    cases add_point p (line.headD default) tbl with
    | none => rfl
    | some r2 =>
      obtain ⟨p2, tbl2⟩ := r2
      simp only [Option.some_bind]
      cases fill_inter value out w h tbl2 with
      | none => rfl
      | some r3 => rfl

theorem fill_curve_dup (pre post : List Point) (pt : Point) (value : α) (out : List α)
    (w h : Nat) (t : Option Table) :
    fill_curve (pre ++ pt :: pt :: post) value out w h t =
      fill_curve (pre ++ pt :: post) value out w h t := by
  rw [fill_curve_eq _ _ _ _ _ _ (by simp), fill_curve_eq _ _ _ _ _ _ (by simp), edge_walk_dup]

/-- C10. Duplicate consecutive points are tolerated: for a non-empty curve and a position
`i` in it, the curve with a copy of vertex `i` inserted immediately after vertex `i` gives the
same result of `fill_curve` (buffer and table) as the original curve. -/
theorem fill_curve_duplicate_point (curve : List Point) (i : Nat) (value : α) (out : List α)
    (w h : Nat) (t : Option Table) (hi : i < curve.length) :
    fill_curve (curve.take (i + 1) ++ curve.drop i) value out w h t =
      fill_curve curve value out w h t := by
  have hdrop : curve.drop i = curve[i] :: curve.drop (i + 1) := List.drop_eq_getElem_cons hi
  have hsplit : curve = curve.take i ++ curve[i] :: curve.drop (i + 1) := by
    rw [← hdrop, List.take_append_drop]
  have htake : curve.take (i + 1) = curve.take i ++ [curve[i]] := by
    rw [List.take_succ, List.getElem?_eq_getElem hi]
    rfl
  have hdup : curve.take (i + 1) ++ curve.drop i =
      curve.take i ++ curve[i] :: curve[i] :: curve.drop (i + 1) := by
    rw [htake, hdrop, List.append_assoc]
    rfl
  rw [hdup, fill_curve_dup]
  exact congrArg (fun c => fill_curve c value out w h t) hsplit.symm

/-- C10, at a concrete curve: the second vertex of a square is doubled. -/
theorem fill_curve_duplicate_point_witness :
    1 < [(⟨0, 0⟩ : Point), ⟨2, 0⟩, ⟨2, 2⟩, ⟨0, 2⟩].length ∧
    fill_curve ([(⟨0, 0⟩ : Point), ⟨2, 0⟩, ⟨2, 2⟩, ⟨0, 2⟩].take (1 + 1) ++
        [(⟨0, 0⟩ : Point), ⟨2, 0⟩, ⟨2, 2⟩, ⟨0, 2⟩].drop 1) (1 : Nat)
        [0, 0, 0, 0, 0, 0, 0, 0, 0] 3 3 none =
      fill_curve [⟨0, 0⟩, ⟨2, 0⟩, ⟨2, 2⟩, ⟨0, 2⟩] (1 : Nat) [0, 0, 0, 0, 0, 0, 0, 0, 0] 3 3 none :=
  ⟨by decide, fill_curve_duplicate_point [⟨0, 0⟩, ⟨2, 0⟩, ⟨2, 2⟩, ⟨0, 2⟩] 1 1
    [0, 0, 0, 0, 0, 0, 0, 0, 0] 3 3 none (by decide)⟩

/-! ## Rotation of the vertex list -/

theorem Sim.refl (s : PolyIterator) : Sim s s := ⟨rfl, rfl, fun _ => rfl⟩

theorem Sim.symm {s1 s2 : PolyIterator} (h : Sim s1 s2) : Sim s2 s1 :=
  ⟨h.1.symm, h.2.1.symm, fun hi => (h.2.2 (by rw [h.1]; exact hi)).symm⟩

theorem Sim.trans {s1 s2 s3 : PolyIterator} (h : Sim s1 s2) (h' : Sim s2 s3) : Sim s1 s3 :=
  ⟨h.1.trans h'.1, h.2.1.trans h'.2.1,
    fun hi => (h.2.2 hi).trans (h'.2.2 (by rw [← h.1]; exact hi))⟩

theorem Sim.aligned {s1 s2 : PolyIterator} (h : Sim s1 s2) (ha : Aligned s1) : Aligned s2 := by
  intro hb
  rw [← h.1]
  exact ha (by rw [h.2.1]; exact hb)

theorem eq_of_sim_of_integer {s1 s2 : PolyIterator} (h : Sim s1 s2)
    (hi : is_integer s1.p.y = true) : s1 = s2 := by
  obtain ⟨p1, b1, d1⟩ := s1
  obtain ⟨p2, b2, d2⟩ := s2
  obtain ⟨hp, hb, hd⟩ := h
  simp only at hp hb hd hi
  rw [hp, hb, hd hi]

theorem is_integer_false_iff (f : ℚ) : is_integer f = false ↔ f ≠ ((toInt f : Int) : ℚ) := by
  unfold is_integer
  simp

theorem aligned_arrive (q p : Point) : Aligned (arrive q p) := by
  unfold arrive Aligned
  split
  · exact fun h => h
  · intro h
    simp at h

theorem aligned_add_point (s s' : PolyIterator) (pi : Point) (T T' : Table)
    (ha : Aligned s) (h : add_point s pi T = some (s', T')) : Aligned s' := by
  unfold add_point at h
  simp only at h
  split at h
  · rename_i hy
    split at h
    · rename_i hc
      split at h <;>
      · simp only [Option.some.injEq, Prod.mk.injEq] at h
        rw [← h.1]
        intro _
        simp only
        rw [← hy]
        exact hc.2
    · simp only [Option.some.injEq, Prod.mk.injEq] at h
      rw [← h.1]
      intro hb
      simp only at hb ⊢
      rw [← hy]
      exact ha hb
  · simp only [Option.map_eq_some'] at h
    obtain ⟨t, _, ht⟩ := h
    simp only [Prod.mk.injEq] at ht
    rw [← ht.1]
    intro hb
    simp at hb

/-- Two alike states take the same edge alike: both fail, or both succeed with the same
table and alike states. -/
theorem sim_add_point (s1 s2 : PolyIterator) (pi : Point) (T : Table)
    (hs : Sim s1 s2) (ha : Aligned s1) :
    (add_point s1 pi T = none ∧ add_point s2 pi T = none) ∨
    ∃ s1' s2' T', add_point s1 pi T = some (s1', T') ∧ add_point s2 pi T = some (s2', T') ∧
      Sim s1' s2' := by
  by_cases hi : is_integer s1.p.y = true
  · rw [← eq_of_sim_of_integer hs hi]
    cases h : add_point s1 pi T with
    | none => exact Or.inl ⟨rfl, rfl⟩
    | some r => exact Or.inr ⟨r.1, r.1, r.2, rfl, rfl, Sim.refl _⟩
  · have hi' : is_integer s1.p.y = false := by simpa using hi
    have hb1 : s1.bHorizontal = false := by
      cases hb : s1.bHorizontal
      · rfl
      · exact absurd (ha hb) hi
    have hb2 : s2.bHorizontal = false := by rw [← hs.2.1]; exact hb1
    have hne : s1.p.y ≠ ((toInt s1.p.y : Int) : ℚ) := (is_integer_false_iff _).1 hi'
    have hp : s2.p = s1.p := hs.1.symm
    by_cases hy : s1.p.y = (pi + delta).y
    · right
      have hi2 : is_integer (pi + delta).y = false := by rw [← hy]; exact hi'
      refine ⟨{ p := pi + delta, bHorizontal := false, dir := s1.dir },
        { p := pi + delta, bHorizontal := false, dir := s2.dir }, T, ?_, ?_, ?_⟩
      · simp [add_point, hy, hi2, hb1]
      · simp [add_point, hp, hy, hi2, hb2]
      · refine ⟨rfl, rfl, ?_⟩
        intro h
        simp only at h
        rw [← hy] at h
        exact absurd h hi
    · have h1 : add_point s1 pi T = add_point s2 pi T := by
        simp only [add_point, hp, hy, hb1, hb2, hne, and_false, if_false, Bool.false_eq_true]
      rw [← h1]
      cases h : add_point s1 pi T with
      | none => exact Or.inl ⟨rfl, rfl⟩
      | some r => exact Or.inr ⟨r.1, r.1, r.2, rfl, rfl, Sim.refl _⟩

theorem aligned_add_points (pts : List Point) : ∀ (s s' : PolyIterator) (T T' : Table),
    Aligned s → add_points s pts T = some (s', T') → Aligned s' := by
  induction pts with
  | nil =>
    intro s s' T T' ha h
    simp only [add_points, Option.some.injEq, Prod.mk.injEq] at h
    rw [← h.1]; exact ha
  | cons pt rest ih =>
    intro s s' T T' ha h
    simp only [add_points] at h
    cases h1 : add_point s pt T with
    | none => rw [h1] at h; exact absurd h (by simp)
    | some r =>
      obtain ⟨s1, T1⟩ := r
      rw [h1] at h
      exact ih s1 s' T1 T' (aligned_add_point s s1 pt T T1 ha h1) h

theorem sim_add_points (pts : List Point) : ∀ (s1 s2 : PolyIterator) (T : Table),
    Sim s1 s2 → Aligned s1 →
    (add_points s1 pts T = none ∧ add_points s2 pts T = none) ∨
    ∃ s1' s2' T', add_points s1 pts T = some (s1', T') ∧
      add_points s2 pts T = some (s2', T') ∧ Sim s1' s2' := by
  induction pts with
  | nil =>
    intro s1 s2 T hs _
    exact Or.inr ⟨s1, s2, T, rfl, rfl, hs⟩
  | cons pt rest ih =>
    intro s1 s2 T hs ha
    rcases sim_add_point s1 s2 pt T hs ha with ⟨h1, h2⟩ | ⟨s1', s2', T', h1, h2, hs'⟩
    · left
      simp [add_points, h1, h2]
    · simp only [add_points, h1, h2]
      exact ih s1' s2' T' hs' (aligned_add_point s1 s1' pt T T' ha h1)

theorem add_delta_inj {a b : Point} (h : a + delta = b + delta) : a = b := by
  obtain ⟨ax, ay⟩ := a
  obtain ⟨bx, by_⟩ := b
  have hx : ax + delta.x = bx + delta.x := congrArg Point.x h
  have hy : ay + delta.y = by_ + delta.y := congrArg Point.y h
  rw [add_right_cancel hx, add_right_cancel hy]

/-- After a proper edge the walker is in the state the constructor computes for that edge. -/
theorem sim_arrive_of_add_point (s s' : PolyIterator) (pi : Point) (T T' : Table)
    (ha : Aligned s) (hne : s.p ≠ pi + delta) (h : add_point s pi T = some (s', T')) :
    Sim s' (arrive s.p (pi + delta)) := by
  unfold add_point at h
  simp only at h
  by_cases hy : s.p.y = (pi + delta).y
  · have hx : s.p.x ≠ (pi + delta).x := by
      intro hx
      apply hne
      cases hs : s.p
      cases hq : pi + delta
      rw [hs, hq] at hx hy
      simp only at hx hy
      rw [hx, hy]
    by_cases hi : is_integer s.p.y = true
    · have hi2 : is_integer (pi + delta).y = true := by rw [← hy]; exact hi
      have hs' : s' = { p := pi + delta, bHorizontal := true, dir := sign s.p.x (pi + delta).x } := by
        rw [if_pos hy, if_pos ⟨hx, hi⟩] at h
        split at h <;>
        · simp only [Option.some.injEq, Prod.mk.injEq] at h
          exact h.1.symm
      rw [hs']
      unfold arrive
      rw [if_pos hy, hi2]
      exact Sim.refl _
    · have hi' : is_integer s.p.y = false := by simpa using hi
      have hi2 : is_integer (pi + delta).y = false := by rw [← hy]; exact hi'
      have hb : s.bHorizontal = false := by
        cases hb : s.bHorizontal
        · rfl
        · exact absurd (ha hb) hi
      rw [if_pos hy, if_neg (fun hc => hi hc.2)] at h
      simp only [Option.some.injEq, Prod.mk.injEq] at h
      rw [← h.1]
      unfold arrive
      rw [if_pos hy, hi2, hb]
      refine ⟨rfl, rfl, ?_⟩
      intro hc
      simp only at hc
      rw [hi2] at hc
      exact absurd hc (by simp)
  · rw [if_neg hy] at h
    simp only [Option.map_eq_some'] at h
    obtain ⟨t, _, ht⟩ := h
    simp only [Prod.mk.injEq] at ht
    rw [← ht.1]
    unfold arrive
    rw [if_neg hy]
    exact Sim.refl _

/-- The state at the end of a walk that ends at the vertex `P`, in terms of the last vertex
of the walk that differs from `P`. -/
theorem walk_final (P : Point) (pts : List Point) : ∀ (s s' : PolyIterator) (T T' : Table),
    Aligned s → add_points s pts T = some (s', T') →
    (pts = [] → s.p = P + delta) → (∀ x, pts.getLast? = some x → x = P) →
    (∀ q, pts.reverse.find? (fun x => decide (x ≠ P)) = some q →
      Sim s' (arrive (q + delta) (P + delta))) ∧
    (pts.reverse.find? (fun x => decide (x ≠ P)) = none →
      (s.p ≠ P + delta → Sim s' (arrive s.p (P + delta))) ∧ (s.p = P + delta → s' = s)) := by
  induction pts with
  | nil =>
    intro s s' T T' _ h hnil _
    simp only [add_points, Option.some.injEq, Prod.mk.injEq] at h
    refine ⟨by simp, fun _ => ⟨fun hne => absurd (hnil rfl) hne, fun _ => h.1.symm⟩⟩
  | cons pt rest ih =>
    intro s s' T T' ha h _ hlast
    simp only [add_points] at h
    cases h1 : add_point s pt T with
    | none => rw [h1] at h; exact absurd h (by simp)
    | some r =>
      obtain ⟨s1, T1⟩ := r
      rw [h1] at h
      simp only at h
      have ha1 := aligned_add_point s s1 pt T T1 ha h1
      have hp1 : s1.p = pt + delta := add_point_p _ _ _ _ _ h1
      have hrest_nil : rest = [] → s1.p = P + delta := by
        intro hr
        rw [hp1, hlast pt (by rw [hr]; rfl)]
      have hrest_last : ∀ x, rest.getLast? = some x → x = P := by
        intro x hx
        apply hlast x
        cases rest with
        | nil => simp at hx
        | cons y ys => rw [List.getLast?_cons_cons]; exact hx
      obtain ⟨ih1, ih2⟩ := ih s1 s' T1 T' ha1 h hrest_nil hrest_last
      rw [List.reverse_cons, List.find?_append]
      cases hf : rest.reverse.find? (fun x => decide (x ≠ P)) with
      | some q =>
        refine ⟨?_, by simp⟩
        intro q' hq'
        simp only [Option.or_some, Option.some.injEq] at hq'
        rw [← hq']
        exact ih1 q hf
      | none =>
        obtain ⟨ih2a, ih2b⟩ := ih2 hf
        simp only [Option.none_or]
        by_cases hpt : pt ≠ P
        · rw [List.find?_cons_of_pos _ (by simpa using hpt)]
          refine ⟨?_, by simp⟩
          intro q hq
          simp only [Option.some.injEq] at hq
          rw [← hq, ← hp1]
          apply ih2a
          rw [hp1]
          exact fun hc => hpt (add_delta_inj hc)
        · have hpt' : pt = P := by simpa using hpt
          rw [List.find?_cons_of_neg _ (by simpa using hpt)]
          refine ⟨by simp, fun _ => ⟨?_, ?_⟩⟩
          · intro hne
            rw [ih2b (by rw [hp1, hpt']), ← hpt']
            exact sim_arrive_of_add_point s s1 pt T T1 ha (by rw [hpt']; exact hne) h1
          · intro heq
            rw [ih2b (by rw [hp1, hpt'])]
            rw [add_point_same s pt T (by rw [hpt']; exact heq)] at h1
            simp only [Option.some.injEq, Prod.mk.injEq] at h1
            exact h1.1.symm

theorem apply_bounds_append (bs1 bs2 : List (ℚ × Int)) (T : Table) :
    apply_bounds (bs1 ++ bs2) T = apply_bounds bs2 (apply_bounds bs1 T) := by
  simp [apply_bounds, List.foldl_append]

theorem bound_length (T : Table) (x : ℚ) (iy : Int) : (bound T x iy).length = T.length := by
  unfold bound
  split <;> simp

/-- Row `r` of the table after `bound`. -/
theorem bound_getD (T : Table) (x : ℚ) (iy : Int) (r : Nat) :
    (bound T x iy).getD r [] =
      T.getD r [] ++ (if (r : Int) = iy ∧ r < T.length then [x] else []) := by
  unfold bound
  by_cases h : 0 ≤ iy ∧ iy < (T.length : Int)
  · rw [if_pos h]
    have hlt : iy.toNat < T.length := by omega
    by_cases hr : (r : Int) = iy
    · have hr' : iy.toNat = r := by omega
      rw [hr'] at hlt ⊢
      rw [if_pos ⟨hr, hlt⟩, List.getD_eq_getElem?_getD, List.getElem?_set_self hlt]
      rfl
    · have hr' : iy.toNat ≠ r := by omega
      rw [if_neg (fun hc => hr hc.1), List.append_nil, List.getD_eq_getElem?_getD,
        List.getElem?_set_ne hr', ← List.getD_eq_getElem?_getD]
  · rw [if_neg h, if_neg (by omega), List.append_nil]

theorem apply_bounds_length (bs : List (ℚ × Int)) (T : Table) :
    (apply_bounds bs T).length = T.length := by
  induction bs generalizing T with
  | nil => rfl
  | cons b bs ih =>
    have : apply_bounds (b :: bs) T = apply_bounds bs (bound T b.1 b.2) := rfl
    rw [this, ih, bound_length]

theorem apply_bounds_getD (bs : List (ℚ × Int)) (T : Table) (r : Nat) :
    (apply_bounds bs T).getD r [] =
      T.getD r [] ++
        (bs.filter (fun b => decide ((r : Int) = b.2 ∧ r < T.length))).map Prod.fst := by
  induction bs generalizing T with
  | nil => simp [apply_bounds]
  | cons b bs ih =>
    have : apply_bounds (b :: bs) T = apply_bounds bs (bound T b.1 b.2) := rfl
    rw [this, ih, bound_getD, bound_length, List.filter_cons]
    by_cases hc : (r : Int) = b.2 ∧ r < T.length
    · simp [hc]
    · simp [hc]

theorem apply_bounds_comm (bs1 bs2 : List (ℚ × Int)) (T : Table) :
    TPerm (apply_bounds (bs1 ++ bs2) T) (apply_bounds (bs2 ++ bs1) T) := by
  refine ⟨by rw [apply_bounds_length, apply_bounds_length], ?_⟩
  intro r
  rw [apply_bounds_getD, apply_bounds_getD]
  exact List.Perm.append_left _ ((List.perm_append_comm.filter _).map _)

/-- A row filler does not see the order of the bounds: it sorts them first. -/
theorem fill_line_perm (v : α) (buf : List α) (im e : Nat) (row1 row2 : List ℚ)
    (h : row1.Perm row2) : fill_line v buf im e row1 = fill_line v buf im e row2 := by
  have hs : row1.insertionSort (· ≤ ·) = row2.insertionSort (· ≤ ·) :=
    List.eq_of_perm_of_sorted
      (((List.perm_insertionSort _ row1).trans h).trans (List.perm_insertionSort _ row2).symm)
      (List.sorted_insertionSort _ _) (List.sorted_insertionSort _ _)
  unfold fill_line
  simp only [hs]

theorem tperm_set (T1 T2 : Table) (i : Nat) (row : List ℚ) (h : TPerm T1 T2) :
    TPerm (T1.set i row) (T2.set i row) := by
  refine ⟨by simp [h.1], ?_⟩
  intro r
  rw [List.getD_eq_getElem?_getD, List.getD_eq_getElem?_getD, List.getElem?_set,
    List.getElem?_set, h.1]
  by_cases hir : i = r
  · subst hir
    by_cases hlt : i < T2.length
    · simp [hlt]
    · have h1 : T1[i]? = none := List.getElem?_eq_none (by rw [h.1]; omega)
      have h2 : T2[i]? = none := List.getElem?_eq_none (by omega)
      simp [hlt]
  · simp only [hir, if_false]
    rw [← List.getD_eq_getElem?_getD, ← List.getD_eq_getElem?_getD]
    exact h.2 r

theorem fill_inter_loop_tperm (v : α) (w : Nat) (n : Nat) :
    ∀ (i : Nat) (im : List α) (T1 T2 : Table), TPerm T1 T2 →
    (fill_inter_loop v w n i im T1).map Prod.fst = (fill_inter_loop v w n i im T2).map Prod.fst := by
  induction n with
  | zero => intro i im T1 T2 _; rfl
  | succ n ih =>
    intro i im T1 T2 h
    have hrow := h.2 i
    have hemp : (T1.getD i []).isEmpty = (T2.getD i []).isEmpty := by
      have hlen := hrow.length_eq
      cases h1 : T1.getD i [] <;> cases h2 : T2.getD i [] <;> rw [h1, h2] at hlen <;>
        simp at hlen ⊢
    simp only [fill_inter_loop, hemp, fill_line_perm v im _ _ _ _ hrow]
    split
    · exact ih _ _ _ _ h
    · cases hfl : fill_line v im (i * w) ((i + 1) * w) (T2.getD i []) with
      | none => rfl
      | some r =>
        obtain ⟨im', row⟩ := r
        exact ih _ _ _ _ (tperm_set T1 T2 i row h)

/-- The stepping loop records a list of bounds that does not depend on the table. -/
theorem row_loop_emits (q p : Point) (a : ℚ) (dir iy2 : Int) (n : Nat) : ∀ j : Int,
    ∃ r : Option (List (ℚ × Int)), ∀ T : Table,
      row_loop q p a dir iy2 n j T = r.map (fun bs => apply_bounds bs T) := by
  induction n with
  | zero =>
    intro j
    by_cases hj : j = iy2
    · exact ⟨some [], fun T => by simp [row_loop, hj, apply_bounds]⟩
    · exact ⟨none, fun T => by simp [row_loop, hj]⟩
  | succ n ih =>
    intro j
    by_cases hj : j = iy2
    · exact ⟨some [], fun T => by simp [row_loop, hj, apply_bounds]⟩
    · obtain ⟨r, hr⟩ := ih (j + dir)
      by_cases hskip : (if dir > 0 then p.y ≤ (j : ℚ) else (j : ℚ) ≤ p.y)
      · exact ⟨r, fun T => by simp only [row_loop, hj, hskip, if_true, if_false]; exact hr T⟩
      · by_cases hassert : (q.x ≤ q.x + a * ((j : ℚ) - q.y) ∧ q.x + a * ((j : ℚ) - q.y) ≤ p.x) ∨
            (p.x ≤ q.x + a * ((j : ℚ) - q.y) ∧ q.x + a * ((j : ℚ) - q.y) ≤ q.x)
        · refine ⟨r.map (fun bs => (q.x + a * ((j : ℚ) - q.y), j) :: bs), fun T => ?_⟩
          simp only [row_loop, hj, hskip, hassert, if_true, if_false, hr, Option.map_map]
          rfl
        · exact ⟨none, fun T => by simp only [row_loop, hj, hskip, hassert, if_false]; rfl⟩

/-- One edge records a list of bounds that does not depend on the table. -/
theorem add_point_emits (s : PolyIterator) (pi : Point) :
    ∃ r : Option (PolyIterator × List (ℚ × Int)), ∀ T : Table,
      add_point s pi T = r.map (fun x => (x.1, apply_bounds x.2 T)) := by
  by_cases hy : s.p.y = (pi + delta).y
  · by_cases hc : s.p.x ≠ (pi + delta).x ∧ is_integer s.p.y = true
    · by_cases hb : s.bHorizontal = true
      · by_cases hd : s.dir ≠ sign s.p.x (pi + delta).x
        · exact ⟨some (_, [(s.p.x, toInt s.p.y)]), fun T => by
            simp only [add_point, if_pos hy, if_pos hc, if_pos hb, if_pos hd]; rfl⟩
        · exact ⟨some (_, []), fun T => by
            simp only [add_point, if_pos hy, if_pos hc, if_pos hb, if_neg hd]; rfl⟩
      · by_cases hd : s.dir = sign s.p.x (pi + delta).x
        · exact ⟨some (_, [(s.p.x, toInt s.p.y)]), fun T => by
            simp only [add_point, if_pos hy, if_pos hc, if_neg hb, if_pos hd]; rfl⟩
        · exact ⟨some (_, []), fun T => by
            simp only [add_point, if_pos hy, if_pos hc, if_neg hb, if_neg hd]; rfl⟩
    · exact ⟨some (_, []), fun T => by simp only [add_point, if_pos hy, if_neg hc]; rfl⟩
  · by_cases hb : s.bHorizontal = true
    · obtain ⟨r, hr⟩ := row_loop_emits s.p (pi + delta)
        ((s.p.x - (pi + delta).x) / (s.p.y - (pi + delta).y)) (sign s.p.y (pi + delta).y)
        (toInt (pi + delta).y + sign s.p.y (pi + delta).y)
        (toInt (pi + delta).y + sign s.p.y (pi + delta).y -
          (toInt s.p.y + sign s.p.y (pi + delta).y)).natAbs
        (toInt s.p.y + sign s.p.y (pi + delta).y)
      by_cases hd : s.dir ≠ sign s.p.y (pi + delta).y
      · refine ⟨r.map (fun bs => ({ p := pi + delta, bHorizontal := false, dir := sign s.p.y (pi + delta).y }, (s.p.x, toInt s.p.y) :: bs)), fun T => ?_⟩
        simp only [add_point, if_neg hy, if_pos hb, if_pos hd, hr, Option.map_map]
        rfl
      · refine ⟨r.map (fun bs => ({ p := pi + delta, bHorizontal := false, dir := sign s.p.y (pi + delta).y }, bs)), fun T => ?_⟩
        simp only [add_point, if_neg hy, if_pos hb, if_neg hd, hr, Option.map_map]
        rfl
    · by_cases hpk : sign s.p.y (pi + delta).y ≠ s.dir ∧ s.p.y = ((toInt s.p.y : Int) : ℚ)
      · obtain ⟨r, hr⟩ := row_loop_emits s.p (pi + delta)
          ((s.p.x - (pi + delta).x) / (s.p.y - (pi + delta).y)) (sign s.p.y (pi + delta).y)
          (toInt (pi + delta).y + sign s.p.y (pi + delta).y)
          (toInt (pi + delta).y + sign s.p.y (pi + delta).y -
            (toInt s.p.y + sign s.p.y (pi + delta).y)).natAbs
          (toInt s.p.y + sign s.p.y (pi + delta).y)
        refine ⟨r.map (fun bs => ({ p := pi + delta, bHorizontal := false, dir := sign s.p.y (pi + delta).y }, 
          (s.p.x, toInt s.p.y) :: (s.p.x, toInt s.p.y) :: bs)),
          fun T => ?_⟩
        simp only [add_point, if_neg hy, if_neg hb, if_pos hpk, hr, Option.map_map]
        rfl
      · by_cases hup : sign s.p.y (pi + delta).y > 0 ∧ ((toInt s.p.y : Int) : ℚ) < s.p.y
        · obtain ⟨r, hr⟩ := row_loop_emits s.p (pi + delta)
            ((s.p.x - (pi + delta).x) / (s.p.y - (pi + delta).y)) (sign s.p.y (pi + delta).y)
            (toInt (pi + delta).y + sign s.p.y (pi + delta).y)
            (toInt (pi + delta).y + sign s.p.y (pi + delta).y -
              (toInt s.p.y + sign s.p.y (pi + delta).y)).natAbs
            (toInt s.p.y + sign s.p.y (pi + delta).y)
          refine ⟨r.map (fun bs => ({ p := pi + delta, bHorizontal := false, dir := sign s.p.y (pi + delta).y }, bs)), fun T => ?_⟩
          simp only [add_point, if_neg hy, if_neg hb, if_neg hpk, if_pos hup, hr, Option.map_map]
          rfl
        · obtain ⟨r, hr⟩ := row_loop_emits s.p (pi + delta)
            ((s.p.x - (pi + delta).x) / (s.p.y - (pi + delta).y)) (sign s.p.y (pi + delta).y)
            (toInt (pi + delta).y + sign s.p.y (pi + delta).y)
            (toInt (pi + delta).y + sign s.p.y (pi + delta).y - toInt s.p.y).natAbs
            (toInt s.p.y)
          refine ⟨r.map (fun bs => ({ p := pi + delta, bHorizontal := false, dir := sign s.p.y (pi + delta).y }, bs)), fun T => ?_⟩
          simp only [add_point, if_neg hy, if_neg hb, if_neg hpk, if_neg hup, hr, Option.map_map]
          rfl

theorem add_points_emits (pts : List Point) : ∀ s : PolyIterator,
    ∃ r : Option (PolyIterator × List (ℚ × Int)), ∀ T : Table,
      add_points s pts T = r.map (fun x => (x.1, apply_bounds x.2 T)) := by
  induction pts with
  | nil =>
    intro s
    exact ⟨some (s, []), fun T => rfl⟩
  | cons pt rest ih =>
    intro s
    obtain ⟨r1, h1⟩ := add_point_emits s pt
    cases r1 with
    | none => exact ⟨none, fun T => by simp [add_points, h1]⟩
    | some x =>
      obtain ⟨s1, E1⟩ := x
      obtain ⟨r2, h2⟩ := ih s1
      refine ⟨r2.map (fun y => (y.1, E1 ++ y.2)), fun T => ?_⟩
      simp only [add_points, h1, Option.map_some', h2, Option.map_map]
      congr 1
      funext y
      simp [apply_bounds_append]

theorem sim_add_point_none (s1 s2 : PolyIterator) (pi : Point) (T : Table)
    (hs : Sim s1 s2) (ha : Aligned s1) (h : add_point s1 pi T = none) :
    add_point s2 pi T = none := by
  rcases sim_add_point s1 s2 pi T hs ha with ⟨_, h2⟩ | ⟨_, _, _, h1, _, _⟩
  · exact h2
  · rw [h] at h1; exact absurd h1 (by simp)

theorem sim_add_point_some (s1 s2 s1' : PolyIterator) (pi : Point) (T T' : Table)
    (hs : Sim s1 s2) (ha : Aligned s1) (h : add_point s1 pi T = some (s1', T')) :
    ∃ s2', add_point s2 pi T = some (s2', T') ∧ Sim s1' s2' := by
  rcases sim_add_point s1 s2 pi T hs ha with ⟨h1, _⟩ | ⟨x, s2', T'', h1, h2, hs'⟩
  · rw [h] at h1; exact absurd h1 (by simp)
  · rw [h] at h1
    simp only [Option.some.injEq, Prod.mk.injEq] at h1
    rw [h1.1, h1.2]
    exact ⟨s2', h2, hs'⟩

theorem sim_add_points_none (pts : List Point) (s1 s2 : PolyIterator) (T : Table)
    (hs : Sim s1 s2) (ha : Aligned s1) (h : add_points s1 pts T = none) :
    add_points s2 pts T = none := by
  rcases sim_add_points pts s1 s2 T hs ha with ⟨_, h2⟩ | ⟨_, _, _, h1, _, _⟩
  · exact h2
  · rw [h] at h1; exact absurd h1 (by simp)

theorem sim_add_points_some (pts : List Point) (s1 s2 s1' : PolyIterator) (T T' : Table)
    (hs : Sim s1 s2) (ha : Aligned s1) (h : add_points s1 pts T = some (s1', T')) :
    ∃ s2', add_points s2 pts T = some (s2', T') ∧ Sim s1' s2' := by
  rcases sim_add_points pts s1 s2 T hs ha with ⟨h1, _⟩ | ⟨x, s2', T'', h1, h2, hs'⟩
  · rw [h] at h1; exact absurd h1 (by simp)
  · rw [h] at h1
    simp only [Option.some.injEq, Prod.mk.injEq] at h1
    rw [h1.1, h1.2]
    exact ⟨s2', h2, hs'⟩

theorem prev_vertex_cons_cons (a b : Point) (l : List Point) :
    prev_vertex (a :: b :: l) =
      ((l.reverse.find? (fun x => decide (x ≠ a))).or (if b ≠ a then some b else none)).getD a := by
  have hrev : (a :: b :: l).reverse = l.reverse ++ [b, a] := by simp
  unfold prev_vertex
  rw [hrev, List.headD_cons, List.find?_append]
  congr 2
  by_cases hb : b ≠ a
  · rw [if_pos hb, List.find?_cons_of_pos _ (by simpa using hb)]
  · rw [if_neg hb, List.find?_cons_of_neg _ (by simpa using hb),
      List.find?_cons_of_neg _ (by simp)]
    rfl

theorem prev_vertex_rotate_of_ne (a b : Point) (l : List Point) (hab : a ≠ b) :
    prev_vertex (b :: (l ++ [a])) = a := by
  have hrev : (b :: (l ++ [a])).reverse = a :: (l.reverse ++ [b]) := by simp
  unfold prev_vertex
  rw [hrev, List.headD_cons, List.find?_cons_of_pos _ (by simpa using hab)]
  rfl

theorem prev_vertex_snoc_head (a : Point) (l : List Point) :
    prev_vertex (a :: (l ++ [a])) = prev_vertex (a :: l) := by
  have hrev : (a :: (l ++ [a])).reverse = a :: (l.reverse ++ [a]) := by simp
  have hrev' : (a :: l).reverse = l.reverse ++ [a] := by simp
  unfold prev_vertex
  rw [hrev, hrev', List.headD_cons, List.headD_cons, List.find?_cons_of_neg _ (by simp)]

theorem tperm_refl (T : Table) : TPerm T T := ⟨rfl, fun _ => List.Perm.refl _⟩

/-- The edge walk of a curve and of the curve rotated by one vertex: both fail, or the tables
have the same bounds on every row. -/
theorem edge_walk_rotate_one (a b : Point) (l : List Point) (h : Nat) :
    (edge_walk (a :: b :: l) h = none ∧ edge_walk (b :: (l ++ [a])) h = none) ∨
    ∃ T1 T2, edge_walk (a :: b :: l) h = some T1 ∧ edge_walk (b :: (l ++ [a])) h = some T2 ∧
      TPerm T1 T2 := by
  by_cases hab : a = b
  · subst hab
    have h1 : edge_walk (a :: a :: l) h = edge_walk (a :: l) h := edge_walk_dup [] l a h
    have h2 : edge_walk (a :: (l ++ [a])) h = edge_walk (a :: l) h := by
      rw [edge_walk_eq, edge_walk_eq, init_eq_arrive, init_eq_arrive, prev_vertex_snoc_head]
      simp only [List.headD_cons, List.tail_cons, List.append_assoc, List.singleton_append]
      exact congrArg (Option.map Prod.snd) (add_points_dup _ l [] a _)
    rw [h1, h2]
    cases edge_walk (a :: l) h with
    | none => exact Or.inl ⟨rfl, rfl⟩
    | some T => exact Or.inr ⟨T, T, rfl, rfl, tperm_refl T⟩
  · have hba : b ≠ a := fun hc => hab hc.symm
    have hd : a + delta ≠ b + delta := fun hc => hab (add_delta_inj hc)
    rw [edge_walk_eq, edge_walk_eq, init_eq_arrive, init_eq_arrive,
      prev_vertex_rotate_of_ne a b l hab]
    simp only [List.headD_cons, List.tail_cons]
    set pv := prev_vertex (a :: b :: l) with hpv
    set s0 := arrive (pv + delta) (a + delta) with hs0
    set s0' := arrive (a + delta) (b + delta) with hs0'
    set T0 : Table := List.replicate h [] with hT0
    have hs0p : s0.p = a + delta := by rw [hs0]; unfold arrive; split <;> rfl
    have hs0'p : s0'.p = b + delta := by rw [hs0']; unfold arrive; split <;> rfl
    have ha0 : Aligned s0 := aligned_arrive _ _
    have ha0' : Aligned s0' := aligned_arrive _ _
    -- the state at the end of the rotated walk, before its closing edge
    have hF2 : ∀ (T T' : Table) (sn : PolyIterator),
        add_points s0' (l ++ [a]) T = some (sn, T') → Sim sn s0 := by
      intro T T' sn hw
      obtain ⟨w1, w2⟩ := walk_final a (l ++ [a]) s0' sn T T' ha0' hw (by simp)
        (by intro x hx; simpa using hx.symm)
      have hrev : (l ++ [a]).reverse.find? (fun x => decide (x ≠ a)) =
          l.reverse.find? (fun x => decide (x ≠ a)) := by
        rw [List.reverse_append, List.reverse_singleton, List.singleton_append,
          List.find?_cons_of_neg _ (by simp)]
      rw [hrev] at w1 w2
      rw [hs0, hpv, prev_vertex_cons_cons]
      cases hf : l.reverse.find? (fun x => decide (x ≠ a)) with
      | some q => exact w1 q hf
      | none =>
        simp only [Option.none_or, if_pos hba, Option.getD_some]
        rw [← hs0'p]
        exact (w2 hf).1 (by rw [hs0'p]; exact fun hc => hd hc.symm)
    -- the state after the first edge of the original walk
    have hF1 : ∀ (T T' : Table) (s1 : PolyIterator),
        add_point s0 b T = some (s1, T') → Sim s1 s0' := by
      intro T T' s1 hw
      have := sim_arrive_of_add_point s0 s1 b T T' ha0 (by rw [hs0p]; exact hd) hw
      rw [hs0p] at this
      exact this
    obtain ⟨rX, hX⟩ := add_point_emits s0 b
    obtain ⟨rY, hY⟩ := add_points_emits (l ++ [a]) s0'
    have hA : add_points s0 (b :: l ++ [a]) T0 =
        (add_point s0 b T0).bind (fun r => add_points r.1 (l ++ [a]) r.2) := by
      simp only [List.cons_append, add_points]
      cases add_point s0 b T0 <;> rfl
    have hB : add_points s0' (l ++ [a] ++ [b]) T0 =
        (add_points s0' (l ++ [a]) T0).bind (fun r => add_point r.1 b r.2) := by
      rw [add_points_append]
      congr 1
      funext r
      simp only [add_points]
      cases add_point r.1 b r.2 <;> rfl
    rw [hA, hB]
    cases rX with
    | none =>
      left
      refine ⟨by rw [hX]; rfl, ?_⟩
      cases hw : add_points s0' (l ++ [a]) T0 with
      | none => rfl
      | some r =>
        obtain ⟨sn, Tn⟩ := r
        simp only [Option.some_bind, Option.map_eq_none']
        have hsim := hF2 T0 Tn sn hw
        exact sim_add_point_none s0 sn b Tn hsim.symm ha0 (by rw [hX]; rfl)
    | some x =>
      obtain ⟨s1, E1⟩ := x
      have hX' : ∀ T, add_point s0 b T = some (s1, apply_bounds E1 T) := fun T => by
        rw [hX]; rfl
      have hsim1 : Sim s1 s0' := hF1 T0 _ s1 (hX' T0)
      have ha1 : Aligned s1 := aligned_add_point s0 s1 b T0 _ ha0 (hX' T0)
      rw [hX' T0]
      simp only [Option.some_bind]
      cases rY with
      | none =>
        left
        have hY' : ∀ T, add_points s0' (l ++ [a]) T = none := fun T => by rw [hY]; rfl
        refine ⟨?_, by rw [hY' T0]; rfl⟩
        rw [sim_add_points_none (l ++ [a]) s0' s1 _ hsim1.symm ha0' (hY' _)]
        rfl
      | some y =>
        obtain ⟨sn, E2⟩ := y
        have hY' : ∀ T, add_points s0' (l ++ [a]) T = some (sn, apply_bounds E2 T) :=
          fun T => by rw [hY]; rfl
        right
        obtain ⟨sn1, hw1, _⟩ := sim_add_points_some (l ++ [a]) s0' s1 sn _ _ hsim1.symm ha0'
          (hY' (apply_bounds E1 T0))
        have hsimn : Sim sn s0 := hF2 T0 _ sn (hY' T0)
        have han : Aligned sn := aligned_add_points _ s0' sn T0 _ ha0' (hY' T0)
        obtain ⟨s2, hw2, _⟩ := sim_add_point_some s0 sn s1 b _ _ hsimn.symm ha0
          (hX' (apply_bounds E2 T0))
        refine ⟨apply_bounds E2 (apply_bounds E1 T0), apply_bounds E1 (apply_bounds E2 T0),
          by rw [hw1]; rfl, by rw [hY' T0]; simp only [Option.some_bind]; rw [hw2]; rfl, ?_⟩
        rw [← apply_bounds_append, ← apply_bounds_append]
        exact apply_bounds_comm E1 E2 T0

theorem tperm_trans {T1 T2 T3 : Table} (h : TPerm T1 T2) (h' : TPerm T2 T3) : TPerm T1 T3 :=
  ⟨h.1.trans h'.1, fun r => (h.2 r).trans (h'.2 r)⟩

theorem walkRel_refl (r : Option Table) : WalkRel r r := by
  cases r with
  | none => exact Or.inl ⟨rfl, rfl⟩
  | some T => exact Or.inr ⟨T, T, rfl, rfl, tperm_refl T⟩

theorem walkRel_trans {r1 r2 r3 : Option Table} (h : WalkRel r1 r2) (h' : WalkRel r2 r3) :
    WalkRel r1 r3 := by
  rcases h with ⟨h1, h2⟩ | ⟨T1, T2, h1, h2, hp⟩
  · rcases h' with ⟨_, h3⟩ | ⟨T2', _, h2', _, _⟩
    · exact Or.inl ⟨h1, h3⟩
    · rw [h2] at h2'; exact absurd h2' (by simp)
  · rcases h' with ⟨h2', _⟩ | ⟨T2', T3, h2', h3, hp'⟩
    · rw [h2] at h2'; exact absurd h2' (by simp)
    · rw [h2] at h2'
      simp only [Option.some.injEq] at h2'
      subst h2'
      exact Or.inr ⟨T1, T3, h1, h3, tperm_trans hp hp'⟩

theorem edge_walk_rotate (k : Nat) : ∀ (curve : List Point) (h : Nat),
    WalkRel (edge_walk curve h) (edge_walk (curve.rotate k) h) := by
  induction k with
  | zero =>
    intro curve h
    rw [List.rotate_zero]
    exact walkRel_refl _
  | succ k ih =>
    intro curve h
    match curve with
    | [] =>
      rw [List.rotate_nil]
      exact walkRel_refl _
    | [a] =>
      rw [List.rotate_singleton]
      exact walkRel_refl _
    | a :: b :: l =>
      rw [List.rotate_cons_succ]
      exact walkRel_trans (edge_walk_rotate_one a b l h) (ih _ h)

theorem fill_inter_walkRel (v : α) (out : List α) (w h : Nat) (r1 r2 : Option Table)
    (hr : WalkRel r1 r2) :
    r1.bind (fun T => (fill_inter v out w h T).map Prod.fst) =
      r2.bind (fun T => (fill_inter v out w h T).map Prod.fst) := by
  rcases hr with ⟨h1, h2⟩ | ⟨T1, T2, h1, h2, hp⟩
  · rw [h1, h2]
  · rw [h1, h2]
    exact fill_inter_loop_tperm v w h 0 out T1 T2 hp

/-- In exact arithmetic, where the shift by `delta` keeps different vertices different:
`fill_curve` applied to a curve and to the curve with its vertex list cyclically rotated by
`k` positions give the same buffer (both calls fail, or both return the same buffer); the
Edge Walker records the same bounds on every row of the table, up to their order. -/
theorem fill_curve_rotate_exact (curve : List Point) (k : Nat) (value : α) (out : List α)
    (w h : Nat) (t : Option Table) :
    (fill_curve (curve.rotate k) value out w h t).map Prod.fst =
      (fill_curve curve value out w h t).map Prod.fst ∧
    WalkRel (edge_walk curve h) (edge_walk (curve.rotate k) h) := by
  refine ⟨?_, edge_walk_rotate k curve h⟩
  by_cases hne : curve = []
  · rw [hne, List.rotate_nil]
  · have hne' : curve.rotate k ≠ [] := fun hc => hne (List.rotate_eq_nil_iff.1 hc)
    rw [fill_curve_fst_eq _ _ _ _ _ _ hne, fill_curve_fst_eq _ _ _ _ _ _ hne']
    exact (fill_inter_walkRel value out w h _ _ (edge_walk_rotate k curve h)).symm

/-! ## Truncation and the row-stepping loop -/

theorem toInt_intCast (z : Int) : toInt (z : ℚ) = z := by
  unfold toInt
  split
  · exact Int.floor_intCast z
  · exact Int.ceil_intCast z

theorem ne_intCast_of_not_integer {f : ℚ} (h : is_integer f = false) (z : Int) :
    f ≠ (z : ℚ) := by
  intro hc
  have h1 := (is_integer_false_iff f).1 h
  apply h1
  rw [hc, toInt_intCast]

theorem toInt_mono {x y : ℚ} (h : x ≤ y) : toInt x ≤ toInt y := by
  unfold toInt
  by_cases hx : 0 ≤ x
  · rw [if_pos hx, if_pos (le_trans hx h)]
    exact Int.floor_mono h
  · rw [if_neg hx]
    by_cases hy : 0 ≤ y
    · rw [if_pos hy]
      have h1 : ⌈x⌉ ≤ 0 := Int.ceil_le.2 (by simpa using le_of_lt (not_le.1 hx))
      have h2 : 0 ≤ ⌊y⌋ := Int.floor_nonneg.2 hy
      omega
    · rw [if_neg hy]
      exact Int.ceil_mono h

/-- Going up, every row below `p.y` lies before the stop row `(int)p.y + 1`. -/
theorem lt_stop_of_lt {y : ℚ} {r : Int} (h : (r : ℚ) < y) : r < toInt y + 1 := by
  unfold toInt
  split
  · exact Int.lt_add_one_iff.2 (Int.le_floor.2 (le_of_lt h))
  · have : r < ⌈y⌉ := Int.lt_ceil.2 h
    omega

/-- Going down, every row above `p.y` lies before the stop row `(int)p.y - 1`. -/
theorem stop_lt_of_lt {y : ℚ} {r : Int} (h : y < (r : ℚ)) : toInt y - 1 < r := by
  unfold toInt
  split
  · have : ⌊y⌋ < r := Int.floor_lt.2 h
    omega
  · have : ⌈y⌉ ≤ r := Int.ceil_le.2 (le_of_lt h)
    omega

/-- Going up from a `y` that is not an integer, the start row is the first row above `y`. -/
theorem start_up_le_iff {y : ℚ} (hy : is_integer y = false) (r : Int) :
    (if (1 : Int) > 0 ∧ ((toInt y : Int) : ℚ) < y then toInt y + 1 else toInt y) ≤ r ↔
      y < (r : ℚ) := by
  have hne := ne_intCast_of_not_integer hy
  by_cases h0 : 0 ≤ y
  · have ht : toInt y = ⌊y⌋ := by unfold toInt; rw [if_pos h0]
    have hlt : ((toInt y : Int) : ℚ) < y := by
      rw [ht]
      exact lt_of_le_of_ne (Int.floor_le y) (fun hc => hne ⌊y⌋ hc.symm)
    rw [if_pos ⟨by decide, hlt⟩, ht, Int.add_one_le_iff, Int.floor_lt]
  · have ht : toInt y = ⌈y⌉ := by unfold toInt; rw [if_neg h0]
    have hlt : ¬ ((toInt y : Int) : ℚ) < y := by
      rw [ht]
      exact not_lt.2 (Int.le_ceil y)
    rw [if_neg (fun hc => hlt hc.2), ht, Int.ceil_le]
    exact ⟨fun h => lt_of_le_of_ne h (hne r), le_of_lt⟩

/-- Going down from a non-negative `y` that is not an integer, the start row `(int)y` is the
first row below `y`. -/
theorem le_start_down_iff {y : ℚ} (hy : is_integer y = false) (h0 : 0 ≤ y) (r : Int) :
    r ≤ toInt y ↔ (r : ℚ) < y := by
  have hne := ne_intCast_of_not_integer hy
  have ht : toInt y = ⌊y⌋ := by unfold toInt; rw [if_pos h0]
  rw [ht, Int.le_floor]
  exact ⟨fun h => lt_of_le_of_ne h (fun hc => hne r hc.symm), le_of_lt⟩

/-- The stepping loop along a vertical edge, going up: every row from `j` to `iy2 - 1` that
lies below `p.y` receives the bound `q.x`. -/
theorem row_loop_up (q p : Point) (iy2 : Int) (n : Nat) : ∀ (j : Int) (T : Table),
    j + (n : Int) = iy2 →
    ∃ T', row_loop q p 0 1 iy2 n j T = some T' ∧ T'.length = T.length ∧
      ∀ r : Nat, T'.getD r [] = T.getD r [] ++
        (if (j ≤ (r : Int) ∧ (r : Int) < iy2 ∧ (r : ℚ) < p.y) ∧ r < T.length then [q.x] else []) := by
  induction n with
  | zero =>
    intro j T hj
    have hj' : j = iy2 := by simpa using hj
    refine ⟨T, by simp [row_loop, hj'], rfl, ?_⟩
    intro r
    rw [if_neg (by omega), List.append_nil]
  | succ n ih =>
    intro j T hj
    have hne : j ≠ iy2 := by push_cast at hj; omega
    by_cases hskip : p.y ≤ (j : ℚ)
    · obtain ⟨T', h1, h2, h3⟩ := ih (j + 1) T (by push_cast at hj ⊢; omega)
      refine ⟨T', ?_, h2, ?_⟩
      · simp only [row_loop, hne, if_false, gt_iff_lt, zero_lt_one, if_true, hskip]
        exact h1
      · intro r
        rw [h3 r]
        congr 1
        by_cases hr : (r : Int) = j
        · have h4 : ¬ (r : ℚ) < p.y := by
            have : (r : ℚ) = (j : ℚ) := by exact_mod_cast hr
            rw [this]; exact not_lt.2 hskip
          rw [if_neg (fun hc => h4 hc.1.2.2), if_neg (fun hc => h4 hc.1.2.2)]
        · have : (j + 1 ≤ (r : Int)) ↔ (j ≤ (r : Int)) := by omega
          simp only [this]
    · have hxj : q.x + 0 * ((j : ℚ) - q.y) = q.x := by ring
      have hassert : (q.x ≤ q.x ∧ q.x ≤ p.x) ∨ (p.x ≤ q.x ∧ q.x ≤ q.x) := by
        rcases le_total q.x p.x with h | h
        · exact Or.inl ⟨le_refl _, h⟩
        · exact Or.inr ⟨h, le_refl _⟩
      obtain ⟨T', h1, h2, h3⟩ := ih (j + 1) (bound T q.x j) (by push_cast at hj ⊢; omega)
      refine ⟨T', ?_, by rw [h2, bound_length], ?_⟩
      · simp only [row_loop, hne, if_false, gt_iff_lt, zero_lt_one, if_true, hskip, hxj,
          hassert]
        exact h1
      · intro r
        rw [h3 r, bound_getD, bound_length, List.append_assoc]
        congr 1
        by_cases hlen : r < T.length
        · by_cases hr : (r : Int) = j
          · have h4 : (r : ℚ) < p.y := by
              have : (r : ℚ) = (j : ℚ) := by exact_mod_cast hr
              rw [this]; exact not_le.1 hskip
            rw [if_pos ⟨hr, hlen⟩, if_neg (by omega), if_pos ⟨⟨by omega, by omega, h4⟩, hlen⟩]
            rfl
          · rw [if_neg (fun hc => hr hc.1), List.nil_append]
            have : (j + 1 ≤ (r : Int)) ↔ (j ≤ (r : Int)) := by omega
            simp only [this]
        · rw [if_neg (fun hc => hlen hc.2), if_neg (fun hc => hlen hc.2),
            if_neg (fun hc => hlen hc.2)]
          rfl

/-- The stepping loop along a vertical edge, going down: every row from `j` down to
`iy2 + 1` that lies above `p.y` receives the bound `q.x`. -/
theorem row_loop_down (q p : Point) (iy2 : Int) (n : Nat) : ∀ (j : Int) (T : Table),
    j - (n : Int) = iy2 →
    ∃ T', row_loop q p 0 (-1) iy2 n j T = some T' ∧ T'.length = T.length ∧
      ∀ r : Nat, T'.getD r [] = T.getD r [] ++
        (if ((r : Int) ≤ j ∧ iy2 < (r : Int) ∧ p.y < (r : ℚ)) ∧ r < T.length then [q.x] else []) := by
  induction n with
  | zero =>
    intro j T hj
    have hj' : j = iy2 := by simpa using hj
    refine ⟨T, by simp [row_loop, hj'], rfl, ?_⟩
    intro r
    rw [if_neg (by omega), List.append_nil]
  | succ n ih =>
    intro j T hj
    have hne : j ≠ iy2 := by push_cast at hj; omega
    have hdir : ¬ ((-1 : Int) > 0) := by decide
    by_cases hskip : (j : ℚ) ≤ p.y
    · obtain ⟨T', h1, h2, h3⟩ := ih (j + -1) T (by push_cast at hj ⊢; omega)
      refine ⟨T', ?_, h2, ?_⟩
      · simp only [row_loop, hne, if_false, hdir, hskip, if_true]
        exact h1
      · intro r
        rw [h3 r]
        congr 1
        by_cases hr : (r : Int) = j
        · have h4 : ¬ p.y < (r : ℚ) := by
            have : (r : ℚ) = (j : ℚ) := by exact_mod_cast hr
            rw [this]; exact not_lt.2 hskip
          rw [if_neg (fun hc => h4 hc.1.2.2), if_neg (fun hc => h4 hc.1.2.2)]
        · have : ((r : Int) ≤ j + -1) ↔ ((r : Int) ≤ j) := by omega
          simp only [this]
    · have hxj : q.x + 0 * ((j : ℚ) - q.y) = q.x := by ring
      have hassert : (q.x ≤ q.x ∧ q.x ≤ p.x) ∨ (p.x ≤ q.x ∧ q.x ≤ q.x) := by
        rcases le_total q.x p.x with h | h
        · exact Or.inl ⟨le_refl _, h⟩
        · exact Or.inr ⟨h, le_refl _⟩
      obtain ⟨T', h1, h2, h3⟩ := ih (j + -1) (bound T q.x j) (by push_cast at hj ⊢; omega)
      refine ⟨T', ?_, by rw [h2, bound_length], ?_⟩
      · simp only [row_loop, hne, if_false, hdir, hskip, hxj, hassert, if_true]
        exact h1
      · intro r
        rw [h3 r, bound_getD, bound_length, List.append_assoc]
        congr 1
        by_cases hlen : r < T.length
        · by_cases hr : (r : Int) = j
          · have h4 : p.y < (r : ℚ) := by
              have : (r : ℚ) = (j : ℚ) := by exact_mod_cast hr
              rw [this]; exact not_le.1 hskip
            rw [if_pos ⟨hr, hlen⟩, if_neg (by omega), if_pos ⟨⟨by omega, by omega, h4⟩, hlen⟩]
            rfl
          · rw [if_neg (fun hc => hr hc.1), List.nil_append]
            have : ((r : Int) ≤ j + -1) ↔ ((r : Int) ≤ j) := by omega
            simp only [this]
        · rw [if_neg (fun hc => hlen hc.2), if_neg (fun hc => hlen hc.2),
            if_neg (fun hc => hlen hc.2)]
          rfl

/-- The number of iterations that `add_point` gives to the stepping loop is the number it
takes: from either start row (`(int)q.y` or one step beyond) the loop variable reaches the
stop row `(int)p.y + dir` after exactly `|iy2 - iy1|` steps in the direction `dir`. -/
theorem row_loop_reaches (qy py : ℚ) (hne : qy ≠ py) (iy1 : Int)
    (h : iy1 = toInt qy ∨ iy1 = toInt qy + sign qy py) :
    iy1 + sign qy py * ((toInt py + sign qy py - iy1).natAbs : Int) = toInt py + sign qy py := by
  unfold sign at h ⊢
  by_cases hlt : qy < py
  · have hm := toInt_mono (le_of_lt hlt)
    simp only [if_pos hlt] at h ⊢
    omega
  · have hgt : py < qy := lt_of_le_of_ne (not_lt.1 hlt) (fun hc => hne hc.symm)
    have hm := toInt_mono (le_of_lt hgt)
    simp only [if_neg hlt] at h ⊢
    omega

/-- Once the loop variable reaches the stop row within `n` steps, more iterations change
nothing: the loop never runs out of iterations. -/
theorem row_loop_fuel (q p : Point) (a : ℚ) (dir iy2 : Int) (hdir : dir = 1 ∨ dir = -1)
    (n : Nat) : ∀ (m : Nat) (j : Int) (T : Table), j + dir * (n : Int) = iy2 → n ≤ m →
    row_loop q p a dir iy2 m j T = row_loop q p a dir iy2 n j T := by
  induction n with
  | zero =>
    intro m j T hj _
    have hj' : j = iy2 := by simpa using hj
    cases m <;> simp [row_loop, hj']
  | succ n ih =>
    intro m j T hj hm
    have hne : j ≠ iy2 := by
      push_cast at hj
      rcases hdir with hd | hd <;> rw [hd] at hj <;> omega
    cases m with
    | zero => omega
    | succ m =>
      have hj2 : j + dir + dir * (n : Int) = iy2 := by
        push_cast at hj
        rw [← hj]
        ring
      simp only [row_loop, hne, if_false]
      rw [ih m (j + dir) T hj2 (by omega), ih m (j + dir) _ hj2 (by omega)]

/-- With the iterations that `add_point` provides, the stepping loop fails only through its
assertion: some row `k` that is not skipped has its crossing `xj` outside `[q.x, p.x]`. -/
theorem row_loop_none_assert (q p : Point) (a : ℚ) (dir iy2 : Int) (hdir : dir = 1 ∨ dir = -1)
    (n : Nat) : ∀ (j : Int) (T : Table), j + dir * (n : Int) = iy2 →
    row_loop q p a dir iy2 n j T = none →
    ∃ k : Int, ¬ (if dir > 0 then p.y ≤ (k : ℚ) else (k : ℚ) ≤ p.y) ∧
      ¬ ((q.x ≤ q.x + a * ((k : ℚ) - q.y) ∧ q.x + a * ((k : ℚ) - q.y) ≤ p.x) ∨
        (p.x ≤ q.x + a * ((k : ℚ) - q.y) ∧ q.x + a * ((k : ℚ) - q.y) ≤ q.x)) := by
  induction n with
  | zero =>
    intro j T hj h
    have hj' : j = iy2 := by simpa using hj
    simp [row_loop, hj'] at h
  | succ n ih =>
    intro j T hj h
    have hne : j ≠ iy2 := by
      push_cast at hj
      rcases hdir with hd | hd <;> rw [hd] at hj <;> omega
    have hj2 : j + dir + dir * (n : Int) = iy2 := by
      push_cast at hj
      rw [← hj]
      ring
    simp only [row_loop, hne, if_false] at h
    by_cases hskip : (if dir > 0 then p.y ≤ (j : ℚ) else (j : ℚ) ≤ p.y)
    · rw [if_pos hskip] at h
      exact ih (j + dir) T hj2 h
    · rw [if_neg hskip] at h
      by_cases hassert : (q.x ≤ q.x + a * ((j : ℚ) - q.y) ∧ q.x + a * ((j : ℚ) - q.y) ≤ p.x) ∨
          (p.x ≤ q.x + a * ((j : ℚ) - q.y) ∧ q.x + a * ((j : ℚ) - q.y) ≤ q.x)
      · rw [if_pos hassert] at h
        exact ih (j + dir) _ hj2 h
      · exact ⟨j, hskip, hassert⟩

/-! ## Edges off the grid -/

/-- A horizontal edge that does not lie on a row boundary records nothing. -/
theorem add_point_horizontal_off (s : PolyIterator) (pi : Point) (T : Table)
    (hy : s.p.y = (pi + delta).y) (hi : is_integer s.p.y = false) :
    add_point s pi T =
      some ({ p := pi + delta, bHorizontal := s.bHorizontal, dir := s.dir }, T) := by
  unfold add_point
  simp only [if_pos hy, hi, Bool.false_eq_true, and_false, if_false]

/-- A vertical edge going up from a vertex off the grid records its `x` on every row
strictly between the two ends. -/
theorem add_point_vertical_up (s : PolyIterator) (pi : Point) (T : Table)
    (hb : s.bHorizontal = false) (hi : is_integer s.p.y = false)
    (hlt : s.p.y < (pi + delta).y) (hx : s.p.x = (pi + delta).x) :
    ∃ T', add_point s pi T = some ({ p := pi + delta, bHorizontal := false, dir := 1 }, T') ∧
      T'.length = T.length ∧
      ∀ r : Nat, T'.getD r [] = T.getD r [] ++
        (if (s.p.y < (r : ℚ) ∧ (r : ℚ) < (pi + delta).y) ∧ r < T.length then [s.p.x] else []) := by
  have hy : ¬ s.p.y = (pi + delta).y := ne_of_lt hlt
  have hsign : sign s.p.y (pi + delta).y = 1 := by unfold sign; rw [if_pos hlt]
  have hne : s.p.y ≠ ((toInt s.p.y : Int) : ℚ) := (is_integer_false_iff _).1 hi
  have ha : (s.p.x - (pi + delta).x) / (s.p.y - (pi + delta).y) = 0 := by
    rw [hx, sub_self, zero_div]
  have hstart := start_up_le_iff hi
  have hmono : toInt s.p.y ≤ toInt (pi + delta).y := toInt_mono (le_of_lt hlt)
  have hrows : ∀ (j : Int), (∀ r : Int, j ≤ r ↔ s.p.y < (r : ℚ)) → ∀ r : Nat,
      ((j ≤ (r : Int) ∧ (r : Int) < toInt (pi + delta).y + 1 ∧ (r : ℚ) < (pi + delta).y) ↔
        (s.p.y < (r : ℚ) ∧ (r : ℚ) < (pi + delta).y)) := by
    intro j hj r
    have h1 := hj (r : Int)
    rw [Int.cast_natCast] at h1
    constructor
    · rintro ⟨h2, _, h4⟩
      exact ⟨h1.1 h2, h4⟩
    · rintro ⟨h2, h4⟩
      exact ⟨h1.2 h2, lt_stop_of_lt (by rw [Int.cast_natCast]; exact h4), h4⟩
  by_cases hup : (1 : Int) > 0 ∧ ((toInt s.p.y : Int) : ℚ) < s.p.y
  · simp only [if_pos hup] at hstart
    obtain ⟨T', h1, h2, h3⟩ := row_loop_up s.p (pi + delta) (toInt (pi + delta).y + 1)
      (toInt (pi + delta).y + 1 - (toInt s.p.y + 1)).natAbs (toInt s.p.y + 1) T (by omega)
    refine ⟨T', ?_, h2, ?_⟩
    · unfold add_point
      simp only [if_neg hy, hsign, ha, hb, Bool.false_eq_true, if_false, hne, and_false,
        if_pos hup, h1, Option.map_some']
    · intro r
      rw [h3 r]
      congr 1
      exact if_congr (and_congr (hrows _ hstart r) Iff.rfl) rfl rfl
  · simp only [if_neg hup] at hstart
    obtain ⟨T', h1, h2, h3⟩ := row_loop_up s.p (pi + delta) (toInt (pi + delta).y + 1)
      (toInt (pi + delta).y + 1 - toInt s.p.y).natAbs (toInt s.p.y) T (by omega)
    refine ⟨T', ?_, h2, ?_⟩
    · unfold add_point
      simp only [if_neg hy, hsign, ha, hb, Bool.false_eq_true, if_false, hne, and_false,
        if_neg hup, h1, Option.map_some']
    · intro r
      rw [h3 r]
      congr 1
      exact if_congr (and_congr (hrows _ hstart r) Iff.rfl) rfl rfl

/-- A vertical edge going down from a vertex off the grid, at a non-negative `y`, records its
`x` on every row strictly between the two ends. -/
theorem add_point_vertical_down (s : PolyIterator) (pi : Point) (T : Table)
    (hb : s.bHorizontal = false) (hi : is_integer s.p.y = false) (h0 : 0 ≤ s.p.y)
    (hlt : (pi + delta).y < s.p.y) (hx : s.p.x = (pi + delta).x) :
    ∃ T', add_point s pi T = some ({ p := pi + delta, bHorizontal := false, dir := -1 }, T') ∧
      T'.length = T.length ∧
      ∀ r : Nat, T'.getD r [] = T.getD r [] ++
        (if ((pi + delta).y < (r : ℚ) ∧ (r : ℚ) < s.p.y) ∧ r < T.length then [s.p.x] else []) := by
  have hy : ¬ s.p.y = (pi + delta).y := ne_of_gt hlt
  have hsign : sign s.p.y (pi + delta).y = -1 := by
    unfold sign; rw [if_neg (not_lt.2 (le_of_lt hlt))]
  have hne : s.p.y ≠ ((toInt s.p.y : Int) : ℚ) := (is_integer_false_iff _).1 hi
  have ha : (s.p.x - (pi + delta).x) / (s.p.y - (pi + delta).y) = 0 := by
    rw [hx, sub_self, zero_div]
  have hstart := le_start_down_iff hi h0
  have hmono : toInt (pi + delta).y ≤ toInt s.p.y := toInt_mono (le_of_lt hlt)
  have hdir : ¬ ((-1 : Int) > 0 ∧ ((toInt s.p.y : Int) : ℚ) < s.p.y) := fun hc => by
    have := hc.1
    omega
  obtain ⟨T', h1, h2, h3⟩ := row_loop_down s.p (pi + delta) (toInt (pi + delta).y + -1)
    (toInt (pi + delta).y + -1 - toInt s.p.y).natAbs (toInt s.p.y) T (by omega)
  refine ⟨T', ?_, h2, ?_⟩
  · unfold add_point
    simp only [if_neg hy, hsign, ha, hb, Bool.false_eq_true, if_false, hne, and_false,
      if_neg hdir, h1, Option.map_some']
  · intro r
    rw [h3 r]
    congr 1
    refine if_congr (and_congr ?_ Iff.rfl) rfl rfl
    have h4 := hstart (r : Int)
    rw [Int.cast_natCast] at h4
    constructor
    · rintro ⟨h5, _, h7⟩
      exact ⟨h7, h4.1 h5⟩
    · rintro ⟨h5, h6⟩
      have := stop_lt_of_lt (y := (pi + delta).y) (r := (r : Int))
        (by rw [Int.cast_natCast]; exact h5)
      exact ⟨h4.2 h6, by omega, h5⟩

/-! ## The fill of all rows -/

theorem not_inside_nil (c : ℚ) : ¬ Inside [] c := by
  unfold Inside
  simp

theorem getD_set_table (T : Table) (i r : Nat) (row : List ℚ) (hir : i ≠ r) :
    (T.set i row).getD r [] = T.getD r [] := by
  rw [List.getD_eq_getElem?_getD, List.getD_eq_getElem?_getD, List.getElem?_set_ne hir]

/-- The effect of the row loop of `fill_inter` from row `i` on, when every row holds an even
number of bounds: pixel `c` of a row `r ≥ i` receives the value exactly when it is inside the
bounds of row `r`. -/
theorem fill_inter_loop_spec (v : α) (w h : Nat) (n : Nat) :
    ∀ (i : Nat) (im : List α) (T : Table), i + n = h → im.length = w * h →
    (∀ r, Even (T.getD r []).length) →
    ∃ out' T', fill_inter_loop v w n i im T = some (out', T') ∧ out'.length = im.length ∧
      ∀ r c : Nat, r < h → c < w →
        (i ≤ r ∧ Inside (T.getD r []) (c : ℚ) → out'[r * w + c]? = some v) ∧
        (¬ (i ≤ r ∧ Inside (T.getD r []) (c : ℚ)) → out'[r * w + c]? = im[r * w + c]?) := by
  induction n with
  | zero =>
    intro i im T hi _ _
    refine ⟨im, T, rfl, rfl, ?_⟩
    intro r c hr _
    exact ⟨fun hc => by omega, fun _ => rfl⟩
  | succ n ih =>
    intro i im T hi hlen heven
    have hih : i < h := by omega
    have hrow_le : i * w + w ≤ im.length := by
      rw [hlen]
      calc i * w + w = (i + 1) * w := by ring
        _ ≤ h * w := Nat.mul_le_mul_right w (by omega)
        _ = w * h := Nat.mul_comm _ _
    have hidx : ∀ r c : Nat, c < w → (r < i → r * w + c < i * w) ∧
        (i < r → i * w + w ≤ r * w + c) ∧ (r < h → r * w + c < im.length) := by
      intro r c hc
      refine ⟨?_, ?_, ?_⟩
      · intro hr
        calc r * w + c < r * w + w := by omega
          _ = (r + 1) * w := by ring
          _ ≤ i * w := Nat.mul_le_mul_right w (by omega)
      · intro hr
        calc i * w + w = (i + 1) * w := by ring
          _ ≤ r * w := Nat.mul_le_mul_right w (by omega)
          _ ≤ r * w + c := Nat.le_add_right _ _
      · intro hr
        rw [hlen]
        calc r * w + c < r * w + w := by omega
          _ = (r + 1) * w := by ring
          _ ≤ h * w := Nat.mul_le_mul_right w (by omega)
          _ = w * h := Nat.mul_comm _ _
    by_cases hemp : (T.getD i []).isEmpty = true
    · have hnil : T.getD i [] = [] := List.isEmpty_iff.1 hemp
      obtain ⟨out', T', h1, h2, h3⟩ := ih (i + 1) im T (by omega) hlen heven
      refine ⟨out', T', by simp only [fill_inter_loop, hemp, if_true]; exact h1, h2, ?_⟩
      intro r c hr hc
      have h4 := h3 r c hr hc
      constructor
      · rintro ⟨hir, hin⟩
        by_cases hri : r = i
        · rw [hri, hnil] at hin
          exact absurd hin (not_inside_nil _)
        · exact h4.1 ⟨by omega, hin⟩
      · intro hn
        exact h4.2 (fun hc' => hn ⟨by omega, hc'.2⟩)
    · have hmul : (i + 1) * w = i * w + w := by ring
      obtain ⟨buf', hfl, hlen', hpix⟩ :=
        fill_line_spec v im (i * w) w (T.getD i []) (heven i) hrow_le
      have heven' : ∀ r, Even ((T.set i ((T.getD i []).insertionSort (· ≤ ·))).getD r []).length := by
        intro r
        by_cases hir : i = r
        · subst hir
          rw [List.getD_eq_getElem?_getD, List.getElem?_set]
          simp only [if_true]
          split
          · simp only [Option.getD_some]
            rw [(List.perm_insertionSort _ _).length_eq]
            exact heven i
          · simp
        · rw [getD_set_table _ _ _ _ hir]
          exact heven r
      obtain ⟨out', T', h1, h2, h3⟩ := ih (i + 1) buf'
        (T.set i ((T.getD i []).insertionSort (· ≤ ·))) (by omega) (by rw [hlen', hlen]) heven'
      refine ⟨out', T', ?_, by rw [h2, hlen'], ?_⟩
      · simp only [fill_inter_loop, hemp, hmul, hfl]
        exact h1
      · intro r c hr hc
        have h4 := h3 r c hr hc
        obtain ⟨hx1, hx2, hx3⟩ := hidx r c hc
        have h5 := hpix (r * w + c) (hx3 hr)
        by_cases hri : r = i
        · subst hri
          have hsub : r * w + c - r * w = c := by omega
          rw [hsub] at h5
          have hkeep : out'[r * w + c]? = buf'[r * w + c]? := h4.2 (fun hc' => by omega)
          rw [hkeep]
          constructor
          · rintro ⟨_, hin⟩
            exact h5.1 ⟨by omega, by omega, hin⟩
          · intro hn
            exact h5.2 (fun hc' => hn ⟨le_refl _, hc'.2.2⟩)
        · have hT : (T.set i ((T.getD i []).insertionSort (· ≤ ·))).getD r [] = T.getD r [] :=
            getD_set_table _ _ _ _ (fun hc' => hri hc'.symm)
          rw [hT] at h4
          have hb : buf'[r * w + c]? = im[r * w + c]? := by
            apply h5.2
            rintro ⟨h6, h7, _⟩
            rcases Nat.lt_or_gt_of_ne hri with hlt | hgt
            · have := hx1 hlt; omega
            · have := hx2 hgt; omega
          rw [hb] at h4
          constructor
          · rintro ⟨hir, hin⟩
            exact h4.1 ⟨by omega, hin⟩
          · intro hn
            exact h4.2 (fun hc' => hn ⟨by omega, hc'.2⟩)

/-! ## An axis-aligned rectangle -/

theorem half_not_integer (n : Nat) : is_integer ((n : ℚ) + -1 / 2) = false := by
  cases h : is_integer ((n : ℚ) + -1 / 2)
  · rfl
  · exfalso
    unfold is_integer at h
    have h1 : (n : ℚ) + -1 / 2 = ((toInt ((n : ℚ) + -1 / 2) : Int) : ℚ) := by simpa using h
    generalize toInt ((n : ℚ) + -1 / 2) = z at h1
    have h2 : (((2 * (n : Int) - 1 : Int)) : ℚ) = ((2 * z : Int) : ℚ) := by
      push_cast
      linarith
    have h3 : 2 * (n : Int) - 1 = 2 * z := by exact_mod_cast h2
    omega

theorem half_lt_iff (a r : Nat) : (a : ℚ) + -1 / 2 < (r : ℚ) ↔ a ≤ r := by
  constructor
  · intro h
    by_contra hc
    have h1 : r + 1 ≤ a := by omega
    have h2 : ((r + 1 : Nat) : ℚ) ≤ (a : ℚ) := by exact_mod_cast h1
    push_cast at h2
    linarith
  · intro h
    have h2 : (a : ℚ) ≤ (r : ℚ) := by exact_mod_cast h
    linarith

theorem lt_half_iff (a r : Nat) : (r : ℚ) < (a : ℚ) + -1 / 2 ↔ r < a := by
  constructor
  · intro h
    by_contra hc
    have h1 : a ≤ r := by omega
    have h2 : (a : ℚ) ≤ (r : ℚ) := by exact_mod_cast h1
    linarith
  · intro h
    have h1 : r + 1 ≤ a := by omega
    have h2 : ((r + 1 : Nat) : ℚ) ≤ (a : ℚ) := by exact_mod_cast h1
    push_cast at h2
    linarith

/-- The interval table of the rectangle with corners `(x0,y0)` and `(x1,y1)`: the rows from
`y0` to `y1 - 1` hold the two bounds `x1 - 1/2` and `x0 - 1/2`, the other rows are empty. -/
theorem edge_walk_rect (x0 x1 y0 y1 h : Nat) (hy : y0 < y1) :
    ∃ T, edge_walk [⟨x0, y0⟩, ⟨x1, y0⟩, ⟨x1, y1⟩, ⟨x0, y1⟩] h = some T ∧ T.length = h ∧
      ∀ r : Nat, T.getD r [] =
        if (y0 ≤ r ∧ r < y1) ∧ r < h then [(x1 : ℚ) + -1 / 2, (x0 : ℚ) + -1 / 2] else [] := by
  have hyq : (y0 : ℚ) < (y1 : ℚ) := by exact_mod_cast hy
  have hpv : prev_vertex [⟨x0, y0⟩, ⟨x1, y0⟩, ⟨x1, y1⟩, ⟨x0, y1⟩] = ⟨x0, y1⟩ := by
    have hrev : [(⟨x0, y0⟩ : Point), ⟨x1, y0⟩, ⟨x1, y1⟩, ⟨x0, y1⟩].reverse =
        [⟨x0, y1⟩, ⟨x1, y1⟩, ⟨x1, y0⟩, ⟨x0, y0⟩] := rfl
    have hne : (⟨x0, y1⟩ : Point) ≠ ⟨x0, y0⟩ := by
      intro hc
      have := congrArg Point.y hc
      simp only at this
      linarith
    unfold prev_vertex
    rw [hrev, List.headD_cons, List.find?_cons_of_pos _ (by simpa using hne)]
    rfl
  have hshift : ∀ a b : ℚ, (⟨a, b⟩ + delta : Point) = ⟨a + -1 / 2, b + -1 / 2⟩ := fun _ _ => rfl
  have hs0 : arrive ((⟨x0, y1⟩ : Point) + delta) ((⟨x0, y0⟩ : Point) + delta) =
      { p := ⟨(x0 : ℚ) + -1 / 2, (y0 : ℚ) + -1 / 2⟩, bHorizontal := false, dir := -1 } := by
    have h1 : ¬ ((y1 : ℚ) + -1 / 2 = (y0 : ℚ) + -1 / 2) := by
      intro hc; linarith
    have h2 : ¬ ((y1 : ℚ) + -1 / 2 < (y0 : ℚ) + -1 / 2) := by
      intro hc; linarith
    simp only [arrive, hshift, if_neg h1, sign, if_neg h2]
  rw [edge_walk_eq, init_eq_arrive, hpv]
  simp only [List.headD_cons, List.tail_cons, List.cons_append, List.nil_append, hs0]
  -- first edge: horizontal, off the grid
  have e1 := add_point_horizontal_off
    { p := ⟨(x0 : ℚ) + -1 / 2, (y0 : ℚ) + -1 / 2⟩, bHorizontal := false, dir := -1 }
    ⟨x1, y0⟩ (List.replicate h []) rfl (half_not_integer y0)
  -- second edge: vertical, going up
  obtain ⟨T1, e2, hl1, hr1⟩ := add_point_vertical_up
    { p := (⟨x1, y0⟩ : Point) + delta, bHorizontal := false, dir := -1 }
    ⟨x1, y1⟩ (List.replicate h []) rfl (half_not_integer y0)
    (by simp only [hshift]; linarith) rfl
  -- third edge: horizontal, off the grid
  have e3 := add_point_horizontal_off
    { p := (⟨x1, y1⟩ : Point) + delta, bHorizontal := false, dir := 1 }
    ⟨x0, y1⟩ T1 rfl (half_not_integer y1)
  -- closing edge: vertical, going down
  have hy1 : (1 : ℚ) ≤ (y1 : ℚ) := by
    have : 1 ≤ y1 := by omega
    exact_mod_cast this
  obtain ⟨T2, e4, hl2, hr2⟩ := add_point_vertical_down
    { p := (⟨x0, y1⟩ : Point) + delta, bHorizontal := false, dir := 1 }
    ⟨x0, y0⟩ T1 rfl (half_not_integer y1) (by simp only [hshift]; linarith)
    (by simp only [hshift]; linarith) rfl
  refine ⟨T2, ?_, by rw [hl2, hl1, List.length_replicate], ?_⟩
  · simp only [add_points, e1, e2, e3, e4, Option.map_some']
  · intro r
    rw [hr2 r, hr1 r, hl1, List.length_replicate, getD_replicate_nil, List.nil_append]
    simp only [hshift, half_lt_iff, lt_half_iff]
    by_cases hc : (y0 ≤ r ∧ r < y1) ∧ r < h
    · rw [if_pos hc, if_pos ⟨⟨hc.1.1, hc.1.2⟩, hc.2⟩, if_pos hc]
      rfl
    · rw [if_neg hc, if_neg hc, if_neg hc]
      rfl

theorem inside_rect_row (x0 x1 c : Nat) (hx : x0 < x1) :
    Inside [(x1 : ℚ) + -1 / 2, (x0 : ℚ) + -1 / 2] (c : ℚ) ↔ x0 ≤ c ∧ c < x1 := by
  unfold Inside
  have hmem : ¬ (c : ℚ) ∈ [(x1 : ℚ) + -1 / 2, (x0 : ℚ) + -1 / 2] := by
    intro hc
    simp only [List.mem_cons, List.mem_singleton, List.not_mem_nil, or_false] at hc
    have hint : ∀ n : Nat, (c : ℚ) ≠ (n : ℚ) + -1 / 2 := by
      intro n hcn
      have h1 := ne_intCast_of_not_integer (half_not_integer n) (c : Int)
      apply h1
      rw [← hcn]
      simp
    rcases hc with hc | hc
    · exact hint x1 hc
    · exact hint x0 hc
  have hcount : [(x1 : ℚ) + -1 / 2, (x0 : ℚ) + -1 / 2].countP (· < (c : ℚ)) =
      (if x1 ≤ c then 1 else 0) + (if x0 ≤ c then 1 else 0) := by
    simp only [List.countP_cons, List.countP_nil, half_lt_iff, decide_eq_true_eq, zero_add]
    exact Nat.add_comm _ _
  rw [hcount]
  constructor
  · rintro (h | h)
    · by_cases h1 : x1 ≤ c
      · have h0 : x0 ≤ c := by omega
        rw [if_pos h1, if_pos h0] at h
        exact absurd h (by decide)
      · by_cases h0 : x0 ≤ c
        · exact ⟨h0, by omega⟩
        · rw [if_neg h1, if_neg h0] at h
          exact absurd h (by decide)
    · exact absurd h hmem
  · rintro ⟨h0, h1⟩
    left
    rw [if_neg (by omega), if_pos h0]
    decide

/-- In exact arithmetic: for integers `0 ≤ x0 < x1` and `0 ≤ y0 < y1`, `fill_curve` on the
curve `[(x0,y0), (x1,y0), (x1,y1), (x0,y1)]` with value `v` returns normally, sets exactly the
pixels with column in `[x0, x1-1]` and row in `[y0, y1-1]` to `v` and leaves every other pixel
of the `w` by `h` buffer unchanged (a rectangle that reaches beyond the buffer is clipped);
in particular for the square with corners `(0,0)` and `(4,4)` on an 8x8 zero buffer. -/
theorem fill_curve_rectangle_exact (x0 x1 y0 y1 w h : Nat) (value : α) (out : List α)
    (t : Option Table) (hx : x0 < x1) (hy : y0 < y1) (hlen : out.length = w * h) :
    (∃ out', (fill_curve [⟨x0, y0⟩, ⟨x1, y0⟩, ⟨x1, y1⟩, ⟨x0, y1⟩] value out w h t).map Prod.fst =
        some out' ∧ out'.length = out.length ∧
      ∀ r c : Nat, r < h → c < w →
        out'[r * w + c]? =
          if (x0 ≤ c ∧ c < x1) ∧ (y0 ≤ r ∧ r < y1) then some value else out[r * w + c]?) ∧
    (fill_curve [⟨0, 0⟩, ⟨4, 0⟩, ⟨4, 4⟩, ⟨0, 4⟩] (1 : Nat) (List.replicate 64 0) 8 8 none).map
        Prod.fst =
      some [1, 1, 1, 1, 0, 0, 0, 0, 1, 1, 1, 1, 0, 0, 0, 0, 1, 1, 1, 1, 0, 0, 0, 0,
        1, 1, 1, 1, 0, 0, 0, 0, 0, 0, 0, 0, 0, 0, 0, 0, 0, 0, 0, 0, 0, 0, 0, 0,
        0, 0, 0, 0, 0, 0, 0, 0, 0, 0, 0, 0, 0, 0, 0, 0] := by
  refine ⟨?_, by decide!⟩
  obtain ⟨T, hT, hTlen, hrows⟩ := edge_walk_rect x0 x1 y0 y1 h hy
  have heven : ∀ r, Even (T.getD r []).length := by
    intro r
    rw [hrows r]
    split
    · exact ⟨1, rfl⟩
    · exact ⟨0, rfl⟩
  obtain ⟨out', T', h1, h2, h3⟩ := fill_inter_loop_spec value w h h 0 out T (by omega) hlen heven
  refine ⟨out', ?_, h2, ?_⟩
  · rw [fill_curve_fst_eq _ _ _ _ _ _ (List.cons_ne_nil _ _), hT]
    simp only [Option.some_bind, fill_inter, h1, Option.map_some']
  · intro r c hr hc
    have h4 := h3 r c hr hc
    rw [hrows r] at h4
    by_cases hin : (x0 ≤ c ∧ c < x1) ∧ (y0 ≤ r ∧ r < y1)
    · rw [if_pos hin]
      apply h4.1
      rw [if_pos ⟨hin.2, hr⟩]
      exact ⟨Nat.zero_le _, (inside_rect_row x0 x1 c hx).2 hin.1⟩
    · rw [if_neg hin]
      apply h4.2
      rintro ⟨_, hc'⟩
      by_cases hrow : (y0 ≤ r ∧ r < y1) ∧ r < h
      · rw [if_pos hrow] at hc'
        exact hin ⟨(inside_rect_row x0 x1 c hx).1 hc', hrow.1⟩
      · rw [if_neg hrow] at hc'
        exact not_inside_nil _ hc'

/-! ## C11: the empty curve -/

/-- C11. Empty curve is a no-op: for the empty curve `fill_curve` returns normally with the
buffer unchanged and the caller-supplied interval table (if any) unchanged. -/
theorem fill_curve_empty (value : α) (out : List α) (w h : Nat) (t : Option Table) :
    fill_curve [] value out w h t = some (out, t) := by
  simp [fill_curve]

/-! ## C16: the direction field -/

theorem sign_eq (f1 f2 : ℚ) : sign f1 f2 = 1 ∨ sign f1 f2 = -1 := by
  unfold sign
  split
  · exact Or.inl rfl
  · exact Or.inr rfl

theorem arrive_dir (q p : Point) : (arrive q p).dir = 1 ∨ (arrive q p).dir = -1 := by
  unfold arrive
  split <;> exact sign_eq _ _

theorem add_point_dir (s s' : PolyIterator) (pi : Point) (T T' : Table)
    (hd : s.dir = 1 ∨ s.dir = -1) (h : add_point s pi T = some (s', T')) :
    s'.dir = 1 ∨ s'.dir = -1 := by
  unfold add_point at h
  simp only at h
  split at h
  · split at h
    · split at h <;>
      · simp only [Option.some.injEq, Prod.mk.injEq] at h
        rw [← h.1]
        exact sign_eq _ _
    · simp only [Option.some.injEq, Prod.mk.injEq] at h
      rw [← h.1]
      exact hd
  · simp only [Option.map_eq_some'] at h
    obtain ⟨t, _, ht⟩ := h
    simp only [Prod.mk.injEq] at ht
    rw [← ht.1]
    exact sign_eq _ _

theorem add_points_dir (pts : List Point) : ∀ (s s' : PolyIterator) (T T' : Table),
    (s.dir = 1 ∨ s.dir = -1) → add_points s pts T = some (s', T') →
    s'.dir = 1 ∨ s'.dir = -1 := by
  induction pts with
  | nil =>
    intro s s' T T' hd h
    simp only [add_points, Option.some.injEq, Prod.mk.injEq] at h
    rw [← h.1]; exact hd
  | cons pt rest ih =>
    intro s s' T T' hd h
    simp only [add_points] at h
    cases h1 : add_point s pt T with
    | none => rw [h1] at h; exact absurd h (by simp)
    | some r =>
      obtain ⟨s1, T1⟩ := r
      rw [h1] at h
      exact ih s1 s' T1 T' (add_point_dir s s1 pt T T1 hd h1) h

/-- C16. Direction is always +1 or -1: `sign` returns +1 or -1 for all arguments (equal ones
included), so for every curve (also one whose points are all identical) the `dir` field of
the `PolyIterator` is +1 or -1 after construction and after any sequence `pts` of `add_point`
calls (`pts = []` is the state right after construction). -/
theorem dir_plus_or_minus_one (curve pts : List Point) (T T' : Table) (s' : PolyIterator)
    (h : add_points (PolyIterator.init curve) pts T = some (s', T')) :
    (∀ f1 f2 : ℚ, sign f1 f2 = 1 ∨ sign f1 f2 = -1) ∧
    ((PolyIterator.init curve).dir = 1 ∨ (PolyIterator.init curve).dir = -1) ∧
    (s'.dir = 1 ∨ s'.dir = -1) := by
  have h0 : (PolyIterator.init curve).dir = 1 ∨ (PolyIterator.init curve).dir = -1 := by
    rw [init_eq_arrive]; exact arrive_dir _ _
  exact ⟨sign_eq, h0, add_points_dir pts _ s' T T' h0 h⟩

/-- C16, at a concrete curve: three identical points, after two `add_point` calls. -/
theorem dir_plus_or_minus_one_witness :
    add_points (PolyIterator.init [⟨1, 1⟩, ⟨1, 1⟩, ⟨1, 1⟩]) [⟨1, 1⟩, ⟨1, 1⟩] [[], []] =
      some ({ p := ⟨1/2, 1/2⟩, bHorizontal := false, dir := -1 }, [[], []]) ∧
    (∀ f1 f2 : ℚ, sign f1 f2 = 1 ∨ sign f1 f2 = -1) ∧
    ((PolyIterator.init [⟨1, 1⟩, ⟨1, 1⟩, ⟨1, 1⟩]).dir = 1 ∨
      (PolyIterator.init [⟨1, 1⟩, ⟨1, 1⟩, ⟨1, 1⟩]).dir = -1) ∧
    ((-1 : Int) = 1 ∨ (-1 : Int) = -1) :=
  ⟨by decide!, dir_plus_or_minus_one [⟨1, 1⟩, ⟨1, 1⟩, ⟨1, 1⟩] [⟨1, 1⟩, ⟨1, 1⟩] [[], []] [[], []]
    { p := ⟨1/2, 1/2⟩, bHorizontal := false, dir := -1 } (by decide!)⟩

/-! ## C20: the horizontal flag -/

/-- C20. Horizontal flag implies grid alignment: for every curve, after construction and
after any sequence `pts` of `add_point` calls (`pts = []` is the state right after
construction), `bHorizontal` being true implies that the current shifted vertex has an exact
integer `y` coordinate. -/
theorem horizontal_flag_aligned (curve pts : List Point) (T T' : Table) (s' : PolyIterator)
    (h : add_points (PolyIterator.init curve) pts T = some (s', T'))
    (hb : s'.bHorizontal = true) : is_integer s'.p.y = true := by
  have h0 : Aligned (PolyIterator.init curve) := by
    rw [init_eq_arrive]; exact aligned_arrive _ _
  exact aligned_add_points pts _ s' T T' h0 h hb

/-- C20, at a concrete curve: a triangle whose first edge runs along the row boundary 0. -/
theorem horizontal_flag_aligned_witness :
    add_points (PolyIterator.init [⟨1/2, 1/2⟩, ⟨5/2, 1/2⟩, ⟨5/2, 5/2⟩]) [⟨5/2, 1/2⟩] [[], []] =
      some ({ p := ⟨2, 0⟩, bHorizontal := true, dir := 1 }, [[], []]) ∧
    ({ p := ⟨2, 0⟩, bHorizontal := true, dir := 1 } : PolyIterator).bHorizontal = true ∧
    is_integer ({ p := ⟨2, 0⟩, bHorizontal := true, dir := 1 } : PolyIterator).p.y = true :=
  ⟨by decide!, rfl,
    horizontal_flag_aligned [⟨1/2, 1/2⟩, ⟨5/2, 1/2⟩, ⟨5/2, 5/2⟩] [⟨5/2, 1/2⟩] [[], []] [[], []]
      { p := ⟨2, 0⟩, bHorizontal := true, dir := 1 } (by decide!) rfl⟩

/-! ## The non-horizontal edge as bounds before the loop, then the loop -/

/-- A non-horizontal edge: `add_point` records `pre_bounds`, then runs the stepping loop from
`start_row` to `(int)p.y + dir`. -/
theorem add_point_eq_loop (s : PolyIterator) (pi : Point) (T : Table)
    (hy : s.p.y ≠ (pi + delta).y) :
    add_point s pi T =
      (row_loop s.p (pi + delta) ((s.p.x - (pi + delta).x) / (s.p.y - (pi + delta).y))
        (sign s.p.y (pi + delta).y) (toInt (pi + delta).y + sign s.p.y (pi + delta).y)
        (toInt (pi + delta).y + sign s.p.y (pi + delta).y - start_row s (pi + delta)).natAbs
        (start_row s (pi + delta)) (apply_bounds (pre_bounds s (pi + delta)) T)).map
      (fun t => ({ p := pi + delta, bHorizontal := false, dir := sign s.p.y (pi + delta).y }, t)) := by
  by_cases hb : s.bHorizontal = true
  · by_cases hd : s.dir ≠ sign s.p.y (pi + delta).y
    · simp only [add_point, start_row, pre_bounds, if_neg hy, if_pos hb, if_pos hd]
      rfl
    · simp only [add_point, start_row, pre_bounds, if_neg hy, if_pos hb, if_neg hd]
      rfl
  · by_cases hpk : sign s.p.y (pi + delta).y ≠ s.dir ∧ s.p.y = ((toInt s.p.y : Int) : ℚ)
    · simp only [add_point, start_row, pre_bounds, if_neg hy, if_neg hb, if_pos hpk]
      rfl
    · by_cases hup : sign s.p.y (pi + delta).y > 0 ∧ ((toInt s.p.y : Int) : ℚ) < s.p.y
      · simp only [add_point, start_row, pre_bounds, if_neg hy, if_neg hb, if_neg hpk, if_pos hup]
        rfl
      · simp only [add_point, start_row, pre_bounds, if_neg hy, if_neg hb, if_neg hpk, if_neg hup]
        rfl

theorem start_row_cases (s : PolyIterator) (p : Point) :
    start_row s p = toInt s.p.y ∨ start_row s p = toInt s.p.y + sign s.p.y p.y := by
  unfold start_row
  split
  · exact Or.inr rfl
  · split
    · exact Or.inr rfl
    · split
      · exact Or.inr rfl
      · exact Or.inl rfl

/-! ## C19: termination of the row-stepping loop -/

/-- C19. The row-stepping loop terminates: for every walker state `s` and every
non-horizontal edge to the shifted vertex `p`, the start row `iy1` (after the adjustments) and
the stop row `iy2 = (int)p.y + dir` satisfy `(iy2 - iy1) * dir ≥ 0`; the loop variable
`iy1 + k * dir` equals `iy2` exactly for `k = |iy2 - iy1|`, and the loop, given at least that
many iterations, returns what it returns with exactly that many. -/
theorem row_loop_terminates (s : PolyIterator) (pi : Point) (hy : s.p.y ≠ (pi + delta).y) :
    0 ≤ (toInt (pi + delta).y + sign s.p.y (pi + delta).y - start_row s (pi + delta)) *
      sign s.p.y (pi + delta).y ∧
    (∀ k : Nat, start_row s (pi + delta) + sign s.p.y (pi + delta).y * (k : Int) =
        toInt (pi + delta).y + sign s.p.y (pi + delta).y ↔
      k = (toInt (pi + delta).y + sign s.p.y (pi + delta).y - start_row s (pi + delta)).natAbs) ∧
    (∀ (m : Nat) (a : ℚ) (T : Table),
      (toInt (pi + delta).y + sign s.p.y (pi + delta).y - start_row s (pi + delta)).natAbs ≤ m →
      row_loop s.p (pi + delta) a (sign s.p.y (pi + delta).y)
          (toInt (pi + delta).y + sign s.p.y (pi + delta).y) m (start_row s (pi + delta)) T =
        row_loop s.p (pi + delta) a (sign s.p.y (pi + delta).y)
          (toInt (pi + delta).y + sign s.p.y (pi + delta).y)
          (toInt (pi + delta).y + sign s.p.y (pi + delta).y - start_row s (pi + delta)).natAbs
          (start_row s (pi + delta)) T) := by
  have hreach := row_loop_reaches s.p.y (pi + delta).y hy (start_row s (pi + delta))
    (start_row_cases s (pi + delta))
  have hsign := sign_eq s.p.y (pi + delta).y
  refine ⟨?_, ?_, ?_⟩
  · rcases hsign with hs | hs <;> rw [hs] at hreach ⊢ <;> omega
  · intro k
    rcases hsign with hs | hs <;> rw [hs] at hreach ⊢ <;> omega
  · intro m a T hm
    exact row_loop_fuel _ _ a _ _ hsign _ m _ T hreach hm

/-- C19, at a concrete edge: from the shifted vertex `(0, 1/2)` up to `(1, 7/2)`. -/
theorem row_loop_terminates_witness :
    ({ p := ⟨0, 1/2⟩, bHorizontal := false, dir := -1 } : PolyIterator).p.y ≠ ((⟨3/2, 4⟩ : Point) + delta).y ∧
    (0 ≤ (toInt ((⟨3/2, 4⟩ : Point) + delta).y + sign (1/2) ((⟨3/2, 4⟩ : Point) + delta).y - start_row { p := ⟨0, 1/2⟩, bHorizontal := false, dir := -1 } ((⟨3/2, 4⟩ : Point) + delta)) * sign (1/2) ((⟨3/2, 4⟩ : Point) + delta).y ∧
    (∀ k : Nat, start_row { p := ⟨0, 1/2⟩, bHorizontal := false, dir := -1 } ((⟨3/2, 4⟩ : Point) + delta) + sign (1/2) ((⟨3/2, 4⟩ : Point) + delta).y * (k : Int) =
        toInt ((⟨3/2, 4⟩ : Point) + delta).y + sign (1/2) ((⟨3/2, 4⟩ : Point) + delta).y ↔
      k = (toInt ((⟨3/2, 4⟩ : Point) + delta).y + sign (1/2) ((⟨3/2, 4⟩ : Point) + delta).y - start_row { p := ⟨0, 1/2⟩, bHorizontal := false, dir := -1 } ((⟨3/2, 4⟩ : Point) + delta)).natAbs) ∧
    (∀ (m : Nat) (a : ℚ) (T : Table),
      (toInt ((⟨3/2, 4⟩ : Point) + delta).y + sign (1/2) ((⟨3/2, 4⟩ : Point) + delta).y - start_row { p := ⟨0, 1/2⟩, bHorizontal := false, dir := -1 } ((⟨3/2, 4⟩ : Point) + delta)).natAbs ≤ m →
      row_loop ⟨0, 1/2⟩ ((⟨3/2, 4⟩ : Point) + delta) a (sign (1/2) ((⟨3/2, 4⟩ : Point) + delta).y) (toInt ((⟨3/2, 4⟩ : Point) + delta).y + sign (1/2) ((⟨3/2, 4⟩ : Point) + delta).y) m
          (start_row { p := ⟨0, 1/2⟩, bHorizontal := false, dir := -1 } ((⟨3/2, 4⟩ : Point) + delta)) T =
        row_loop ⟨0, 1/2⟩ ((⟨3/2, 4⟩ : Point) + delta) a (sign (1/2) ((⟨3/2, 4⟩ : Point) + delta).y) (toInt ((⟨3/2, 4⟩ : Point) + delta).y + sign (1/2) ((⟨3/2, 4⟩ : Point) + delta).y)
          (toInt ((⟨3/2, 4⟩ : Point) + delta).y + sign (1/2) ((⟨3/2, 4⟩ : Point) + delta).y - start_row { p := ⟨0, 1/2⟩, bHorizontal := false, dir := -1 } ((⟨3/2, 4⟩ : Point) + delta)).natAbs
          (start_row { p := ⟨0, 1/2⟩, bHorizontal := false, dir := -1 } ((⟨3/2, 4⟩ : Point) + delta)) T)) :=
  ⟨by decide!, row_loop_terminates { p := ⟨0, 1/2⟩, bHorizontal := false, dir := -1 } ⟨3/2, 4⟩ (by decide!)⟩

/-! ## C12: horizontal runs -/

/-- C12. Horizontal-run merging: for every walker state whose current vertex `q` has an
integer shifted `y`, and two points `m`, `p` on the same row with `m` strictly between `q` and
`p` in `x`, `add_point(m)` then `add_point(p)` gives the same state and the same table as
`add_point(p)` alone; the second edge records no bound, and the run records at most one
bound, at `q.x` on the row of `q`. -/
theorem horizontal_run_merge (s : PolyIterator) (m p : Point) (T : Table)
    (hi : is_integer s.p.y = true) (hm : (m + delta).y = s.p.y) (hp : (p + delta).y = s.p.y)
    (hbetween : (s.p.x < (m + delta).x ∧ (m + delta).x < (p + delta).x) ∨
      ((p + delta).x < (m + delta).x ∧ (m + delta).x < s.p.x)) :
    ∃ s1 T1, add_point s m T = some (s1, T1) ∧
      add_point s1 p T1 = add_point s p T ∧
      add_point s1 p T1 =
        some ({ p := p + delta, bHorizontal := true, dir := sign s.p.x (p + delta).x }, T1) ∧
      (T1 = T ∨ T1 = bound T s.p.x (toInt s.p.y)) := by
  have hd1 : sign s.p.x (m + delta).x = sign s.p.x (p + delta).x := by
    unfold sign
    rcases hbetween with ⟨h1, h2⟩ | ⟨h1, h2⟩
    · rw [if_pos h1, if_pos (lt_trans h1 h2)]
    · rw [if_neg (not_lt.2 (le_of_lt h2)), if_neg (not_lt.2 (le_of_lt (lt_trans h1 h2)))]
  have hd2 : sign (m + delta).x (p + delta).x = sign s.p.x (p + delta).x := by
    unfold sign
    rcases hbetween with ⟨h1, h2⟩ | ⟨h1, h2⟩
    · rw [if_pos h2, if_pos (lt_trans h1 h2)]
    · rw [if_neg (not_lt.2 (le_of_lt h1)), if_neg (not_lt.2 (le_of_lt (lt_trans h1 h2)))]
  have hqm : s.p.x ≠ (m + delta).x := by
    rcases hbetween with ⟨h1, _⟩ | ⟨_, h2⟩
    · exact ne_of_lt h1
    · exact ne_of_gt h2
  have hmp : (m + delta).x ≠ (p + delta).x := by
    rcases hbetween with ⟨_, h2⟩ | ⟨h1, _⟩
    · exact ne_of_lt h2
    · exact ne_of_gt h1
  have hqp : s.p.x ≠ (p + delta).x := by
    rcases hbetween with ⟨h1, h2⟩ | ⟨h1, h2⟩
    · exact ne_of_lt (lt_trans h1 h2)
    · exact ne_of_gt (lt_trans h1 h2)
  have him : is_integer (m + delta).y = true := by rw [hm]; exact hi
  have hmpy : (m + delta).y = (p + delta).y := by rw [hm, hp]
  have e2 : ∀ T1 : Table,
      add_point { p := m + delta, bHorizontal := true, dir := sign s.p.x (p + delta).x } p T1 =
        some ({ p := p + delta, bHorizontal := true, dir := sign s.p.x (p + delta).x }, T1) := by
    intro T1
    unfold add_point
    simp only [if_pos hmpy, if_pos (And.intro hmp him), if_true, hd2, ne_eq, not_true_eq_false,
      if_false]
  by_cases hb : s.bHorizontal = true
  · by_cases hd : s.dir ≠ sign s.p.x (p + delta).x
    · refine ⟨_, bound T s.p.x (toInt s.p.y), ?_, ?_, e2 _, Or.inr rfl⟩
      · unfold add_point
        simp only [if_pos hm.symm, if_pos (And.intro hqm hi), if_pos hb, hd1, if_pos hd]
      · rw [e2]
        unfold add_point
        simp only [if_pos hp.symm, if_pos (And.intro hqp hi), if_pos hb, if_pos hd]
    · refine ⟨_, T, ?_, ?_, e2 _, Or.inl rfl⟩
      · unfold add_point
        simp only [if_pos hm.symm, if_pos (And.intro hqm hi), if_pos hb, hd1, if_neg hd]
      · rw [e2]
        unfold add_point
        simp only [if_pos hp.symm, if_pos (And.intro hqp hi), if_pos hb, if_neg hd]
  · by_cases hd : s.dir = sign s.p.x (p + delta).x
    · refine ⟨_, bound T s.p.x (toInt s.p.y), ?_, ?_, e2 _, Or.inr rfl⟩
      · unfold add_point
        simp only [if_pos hm.symm, if_pos (And.intro hqm hi), if_neg hb, hd1, if_pos hd]
      · rw [e2]
        unfold add_point
        simp only [if_pos hp.symm, if_pos (And.intro hqp hi), if_neg hb, if_pos hd]
    · refine ⟨_, T, ?_, ?_, e2 _, Or.inl rfl⟩
      · unfold add_point
        simp only [if_pos hm.symm, if_pos (And.intro hqm hi), if_neg hb, hd1, if_neg hd]
      · rw [e2]
        unfold add_point
        simp only [if_pos hp.symm, if_pos (And.intro hqp hi), if_neg hb, if_neg hd]

/-- C12, at a concrete run: from the shifted vertex `(0,1)` through `(1,1)` to `(2,1)`. -/
theorem horizontal_run_merge_witness :
    (is_integer ({ p := ⟨0, 1⟩, bHorizontal := false, dir := 1 } : PolyIterator).p.y = true ∧
      ((⟨3/2, 3/2⟩ : Point) + delta).y = ({ p := ⟨0, 1⟩, bHorizontal := false, dir := 1 } : PolyIterator).p.y ∧
      ((⟨5/2, 3/2⟩ : Point) + delta).y = ({ p := ⟨0, 1⟩, bHorizontal := false, dir := 1 } : PolyIterator).p.y ∧
      ((({ p := ⟨0, 1⟩, bHorizontal := false, dir := 1 } : PolyIterator).p.x < ((⟨3/2, 3/2⟩ : Point) + delta).x ∧
          ((⟨3/2, 3/2⟩ : Point) + delta).x < ((⟨5/2, 3/2⟩ : Point) + delta).x) ∨
        (((⟨5/2, 3/2⟩ : Point) + delta).x < ((⟨3/2, 3/2⟩ : Point) + delta).x ∧
          ((⟨3/2, 3/2⟩ : Point) + delta).x < ({ p := ⟨0, 1⟩, bHorizontal := false, dir := 1 } : PolyIterator).p.x))) ∧
    ∃ s1 T1, add_point { p := ⟨0, 1⟩, bHorizontal := false, dir := 1 } ⟨3/2, 3/2⟩ [[], []] = some (s1, T1) ∧
      add_point s1 ⟨5/2, 3/2⟩ T1 = add_point { p := ⟨0, 1⟩, bHorizontal := false, dir := 1 } ⟨5/2, 3/2⟩ [[], []] ∧
      add_point s1 ⟨5/2, 3/2⟩ T1 =
        some ({ p := (⟨5/2, 3/2⟩ : Point) + delta, bHorizontal := true,
                dir := sign ({ p := ⟨0, 1⟩, bHorizontal := false, dir := 1 } : PolyIterator).p.x ((⟨5/2, 3/2⟩ : Point) + delta).x }, T1) ∧
      (T1 = [[], []] ∨
        T1 = bound [[], []] ({ p := ⟨0, 1⟩, bHorizontal := false, dir := 1 } : PolyIterator).p.x (toInt ({ p := ⟨0, 1⟩, bHorizontal := false, dir := 1 } : PolyIterator).p.y)) :=
  ⟨⟨by decide!, by decide!, by decide!, by decide!⟩,
    horizontal_run_merge { p := ⟨0, 1⟩, bHorizontal := false, dir := 1 } ⟨3/2, 3/2⟩ ⟨5/2, 3/2⟩ [[], []] (by decide!) (by decide!)
      (by decide!) (by decide!)⟩

/-! ## A zero-width double boundary -/

theorem inside_cons_cons (B : List ℚ) (x c : ℚ) :
    Inside (x :: x :: B) c ↔ (c = x ∨ Inside B c) := by
  unfold Inside
  have hcount : (x :: x :: B).countP (· < c) = B.countP (· < c) + (if x < c then 2 else 0) := by
    simp only [List.countP_cons, decide_eq_true_eq]
    split <;> omega
  rw [hcount, List.mem_cons, List.mem_cons]
  have hodd : Odd (B.countP (· < c) + (if x < c then 2 else 0)) ↔ Odd (B.countP (· < c)) := by
    split
    · rw [Nat.odd_add]
      exact ⟨fun h => h.2 (by decide), fun h => ⟨fun _ => by decide, fun _ => h⟩⟩
    · rw [Nat.add_zero]
  rw [hodd]
  constructor
  · rintro (h | h | h | h)
    · exact Or.inr (Or.inl h)
    · exact Or.inl h
    · exact Or.inl h
    · exact Or.inr (Or.inr h)
  · rintro (h | h | h)
    · exact Or.inr (Or.inl h)
    · exact Or.inl h
    · exact Or.inr (Or.inr (Or.inr h))

/-- In exact arithmetic: for a row of `w` pixels, an even-length bound list `B` and a list
`B'` that holds the bounds of `B` and two extra copies of `x`, the buffer after `fill_line` on
`B'` is the buffer after `fill_line` on `B`, except that the column equal to `x` (if `x` is an
integer column of the row) is written as well. -/
theorem fill_line_double_bound_exact (value : α) (buf : List α) (im w : Nat) (B B' : List ℚ) (x : ℚ)
    (heven : Even B.length) (hperm : B'.Perm (x :: x :: B)) (hrow : im + w ≤ buf.length) :
    ∃ b1 b2, (fill_line value buf im (im + w) B).map Prod.fst = some b1 ∧
      (fill_line value buf im (im + w) B').map Prod.fst = some b2 ∧
      b2.length = b1.length ∧
      (∀ c : Nat, c < w →
        ((c : ℚ) = x → b2[im + c]? = some value) ∧
        ((c : ℚ) ≠ x → b2[im + c]? = b1[im + c]?)) ∧
      (∀ idx, idx < im ∨ im + w ≤ idx → b2[idx]? = b1[idx]?) := by
  have heven' : Even B'.length := by
    rw [hperm.length_eq, List.length_cons, List.length_cons]
    obtain ⟨k, hk⟩ := heven
    exact ⟨k + 1, by omega⟩
  obtain ⟨b1, h1, hl1, hp1⟩ := fill_line_spec value buf im w B heven hrow
  obtain ⟨b2, h2, hl2, hp2⟩ := fill_line_spec value buf im w B' heven' hrow
  have hin : ∀ c : ℚ, Inside B' c ↔ (c = x ∨ Inside B c) := fun c =>
    (inside_perm hperm c).trans (inside_cons_cons B x c)
  refine ⟨b1, b2, by rw [h1]; rfl, by rw [h2]; rfl, by rw [hl1, hl2], ?_, ?_⟩
  · intro c hc
    have q1 := hp1 (im + c) (by omega)
    have q2 := hp2 (im + c) (by omega)
    have hsub : im + c - im = c := by omega
    rw [hsub] at q1 q2
    constructor
    · intro hcx
      exact q2.1 ⟨by omega, by omega, (hin _).2 (Or.inl hcx)⟩
    · intro hcx
      by_cases hB : Inside B (c : ℚ)
      · rw [q1.1 ⟨by omega, by omega, hB⟩]
        exact q2.1 ⟨by omega, by omega, (hin _).2 (Or.inr hB)⟩
      · rw [q1.2 (fun hh => hB hh.2.2)]
        apply q2.2
        rintro ⟨_, _, hh⟩
        rcases (hin _).1 hh with h | h
        · exact hcx h
        · exact hB h
  · intro idx hidx
    by_cases hlt : idx < buf.length
    · rw [(hp1 idx hlt).2 (by omega), (hp2 idx hlt).2 (by omega)]
    · rw [List.getElem?_eq_none (by omega), List.getElem?_eq_none (by omega)]

/-! ## C17: the border of the image -/

theorem getElem?_set_of_lt (l : List Nat) (i idx : Nat) (a : Nat) (h : idx < l.length) :
    (l.set i a)[idx]? = if i = idx then some a else l[idx]? := by
  rw [List.getElem?_set]
  by_cases hi : i = idx
  · subst hi
    simp [h]
  · simp [hi]

theorem blank_line_length (off n : Nat) : ∀ (i : Nat) (data : List Nat),
    (blank_line off n i data).length = data.length := by
  induction n with
  | zero => intro i data; rfl
  | succ n ih => intro i data; rw [blank_line, ih, List.length_set]

theorem blank_line_getElem? (off n : Nat) : ∀ (i : Nat) (data : List Nat) (idx : Nat),
    idx < data.length →
    (blank_line off n i data)[idx]? =
      if off + i ≤ idx ∧ idx < off + i + n then some 0 else data[idx]? := by
  induction n with
  | zero =>
    intro i data idx _
    rw [if_neg (by omega)]
    rfl
  | succ n ih =>
    intro i data idx hidx
    rw [blank_line, ih (i + 1) _ idx (by rw [List.length_set]; exact hidx),
      getElem?_set_of_lt _ _ _ _ hidx]
    by_cases h1 : off + i = idx
    · have hA : off + i ≤ idx ∧ idx < off + i + (n + 1) := by omega
      rw [if_pos h1, if_pos hA]
      split <;> rfl
    · rw [if_neg h1]
      by_cases h2 : off + (i + 1) ≤ idx ∧ idx < off + (i + 1) + n
      · rw [if_pos h2, if_pos (by omega)]
      · rw [if_neg h2, if_neg (by omega)]

theorem blank_strips_length (w n : Nat) : ∀ (i : Nat) (data : List Nat),
    (blank_strips w n i data).length = data.length := by
  induction n with
  | zero => intro i data; rfl
  | succ n ih => intro i data; rw [blank_strips, ih, List.length_set, List.length_set]

/-- Offsets inside a row: which pixel `(r, c)` is the first pixel of row `k`, and which is
the pixel just before it. -/
theorem row_offset_eq (w r c k : Nat) (hc : c < w) :
    (k * w = r * w + c ↔ (k = r ∧ c = 0)) ∧
    (1 ≤ k → (k * w - 1 = r * w + c ↔ (k = r + 1 ∧ c + 1 = w))) := by
  have hlt : ∀ a b : Nat, a + 1 ≤ b → a * w + w ≤ b * w := by
    intro a b hab
    calc a * w + w = (a + 1) * w := by ring
      _ ≤ b * w := Nat.mul_le_mul_right w hab
  constructor
  · constructor
    · intro h
      rcases Nat.lt_trichotomy k r with hkr | hkr | hkr
      · have := hlt k r hkr; omega
      · subst hkr; exact ⟨rfl, by omega⟩
      · have := hlt r k hkr; omega
    · rintro ⟨rfl, rfl⟩
      rfl
  · intro hk
    have hk1 : w ≤ k * w := by
      calc w = 1 * w := (Nat.one_mul w).symm
        _ ≤ k * w := Nat.mul_le_mul_right w hk
    constructor
    · intro h
      rcases Nat.lt_trichotomy k (r + 1) with hkr | hkr | hkr
      · have hkr' : k ≤ r := by omega
        have := Nat.mul_le_mul_right w hkr'
        omega
      · subst hkr
        have : (r + 1) * w = r * w + w := by ring
        exact ⟨rfl, by omega⟩
      · have := hlt (r + 1) k hkr
        have : (r + 1) * w = r * w + w := by ring
        omega
    · rintro ⟨rfl, hcw⟩
      have : (r + 1) * w = r * w + w := by ring
      omega

theorem blank_strips_getElem? (w n : Nat) : ∀ (i : Nat) (data : List Nat) (r c : Nat),
    1 ≤ i → c < w → r * w + c < data.length →
    (blank_strips w n i data)[r * w + c]? =
      if (c = 0 ∧ i ≤ r ∧ r < i + n) ∨ (c + 1 = w ∧ i ≤ r + 1 ∧ r + 1 < i + n) then some 0
      else data[r * w + c]? := by
  induction n with
  | zero =>
    intro i data r c _ _ _
    rw [if_neg (by omega)]
    rfl
  | succ n ih =>
    intro i data r c hi hc hidx
    obtain ⟨e1, e2⟩ := row_offset_eq w r c i hc
    have e2 := e2 hi
    rw [blank_strips, ih (i + 1) _ r c (by omega) hc
      (by rw [List.length_set, List.length_set]; exact hidx),
      getElem?_set_of_lt _ _ _ _ (by rw [List.length_set]; exact hidx),
      getElem?_set_of_lt _ _ _ _ hidx]
    by_cases h1 : (c = 0 ∧ i + 1 ≤ r ∧ r < i + 1 + n) ∨ (c + 1 = w ∧ i + 1 ≤ r + 1 ∧ r + 1 < i + 1 + n)
    · rw [if_pos h1, if_pos (by omega)]
    · rw [if_neg h1]
      by_cases h2 : i * w - 1 = r * w + c
      · rw [if_pos h2, if_pos (by have := e2.1 h2; omega)]
      · rw [if_neg h2]
        by_cases h3 : i * w = r * w + c
        · rw [if_pos h3, if_pos (by have := e1.1 h3; omega)]
        · rw [if_neg h3, if_neg]
          rintro (⟨h4, h5, h6⟩ | ⟨h4, h5, h6⟩)
          · by_cases h7 : i = r
            · exact h3 (e1.2 ⟨h7, h4⟩)
            · exact h1 (Or.inl ⟨h4, by omega, by omega⟩)
          · by_cases h7 : i = r + 1
            · exact h2 (e2.2 ⟨h7, h4⟩)
            · exact h1 (Or.inr ⟨h4, by omega, by omega⟩)

/-- C17. `blank_border` blanks exactly the one-pixel border: for `w ≥ 1`, `h ≥ 1` and a
`w` by `h` image, after `blank_border` every pixel in row 0, row `h-1`, column 0 or column
`w-1` is 0 and every other pixel keeps its previous value. -/
theorem blank_border_spec (data : List Nat) (w h : Nat) (hw : 1 ≤ w) (hh : 1 ≤ h)
    (hlen : data.length = w * h) :
    (blank_border data w h).length = data.length ∧
    ∀ r c : Nat, r < h → c < w →
      (blank_border data w h)[r * w + c]? =
        if r = 0 ∨ r = h - 1 ∨ c = 0 ∨ c = w - 1 then some 0 else data[r * w + c]? := by
  unfold blank_border
  simp only
  refine ⟨by rw [blank_line_length, blank_line_length, blank_strips_length], ?_⟩
  intro r c hr hc
  have hidx : r * w + c < data.length := by
    rw [hlen]
    calc r * w + c < r * w + w := by omega
      _ = (r + 1) * w := by ring
      _ ≤ h * w := Nat.mul_le_mul_right w (by omega)
      _ = w * h := Nat.mul_comm _ _
  have hrow0 : r * w + c < w ↔ r = 0 := by
    constructor
    · intro h0
      by_contra hne
      have : 1 * w ≤ r * w := Nat.mul_le_mul_right w (by omega)
      omega
    · rintro rfl
      omega
  have hlast : ((h - 1) * w ≤ r * w + c ∧ r * w + c < (h - 1) * w + w) ↔ r = h - 1 := by
    constructor
    · rintro ⟨h1, h2⟩
      by_contra hne
      have h3 : (r + 1) * w ≤ (h - 1) * w := Nat.mul_le_mul_right w (by omega)
      have h4 : (r + 1) * w = r * w + w := by ring
      omega
    · rintro rfl
      omega
  rw [blank_line_getElem? _ _ _ _ _ (by rw [blank_line_length, blank_strips_length]; exact hidx),
    blank_line_getElem? _ _ _ _ _ (by rw [blank_strips_length]; exact hidx),
    blank_strips_getElem? w (h - 1) 1 data r c (le_refl _) hc hidx]
  by_cases hb : r = 0 ∨ r = h - 1 ∨ c = 0 ∨ c = w - 1
  · rw [if_pos hb]
    by_cases h1 : (h - 1) * w + 0 ≤ r * w + c ∧ r * w + c < (h - 1) * w + 0 + w
    · rw [if_pos h1]
    · rw [if_neg h1]
      have hr1 : r ≠ h - 1 := fun hc' => h1 (by
        have := hlast.2 hc'
        omega)
      by_cases h2 : 0 + 0 ≤ r * w + c ∧ r * w + c < 0 + 0 + w
      · rw [if_pos h2]
      · rw [if_neg h2]
        have hr0 : r ≠ 0 := fun hc' => h2 (by
          have := hrow0.2 hc'
          omega)
        rw [if_pos]
        rcases hb with hb | hb | hb | hb
        · exact absurd hb hr0
        · exact absurd hb hr1
        · exact Or.inl ⟨hb, by omega, by omega⟩
        · exact Or.inr ⟨by omega, by omega, by omega⟩
  · rw [if_neg hb, if_neg, if_neg, if_neg]
    · rintro (⟨h4, _, _⟩ | ⟨h4, _, _⟩)
      · exact hb (Or.inr (Or.inr (Or.inl h4)))
      · exact hb (Or.inr (Or.inr (Or.inr (by omega))))
    · rintro ⟨_, h2⟩
      exact hb (Or.inl (hrow0.1 (by omega)))
    · rintro ⟨h1, h2⟩
      exact hb (Or.inr (Or.inl (hlast.1 ⟨by omega, by omega⟩)))

/-- C17, at a concrete image: 3 by 3, all pixels 7. -/
theorem blank_border_spec_witness :
    (1 ≤ 3 ∧ 1 ≤ 3 ∧ [7, 7, 7, 7, 7, 7, 7, 7, 7].length = 3 * 3) ∧
    ((blank_border [7, 7, 7, 7, 7, 7, 7, 7, 7] 3 3).length = [7, 7, 7, 7, 7, 7, 7, 7, 7].length ∧
    ∀ r c : Nat, r < 3 → c < 3 →
      (blank_border [7, 7, 7, 7, 7, 7, 7, 7, 7] 3 3)[r * 3 + c]? =
        if r = 0 ∨ r = 3 - 1 ∨ c = 0 ∨ c = 3 - 1 then some 0
        else [7, 7, 7, 7, 7, 7, 7, 7, 7][r * 3 + c]?) :=
  ⟨⟨by decide, by decide, by decide⟩,
    blank_border_spec [7, 7, 7, 7, 7, 7, 7, 7, 7] 3 3 (by decide) (by decide) (by decide)⟩

/-! ## Crossings of a slanted edge -/

/-- The crossing of the edge `q → p` with a row `j` between `q.y` and `p.y` lies between
`q.x` and `p.x`: the assertion of the stepping loop holds there. -/
theorem crossing_between (q p : Point) (j : ℚ)
    (hj : (q.y ≤ j ∧ j ≤ p.y ∧ q.y < p.y) ∨ (p.y ≤ j ∧ j ≤ q.y ∧ p.y < q.y)) :
    (q.x ≤ q.x + (q.x - p.x) / (q.y - p.y) * (j - q.y) ∧
        q.x + (q.x - p.x) / (q.y - p.y) * (j - q.y) ≤ p.x) ∨
      (p.x ≤ q.x + (q.x - p.x) / (q.y - p.y) * (j - q.y) ∧
        q.x + (q.x - p.x) / (q.y - p.y) * (j - q.y) ≤ q.x) := by
  have hD : p.y - q.y ≠ 0 := by
    rcases hj with ⟨_, _, h⟩ | ⟨_, _, h⟩
    · exact ne_of_gt (sub_pos.2 h)
    · exact ne_of_lt (sub_neg.2 h)
  have hD' : q.y - p.y ≠ 0 := fun hc => hD (by linarith)
  have ht0 : 0 ≤ (j - q.y) / (p.y - q.y) := by
    rcases hj with ⟨h1, _, h3⟩ | ⟨_, h2, h3⟩
    · exact div_nonneg (by linarith) (by linarith)
    · exact div_nonneg_of_nonpos (by linarith) (by linarith)
  have ht1 : (j - q.y) / (p.y - q.y) ≤ 1 := by
    rcases hj with ⟨_, h2, h3⟩ | ⟨h1, _, h3⟩
    · exact (div_le_one (by linarith)).2 (by linarith)
    · rw [← neg_div_neg_eq]
      exact (div_le_one (by linarith)).2 (by linarith)
  have hx : q.x + (q.x - p.x) / (q.y - p.y) * (j - q.y) =
      q.x + (p.x - q.x) * ((j - q.y) / (p.y - q.y)) := by
    field_simp
    ring
  rw [hx]
  rcases le_total q.x p.x with h | h
  · left
    have h1 : 0 ≤ (p.x - q.x) * ((j - q.y) / (p.y - q.y)) := mul_nonneg (by linarith) ht0
    have h2 : (p.x - q.x) * ((j - q.y) / (p.y - q.y)) ≤ (p.x - q.x) * 1 :=
      mul_le_mul_of_nonneg_left ht1 (by linarith)
    constructor <;> linarith
  · right
    have h1 : 0 ≤ (q.x - p.x) * ((j - q.y) / (p.y - q.y)) := mul_nonneg (by linarith) ht0
    have h2 : (q.x - p.x) * ((j - q.y) / (p.y - q.y)) ≤ (q.x - p.x) * 1 :=
      mul_le_mul_of_nonneg_left ht1 (by linarith)
    constructor <;> linarith

/-- The stepping loop going up, when every row from `j` on lies at or above `q.y`: every row
from `j` to `iy2 - 1` that lies below `p.y` receives its crossing. -/
theorem row_loop_up_rows (q p : Point) (hqp : q.y < p.y) (iy2 : Int) (n : Nat) :
    ∀ (j : Int) (T : Table), j + (n : Int) = iy2 → q.y ≤ (j : ℚ) →
    ∃ T', row_loop q p ((q.x - p.x) / (q.y - p.y)) 1 iy2 n j T = some T' ∧
      T'.length = T.length ∧
      ∀ r : Nat, T'.getD r [] = T.getD r [] ++
        (if (j ≤ (r : Int) ∧ (r : Int) < iy2 ∧ (r : ℚ) < p.y) ∧ r < T.length then
          [q.x + (q.x - p.x) / (q.y - p.y) * ((r : ℚ) - q.y)] else []) := by
  induction n with
  | zero =>
    intro j T hj _
    have hj' : j = iy2 := by simpa using hj
    refine ⟨T, by simp [row_loop, hj'], rfl, ?_⟩
    intro r
    rw [if_neg (by omega), List.append_nil]
  | succ n ih =>
    intro j T hj hqj
    have hne : j ≠ iy2 := by push_cast at hj; omega
    have hqj1 : q.y ≤ ((j + 1 : Int) : ℚ) := by push_cast; linarith
    by_cases hskip : p.y ≤ (j : ℚ)
    · obtain ⟨T', h1, h2, h3⟩ := ih (j + 1) T (by push_cast at hj ⊢; omega) hqj1
      refine ⟨T', ?_, h2, ?_⟩
      · simp only [row_loop, hne, if_false, gt_iff_lt, zero_lt_one, if_true, hskip]
        exact h1
      · intro r
        rw [h3 r]
        congr 1
        by_cases hr : (r : Int) = j
        · have h4 : ¬ (r : ℚ) < p.y := by
            have : (r : ℚ) = (j : ℚ) := by exact_mod_cast hr
            rw [this]; exact not_lt.2 hskip
          rw [if_neg (fun hc => h4 hc.1.2.2), if_neg (fun hc => h4 hc.1.2.2)]
        · have : (j + 1 ≤ (r : Int)) ↔ (j ≤ (r : Int)) := by omega
          simp only [this]
    · have hassert := crossing_between q p (j : ℚ)
        (Or.inl ⟨hqj, le_of_lt (not_le.1 hskip), hqp⟩)
      obtain ⟨T', h1, h2, h3⟩ := ih (j + 1)
        (bound T (q.x + (q.x - p.x) / (q.y - p.y) * ((j : ℚ) - q.y)) j)
        (by push_cast at hj ⊢; omega) hqj1
      refine ⟨T', ?_, by rw [h2, bound_length], ?_⟩
      · simp only [row_loop, hne, if_false, gt_iff_lt, zero_lt_one, if_true, hskip, hassert]
        exact h1
      · intro r
        rw [h3 r, bound_getD, bound_length, List.append_assoc]
        congr 1
        by_cases hlen : r < T.length
        · by_cases hr : (r : Int) = j
          · have hrq : (r : ℚ) = (j : ℚ) := by exact_mod_cast hr
            have h4 : (r : ℚ) < p.y := by rw [hrq]; exact not_le.1 hskip
            rw [if_pos ⟨hr, hlen⟩, if_neg (by omega), if_pos ⟨⟨by omega, by omega, h4⟩, hlen⟩,
              hrq]
            rfl
          · rw [if_neg (fun hc => hr hc.1), List.nil_append]
            have : (j + 1 ≤ (r : Int)) ↔ (j ≤ (r : Int)) := by omega
            simp only [this]
        · rw [if_neg (fun hc => hlen hc.2), if_neg (fun hc => hlen hc.2),
            if_neg (fun hc => hlen hc.2)]
          rfl

/-- The stepping loop going down, when every row from `j` on lies at or below `q.y`: every
row from `j` down to `iy2 + 1` that lies above `p.y` receives its crossing. -/
theorem row_loop_down_rows (q p : Point) (hqp : p.y < q.y) (iy2 : Int) (n : Nat) :
    ∀ (j : Int) (T : Table), j - (n : Int) = iy2 → (j : ℚ) ≤ q.y →
    ∃ T', row_loop q p ((q.x - p.x) / (q.y - p.y)) (-1) iy2 n j T = some T' ∧
      T'.length = T.length ∧
      ∀ r : Nat, T'.getD r [] = T.getD r [] ++
        (if ((r : Int) ≤ j ∧ iy2 < (r : Int) ∧ p.y < (r : ℚ)) ∧ r < T.length then
          [q.x + (q.x - p.x) / (q.y - p.y) * ((r : ℚ) - q.y)] else []) := by
  induction n with
  | zero =>
    intro j T hj _
    have hj' : j = iy2 := by simpa using hj
    refine ⟨T, by simp [row_loop, hj'], rfl, ?_⟩
    intro r
    rw [if_neg (by omega), List.append_nil]
  | succ n ih =>
    intro j T hj hqj
    have hne : j ≠ iy2 := by push_cast at hj; omega
    have hdir : ¬ ((-1 : Int) > 0) := by decide
    have hqj1 : ((j + -1 : Int) : ℚ) ≤ q.y := by push_cast; linarith
    by_cases hskip : (j : ℚ) ≤ p.y
    · obtain ⟨T', h1, h2, h3⟩ := ih (j + -1) T (by push_cast at hj ⊢; omega) hqj1
      refine ⟨T', ?_, h2, ?_⟩
      · simp only [row_loop, hne, if_false, hdir, hskip, if_true]
        exact h1
      · intro r
        rw [h3 r]
        congr 1
        by_cases hr : (r : Int) = j
        · have h4 : ¬ p.y < (r : ℚ) := by
            have : (r : ℚ) = (j : ℚ) := by exact_mod_cast hr
            rw [this]; exact not_lt.2 hskip
          rw [if_neg (fun hc => h4 hc.1.2.2), if_neg (fun hc => h4 hc.1.2.2)]
        · have : ((r : Int) ≤ j + -1) ↔ ((r : Int) ≤ j) := by omega
          simp only [this]
    · have hassert := crossing_between q p (j : ℚ)
        (Or.inr ⟨le_of_lt (not_le.1 hskip), hqj, hqp⟩)
      obtain ⟨T', h1, h2, h3⟩ := ih (j + -1)
        (bound T (q.x + (q.x - p.x) / (q.y - p.y) * ((j : ℚ) - q.y)) j)
        (by push_cast at hj ⊢; omega) hqj1
      refine ⟨T', ?_, by rw [h2, bound_length], ?_⟩
      · simp only [row_loop, hne, if_false, hdir, hskip, hassert, if_true]
        exact h1
      · intro r
        rw [h3 r, bound_getD, bound_length, List.append_assoc]
        congr 1
        by_cases hlen : r < T.length
        · by_cases hr : (r : Int) = j
          · have hrq : (r : ℚ) = (j : ℚ) := by exact_mod_cast hr
            have h4 : p.y < (r : ℚ) := by rw [hrq]; exact not_le.1 hskip
            rw [if_pos ⟨hr, hlen⟩, if_neg (by omega), if_pos ⟨⟨by omega, by omega, h4⟩, hlen⟩,
              hrq]
            rfl
          · rw [if_neg (fun hc => hr hc.1), List.nil_append]
            have : ((r : Int) ≤ j + -1) ↔ ((r : Int) ≤ j) := by omega
            simp only [this]
        · rw [if_neg (fun hc => hlen hc.2), if_neg (fun hc => hlen hc.2),
            if_neg (fun hc => hlen hc.2)]
          rfl

/-! ## The rows recorded by a non-horizontal edge -/

theorem is_integer_true_iff (f : ℚ) : is_integer f = true ↔ f = ((toInt f : Int) : ℚ) := by
  unfold is_integer
  simp

/-- Going up, the rows from the start row on are the rows above `q.y`, and the row `q.y`
itself when the walker passes through it (no horizontal run, same direction as before). -/
theorem start_row_up_iff (s : PolyIterator) (p : Point) (ha : Aligned s) (hlt : s.p.y < p.y)
    (k : Int) :
    start_row s p ≤ k ↔
      (s.p.y < (k : ℚ) ∨ (s.p.y = (k : ℚ) ∧ s.bHorizontal = false ∧ s.dir = 1)) := by
  have hsign : sign s.p.y p.y = 1 := by unfold sign; rw [if_pos hlt]
  have hint : s.p.y = ((toInt s.p.y : Int) : ℚ) → ∀ k : Int,
      ((toInt s.p.y + 1 ≤ k ↔ s.p.y < (k : ℚ)) ∧ (toInt s.p.y ≤ k ↔ s.p.y ≤ (k : ℚ))) := by
    intro h k
    rw [h, toInt_intCast]
    exact ⟨by rw [Int.add_one_le_iff, Int.cast_lt], by rw [Int.cast_le]⟩
  unfold start_row
  rw [hsign]
  by_cases hb : s.bHorizontal = true
  · have hi := (is_integer_true_iff _).1 (ha hb)
    rw [if_pos hb, (hint hi k).1]
    exact ⟨Or.inl, fun h => h.elim id (fun h' => by rw [hb] at h'; exact absurd h'.2.1 (by simp))⟩
  · have hb' : s.bHorizontal = false := by simpa using hb
    rw [if_neg hb]
    by_cases hpk : (1 : Int) ≠ s.dir ∧ s.p.y = ((toInt s.p.y : Int) : ℚ)
    · rw [if_pos hpk, (hint hpk.2 k).1]
      exact ⟨Or.inl, fun h => h.elim id (fun h' => absurd h'.2.2.symm hpk.1)⟩
    · rw [if_neg hpk]
      by_cases hup : (1 : Int) > 0 ∧ ((toInt s.p.y : Int) : ℚ) < s.p.y
      · rw [if_pos hup]
        have h0 : 0 ≤ s.p.y := by
          by_contra hc
          have ht : toInt s.p.y = ⌈s.p.y⌉ := by unfold toInt; rw [if_neg hc]
          have := hup.2
          rw [ht] at this
          exact absurd this (not_lt.2 (Int.le_ceil _))
        have ht : toInt s.p.y = ⌊s.p.y⌋ := by unfold toInt; rw [if_pos h0]
        rw [ht, Int.add_one_le_iff, Int.floor_lt]
        refine ⟨Or.inl, fun h => h.elim id (fun h' => ?_)⟩
        exfalso
        have h1 := hup.2
        rw [h'.1, toInt_intCast] at h1
        exact lt_irrefl _ h1
      · rw [if_neg hup]
        have hge : s.p.y ≤ ((toInt s.p.y : Int) : ℚ) := not_lt.1 (fun hc => hup ⟨by decide, hc⟩)
        have hdir_of_int : s.p.y = ((toInt s.p.y : Int) : ℚ) → s.dir = 1 := by
          intro hi
          by_contra hd
          exact hpk ⟨fun hc => hd hc.symm, hi⟩
        by_cases h0 : 0 ≤ s.p.y
        · have ht : toInt s.p.y = ⌊s.p.y⌋ := by unfold toInt; rw [if_pos h0]
          have hi : s.p.y = ((toInt s.p.y : Int) : ℚ) :=
            le_antisymm hge (by rw [ht]; exact Int.floor_le _)
          rw [(hint hi k).2]
          constructor
          · intro h
            rcases lt_or_eq_of_le h with h1 | h1
            · exact Or.inl h1
            · exact Or.inr ⟨h1, hb', hdir_of_int hi⟩
          · rintro (h | h)
            · exact le_of_lt h
            · exact le_of_eq h.1
        · have ht : toInt s.p.y = ⌈s.p.y⌉ := by unfold toInt; rw [if_neg h0]
          rw [ht, Int.ceil_le]
          constructor
          · intro h
            rcases lt_or_eq_of_le h with h1 | h1
            · exact Or.inl h1
            · refine Or.inr ⟨h1, hb', hdir_of_int ?_⟩
              rw [h1, toInt_intCast]
          · rintro (h | h)
            · exact le_of_lt h
            · exact le_of_eq h.1

/-- Going down from a non-negative `q.y`, the rows from the start row on are the rows below
`q.y`, and the row `q.y` itself when the walker passes through it. -/
theorem start_row_down_iff (s : PolyIterator) (p : Point) (ha : Aligned s) (hgt : p.y < s.p.y)
    (h0 : 0 ≤ s.p.y) (k : Int) :
    k ≤ start_row s p ↔
      ((k : ℚ) < s.p.y ∨ (s.p.y = (k : ℚ) ∧ s.bHorizontal = false ∧ s.dir = -1)) := by
  have hsign : sign s.p.y p.y = -1 := by
    unfold sign; rw [if_neg (not_lt.2 (le_of_lt hgt))]
  have ht : toInt s.p.y = ⌊s.p.y⌋ := by unfold toInt; rw [if_pos h0]
  have hint : s.p.y = ((toInt s.p.y : Int) : ℚ) → ∀ k : Int,
      (k ≤ toInt s.p.y + -1 ↔ (k : ℚ) < s.p.y) := by
    intro h k
    rw [h, toInt_intCast, Int.cast_lt]
    omega
  have hdir : ¬ ((-1 : Int) > 0 ∧ ((toInt s.p.y : Int) : ℚ) < s.p.y) := fun hc => by
    have := hc.1
    omega
  unfold start_row
  rw [hsign]
  by_cases hb : s.bHorizontal = true
  · have hi := (is_integer_true_iff _).1 (ha hb)
    rw [if_pos hb, hint hi k]
    exact ⟨Or.inl, fun h => h.elim id (fun h' => by rw [hb] at h'; exact absurd h'.2.1 (by simp))⟩
  · have hb' : s.bHorizontal = false := by simpa using hb
    rw [if_neg hb]
    by_cases hpk : (-1 : Int) ≠ s.dir ∧ s.p.y = ((toInt s.p.y : Int) : ℚ)
    · rw [if_pos hpk, hint hpk.2 k]
      exact ⟨Or.inl, fun h => h.elim id (fun h' => absurd h'.2.2.symm hpk.1)⟩
    · rw [if_neg hpk, if_neg hdir, ht, Int.le_floor]
      constructor
      · intro h
        rcases lt_or_eq_of_le h with h1 | h1
        · exact Or.inl h1
        · refine Or.inr ⟨h1.symm, hb', ?_⟩
          by_contra hd
          apply hpk
          refine ⟨fun hc => hd hc.symm, ?_⟩
          rw [← h1, toInt_intCast]
      · rintro (h | h)
        · exact le_of_lt h
        · exact le_of_eq h.1.symm

/-- The rows of the table after a non-horizontal edge going up: the bounds recorded before
the loop, then the crossing on every row strictly between the two ends, and on the row of `q`
when the walker passes through it. -/
theorem add_point_rows_up (s : PolyIterator) (pi : Point) (T : Table) (ha : Aligned s)
    (hlt : s.p.y < (pi + delta).y) :
    ∃ T', add_point s pi T = some ({ p := pi + delta, bHorizontal := false, dir := 1 }, T') ∧
      T'.length = T.length ∧
      ∀ r : Nat, r < T.length → T'.getD r [] =
        (T.getD r [] ++ ((pre_bounds s (pi + delta)).filter
            (fun b => decide ((r : Int) = b.2 ∧ r < T.length))).map Prod.fst) ++
          (if (s.p.y < (r : ℚ) ∨ (s.p.y = (r : ℚ) ∧ s.bHorizontal = false ∧ s.dir = 1)) ∧
              (r : ℚ) < (pi + delta).y then
            [s.p.x + (s.p.x - (pi + delta).x) / (s.p.y - (pi + delta).y) * ((r : ℚ) - s.p.y)]
          else []) := by
  have hy : s.p.y ≠ (pi + delta).y := ne_of_lt hlt
  have hsign : sign s.p.y (pi + delta).y = 1 := by unfold sign; rw [if_pos hlt]
  have hreach := row_loop_reaches s.p.y (pi + delta).y hy (start_row s (pi + delta))
    (start_row_cases s (pi + delta))
  have hstart := start_row_up_iff s (pi + delta) ha hlt
  have hq : s.p.y ≤ ((start_row s (pi + delta) : Int) : ℚ) := by
    rcases (hstart _).1 (le_refl _) with h | h
    · exact le_of_lt h
    · exact le_of_eq h.1
  rw [hsign] at hreach
  obtain ⟨T', h1, h2, h3⟩ := row_loop_up_rows s.p (pi + delta) hlt (toInt (pi + delta).y + 1)
    (toInt (pi + delta).y + 1 - start_row s (pi + delta)).natAbs (start_row s (pi + delta))
    (apply_bounds (pre_bounds s (pi + delta)) T) (by omega) hq
  refine ⟨T', ?_, by rw [h2, apply_bounds_length], ?_⟩
  · rw [add_point_eq_loop s pi T hy, hsign, h1]
    rfl
  · intro r hr
    rw [h3 r, apply_bounds_getD, apply_bounds_length]
    congr 1
    refine if_congr ?_ rfl rfl
    have h4 := hstart (r : Int)
    rw [Int.cast_natCast] at h4
    constructor
    · rintro ⟨⟨h5, _, h7⟩, _⟩
      exact ⟨h4.1 h5, h7⟩
    · rintro ⟨h5, h7⟩
      exact ⟨⟨h4.2 h5, lt_stop_of_lt (by rw [Int.cast_natCast]; exact h7), h7⟩, hr⟩

/-- The rows of the table after a non-horizontal edge going down from a non-negative `q.y`:
the bounds recorded before the loop, then the crossing on every row strictly between the two
ends, and on the row of `q` when the walker passes through it. -/
theorem add_point_rows_down (s : PolyIterator) (pi : Point) (T : Table) (ha : Aligned s)
    (hgt : (pi + delta).y < s.p.y) (h0 : 0 ≤ s.p.y) :
    ∃ T', add_point s pi T = some ({ p := pi + delta, bHorizontal := false, dir := -1 }, T') ∧
      T'.length = T.length ∧
      ∀ r : Nat, r < T.length → T'.getD r [] =
        (T.getD r [] ++ ((pre_bounds s (pi + delta)).filter
            (fun b => decide ((r : Int) = b.2 ∧ r < T.length))).map Prod.fst) ++
          (if ((r : ℚ) < s.p.y ∨ (s.p.y = (r : ℚ) ∧ s.bHorizontal = false ∧ s.dir = -1)) ∧
              (pi + delta).y < (r : ℚ) then
            [s.p.x + (s.p.x - (pi + delta).x) / (s.p.y - (pi + delta).y) * ((r : ℚ) - s.p.y)]
          else []) := by
  have hy : s.p.y ≠ (pi + delta).y := ne_of_gt hgt
  have hsign : sign s.p.y (pi + delta).y = -1 := by
    unfold sign; rw [if_neg (not_lt.2 (le_of_lt hgt))]
  have hreach := row_loop_reaches s.p.y (pi + delta).y hy (start_row s (pi + delta))
    (start_row_cases s (pi + delta))
  have hstart := start_row_down_iff s (pi + delta) ha hgt h0
  have hq : ((start_row s (pi + delta) : Int) : ℚ) ≤ s.p.y := by
    rcases (hstart _).1 (le_refl _) with h | h
    · exact le_of_lt h
    · exact le_of_eq h.1.symm
  rw [hsign] at hreach
  obtain ⟨T', h1, h2, h3⟩ := row_loop_down_rows s.p (pi + delta) hgt (toInt (pi + delta).y + -1)
    (toInt (pi + delta).y + -1 - start_row s (pi + delta)).natAbs (start_row s (pi + delta))
    (apply_bounds (pre_bounds s (pi + delta)) T) (by omega) hq
  refine ⟨T', ?_, by rw [h2, apply_bounds_length], ?_⟩
  · rw [add_point_eq_loop s pi T hy, hsign, h1]
    rfl
  · intro r hr
    rw [h3 r, apply_bounds_getD, apply_bounds_length]
    congr 1
    refine if_congr ?_ rfl rfl
    have h4 := hstart (r : Int)
    rw [Int.cast_natCast] at h4
    constructor
    · rintro ⟨⟨h5, _, h7⟩, _⟩
      exact ⟨h4.1 h5, h7⟩
    · rintro ⟨h5, h7⟩
      have := stop_lt_of_lt (y := (pi + delta).y) (r := (r : Int))
        (by rw [Int.cast_natCast]; exact h7)
      exact ⟨⟨h4.2 h5, by omega, h7⟩, hr⟩

/-! ## A local peak -/

theorem toInt_natCast (n : Nat) : toInt (n : ℚ) = (n : Int) := by
  have := toInt_intCast (n : Int)
  rwa [Int.cast_natCast] at this

/-- In exact arithmetic: for a non-horizontal edge `q → p` taken in a state with
`bHorizontal` false, previous direction different from the direction of the edge, and `q.y`
an exact integer row `iy` inside the table, `add_point` returns normally, appends `q.x`
exactly twice to row `iy`, and on every other row appends a bound (the crossing of the edge)
only if the row lies strictly beyond `q.y` in the direction of travel (and strictly before
`p.y`). -/
theorem local_peak_emission_exact (s : PolyIterator) (pi : Point) (T : Table) (iy : Nat)
    (hb : s.bHorizontal = false) (hy : s.p.y ≠ (pi + delta).y)
    (hd : s.dir ≠ sign s.p.y (pi + delta).y) (hiy : s.p.y = (iy : ℚ)) (hin : iy < T.length) :
    ∃ T', add_point s pi T =
        some ({ p := pi + delta, bHorizontal := false, dir := sign s.p.y (pi + delta).y }, T') ∧
      T'.length = T.length ∧
      T'.getD iy [] = T.getD iy [] ++ [s.p.x, s.p.x] ∧
      ∀ r : Nat, r < T.length → r ≠ iy → T'.getD r [] = T.getD r [] ++
        (if 0 < ((r : ℚ) - s.p.y) * ((sign s.p.y (pi + delta).y : Int) : ℚ) ∧
            0 < ((pi + delta).y - (r : ℚ)) * ((sign s.p.y (pi + delta).y : Int) : ℚ) then
          [s.p.x + (s.p.x - (pi + delta).x) / (s.p.y - (pi + delta).y) * ((r : ℚ) - s.p.y)]
        else []) := by
  have ha : Aligned s := fun h => by rw [hb] at h; exact absurd h (by simp)
  have hti : toInt s.p.y = (iy : Int) := by rw [hiy, toInt_natCast]
  have hpre : pre_bounds s (pi + delta) = [(s.p.x, (iy : Int)), (s.p.x, (iy : Int))] := by
    unfold pre_bounds
    rw [hb, if_neg (by simp), if_pos ⟨fun hc => hd hc.symm, by rw [hti, hiy]; simp⟩, hti]
  have hfilter_eq : ((pre_bounds s (pi + delta)).filter
      (fun b => decide ((iy : Int) = b.2 ∧ iy < T.length))).map Prod.fst = [s.p.x, s.p.x] := by
    rw [hpre]
    simp [hin]
  have hfilter_ne : ∀ r : Nat, r ≠ iy → ((pre_bounds s (pi + delta)).filter
      (fun b => decide ((r : Int) = b.2 ∧ r < T.length))).map Prod.fst = [] := by
    intro r hr
    rw [hpre]
    have : ¬ ((r : Int) = (iy : Int)) := fun hc => hr (by exact_mod_cast hc)
    simp [this]
  have hrne : ∀ r : Nat, r ≠ iy → s.p.y ≠ (r : ℚ) := by
    intro r hr hc
    rw [hiy] at hc
    exact hr (by exact_mod_cast hc.symm)
  rcases lt_or_gt_of_ne hy with hlt | hgt
  · have hsign : sign s.p.y (pi + delta).y = 1 := by unfold sign; rw [if_pos hlt]
    rw [hsign] at hd ⊢
    obtain ⟨T', h1, h2, h3⟩ := add_point_rows_up s pi T ha hlt
    refine ⟨T', h1, h2, ?_, ?_⟩
    · rw [h3 iy hin, hfilter_eq, if_neg, List.append_nil]
      rintro ⟨h | h, _⟩
      · rw [hiy] at h; exact lt_irrefl _ h
      · exact hd h.2.2
    · intro r hr hrne'
      rw [h3 r hr, hfilter_ne r hrne', List.append_nil]
      congr 1
      refine if_congr ?_ rfl rfl
      simp only [Int.cast_one, mul_one, sub_pos]
      constructor
      · rintro ⟨h | h, h'⟩
        · exact ⟨h, h'⟩
        · exact absurd h.1 (hrne r hrne')
      · rintro ⟨h, h'⟩
        exact ⟨Or.inl h, h'⟩
  · have hsign : sign s.p.y (pi + delta).y = -1 := by
      unfold sign; rw [if_neg (not_lt.2 (le_of_lt hgt))]
    rw [hsign] at hd ⊢
    have h0 : 0 ≤ s.p.y := by rw [hiy]; exact Nat.cast_nonneg _
    obtain ⟨T', h1, h2, h3⟩ := add_point_rows_down s pi T ha hgt h0
    refine ⟨T', h1, h2, ?_, ?_⟩
    · rw [h3 iy hin, hfilter_eq, if_neg, List.append_nil]
      rintro ⟨h | h, _⟩
      · rw [hiy] at h; exact lt_irrefl _ h
      · exact hd h.2.2
    · intro r hr hrne'
      rw [h3 r hr, hfilter_ne r hrne', List.append_nil]
      congr 1
      refine if_congr ?_ rfl rfl
      simp only [Int.cast_neg, Int.cast_one, mul_neg, mul_one, Left.neg_pos_iff, sub_neg]
      constructor
      · rintro ⟨h | h, h'⟩
        · exact ⟨h, h'⟩
        · exact absurd h.1 (hrne r hrne')
      · rintro ⟨h, h'⟩
        exact ⟨Or.inl h, h'⟩

/-! ## Parity of the rows -/

theorem pre_row_length (s : PolyIterator) (p : Point) (r len : Nat) (ha : Aligned s)
    (hr : r < len) :
    (((pre_bounds s p).filter (fun b => decide ((r : Int) = b.2 ∧ r < len))).map
        Prod.fst).length =
      if s.p.y = (r : ℚ) then
        (if s.bHorizontal then (if s.dir ≠ sign s.p.y p.y then 1 else 0)
         else if sign s.p.y p.y ≠ s.dir then 2 else 0)
      else 0 := by
  have hrow : s.p.y = ((toInt s.p.y : Int) : ℚ) → ((r : Int) = toInt s.p.y ↔ s.p.y = (r : ℚ)) := by
    intro hi
    constructor
    · intro h
      rw [hi, ← h, Int.cast_natCast]
    · intro h
      rw [h, toInt_natCast]
  unfold pre_bounds
  by_cases hb : s.bHorizontal = true
  · have hi := (is_integer_true_iff _).1 (ha hb)
    rw [if_pos hb]
    simp only [hb, if_true]
    by_cases hd : s.dir ≠ sign s.p.y p.y
    · rw [if_pos hd]
      by_cases hq : s.p.y = (r : ℚ)
      · have hd' := hd
        rw [hq] at hd'
        simp [hq, (hrow hi).2 hq, hr, hd']
      · have : ¬ (r : Int) = toInt s.p.y := fun hc => hq ((hrow hi).1 hc)
        simp [hq, this]
    · rw [if_neg hd]
      simp [hd]
  · rw [if_neg hb]
    have hb' : s.bHorizontal = false := by simpa using hb
    simp only [hb', Bool.false_eq_true, if_false]
    by_cases hpk : sign s.p.y p.y ≠ s.dir ∧ s.p.y = ((toInt s.p.y : Int) : ℚ)
    · rw [if_pos hpk]
      by_cases hq : s.p.y = (r : ℚ)
      · have hd' := hpk.1
        rw [hq] at hd'
        simp [hq, (hrow hpk.2).2 hq, hr, hd']
      · have : ¬ (r : Int) = toInt s.p.y := fun hc => hq ((hrow hpk.2).1 hc)
        simp [hq, this]
    · rw [if_neg hpk]
      by_cases hq : s.p.y = (r : ℚ)
      · have hi : s.p.y = ((toInt s.p.y : Int) : ℚ) := by rw [hq, toInt_natCast]; simp
        have hd : sign s.p.y p.y = s.dir := by
          by_contra hc
          exact hpk ⟨hc, hi⟩
        rw [hq] at hd
        simp [hq, hd]
      · simp [hq]

/-- A non-horizontal edge going up changes the parity of the number of bounds on row `r`
exactly when it changes the side of the row. -/
theorem add_point_parity_up (s : PolyIterator) (pi : Point) (T : Table) (ha : Aligned s)
    (hd : s.dir = 1 ∨ s.dir = -1) (hlt : s.p.y < (pi + delta).y) :
    ∃ s' T', add_point s pi T = some (s', T') ∧ T'.length = T.length ∧
      ∀ r : Nat, r < T.length →
        ((T'.getD r []).length + side r s') % 2 = ((T.getD r []).length + side r s) % 2 := by
  obtain ⟨T', h1, h2, h3⟩ := add_point_rows_up s pi T ha hlt
  refine ⟨_, T', h1, h2, ?_⟩
  intro r hr
  have hsign : sign s.p.y (pi + delta).y = 1 := by unfold sign; rw [if_pos hlt]
  rw [h3 r hr, List.length_append, List.length_append, pre_row_length s _ r _ ha hr, hsign]
  unfold side
  simp only
  rcases lt_trichotomy (r : ℚ) s.p.y with hq | hq | hq
  · have c1 : ¬ s.p.y < (r : ℚ) := not_lt.2 (le_of_lt hq)
    have c2 : ¬ s.p.y = (r : ℚ) := ne_of_gt hq
    have c3 : (r : ℚ) < (pi + delta).y := lt_trans hq hlt
    have c4 : ¬ (pi + delta).y < (r : ℚ) := not_lt.2 (le_of_lt c3)
    simp only [c1, c2, c3, c4, hq, if_true, if_false, false_and, and_true, or_self,
      List.length_nil]
  · have c1 : ¬ s.p.y < (r : ℚ) := by rw [hq]; exact lt_irrefl _
    have c2 : s.p.y = (r : ℚ) := hq.symm
    have c3 : (r : ℚ) < (pi + delta).y := by rw [hq]; exact hlt
    have c4 : ¬ (pi + delta).y < (r : ℚ) := not_lt.2 (le_of_lt c3)
    have c5 : ¬ (r : ℚ) < s.p.y := by rw [hq]; exact lt_irrefl _
    simp only [c1, c2, c3, c4, c5, if_true, if_false, true_and, and_true, false_or]
    cases hb : s.bHorizontal <;> rcases hd with hd | hd <;> simp [hd] <;> omega
  · have c1 : s.p.y < (r : ℚ) := hq
    have c2 : ¬ s.p.y = (r : ℚ) := ne_of_lt hq
    have c5 : ¬ (r : ℚ) < s.p.y := not_lt.2 (le_of_lt hq)
    simp only [c1, c2, c5, if_true, if_false, true_or, true_and]
    rcases lt_trichotomy (r : ℚ) (pi + delta).y with hp | hp | hp
    · have c4 : ¬ (pi + delta).y < (r : ℚ) := not_lt.2 (le_of_lt hp)
      simp [hp, c4]
      omega
    · have c3 : ¬ (r : ℚ) < (pi + delta).y := by rw [hp]; exact lt_irrefl _
      have c4 : ¬ (pi + delta).y < (r : ℚ) := by rw [hp]; exact lt_irrefl _
      simp [c3, c4]
    · have c3 : ¬ (r : ℚ) < (pi + delta).y := not_lt.2 (le_of_lt hp)
      simp [hp, c3]

/-- A non-horizontal edge going down from a non-negative `q.y` changes the parity of the
number of bounds on row `r` exactly when it changes the side of the row. -/
theorem add_point_parity_down (s : PolyIterator) (pi : Point) (T : Table) (ha : Aligned s)
    (hd : s.dir = 1 ∨ s.dir = -1) (hgt : (pi + delta).y < s.p.y) (h0 : 0 ≤ s.p.y) :
    ∃ s' T', add_point s pi T = some (s', T') ∧ T'.length = T.length ∧
      ∀ r : Nat, r < T.length →
        ((T'.getD r []).length + side r s') % 2 = ((T.getD r []).length + side r s) % 2 := by
  obtain ⟨T', h1, h2, h3⟩ := add_point_rows_down s pi T ha hgt h0
  refine ⟨_, T', h1, h2, ?_⟩
  intro r hr
  have hsign : sign s.p.y (pi + delta).y = -1 := by
    unfold sign; rw [if_neg (not_lt.2 (le_of_lt hgt))]
  rw [h3 r hr, List.length_append, List.length_append, pre_row_length s _ r _ ha hr, hsign]
  unfold side
  simp only
  rcases lt_trichotomy (r : ℚ) s.p.y with hq | hq | hq
  · have c1 : ¬ s.p.y < (r : ℚ) := not_lt.2 (le_of_lt hq)
    have c2 : ¬ s.p.y = (r : ℚ) := ne_of_gt hq
    simp only [c1, c2, hq, if_true, if_false, true_or, true_and]
    rcases lt_trichotomy (r : ℚ) (pi + delta).y with hp | hp | hp
    · have c4 : ¬ (pi + delta).y < (r : ℚ) := not_lt.2 (le_of_lt hp)
      simp [hp, c4]
    · have c3 : ¬ (r : ℚ) < (pi + delta).y := by rw [hp]; exact lt_irrefl _
      have c4 : ¬ (pi + delta).y < (r : ℚ) := by rw [hp]; exact lt_irrefl _
      simp [c3, c4]
    · have c3 : ¬ (r : ℚ) < (pi + delta).y := not_lt.2 (le_of_lt hp)
      simp [hp, c3]
  · have c1 : ¬ s.p.y < (r : ℚ) := by rw [hq]; exact lt_irrefl _
    have c2 : s.p.y = (r : ℚ) := hq.symm
    have c3 : (pi + delta).y < (r : ℚ) := by rw [hq]; exact hgt
    have c4 : ¬ (r : ℚ) < (pi + delta).y := not_lt.2 (le_of_lt c3)
    have c5 : ¬ (r : ℚ) < s.p.y := by rw [hq]; exact lt_irrefl _
    simp only [c1, c2, c3, c4, c5, if_true, if_false, true_and, and_true, false_or]
    cases hb : s.bHorizontal <;> rcases hd with hd | hd <;> simp [hd]
  · have c1 : s.p.y < (r : ℚ) := hq
    have c2 : ¬ s.p.y = (r : ℚ) := ne_of_lt hq
    have c3 : (pi + delta).y < (r : ℚ) := lt_trans hgt hq
    have c5 : ¬ (r : ℚ) < s.p.y := not_lt.2 (le_of_lt hq)
    simp only [c1, c2, c3, c5, if_true, if_false, false_and, and_true, or_self,
      List.length_nil]

theorem bound_row_length (T : Table) (x y : ℚ) (r : Nat) (hi : y = ((toInt y : Int) : ℚ))
    (hr : r < T.length) :
    ((bound T x (toInt y)).getD r []).length =
      (T.getD r []).length + (if y = (r : ℚ) then 1 else 0) := by
  rw [bound_getD, List.length_append]
  congr 1
  by_cases hq : y = (r : ℚ)
  · have : (r : Int) = toInt y := by rw [hq, toInt_natCast]
    rw [if_pos ⟨this, hr⟩, if_pos hq]
    rfl
  · have : ¬ (r : Int) = toInt y := by
      intro hc
      apply hq
      rw [hi, ← hc, Int.cast_natCast]
    rw [if_neg (fun hc => this hc.1), if_neg hq]
    rfl

/-- A horizontal edge changes the parity of the number of bounds on row `r` exactly when it
changes the side of the row. -/
theorem add_point_parity_flat (s : PolyIterator) (pi : Point) (T : Table)
    (hd : s.dir = 1 ∨ s.dir = -1) (hy : s.p.y = (pi + delta).y) :
    ∃ s' T', add_point s pi T = some (s', T') ∧ T'.length = T.length ∧
      ∀ r : Nat, r < T.length →
        ((T'.getD r []).length + side r s') % 2 = ((T.getD r []).length + side r s) % 2 := by
  by_cases hc : s.p.x ≠ (pi + delta).x ∧ is_integer s.p.y = true
  · have hi := (is_integer_true_iff _).1 hc.2
    have hsg := sign_eq s.p.x (pi + delta).x
    have hside : ∀ (r : Nat) (b : Bool) (d : Int),
        side r { p := pi + delta, bHorizontal := b, dir := d } =
          if s.p.y < (r : ℚ) then 0 else if (r : ℚ) < s.p.y then 1
          else if b then (if d = 1 then 1 else 0) else (if d = 1 then 0 else 1) := by
      intro r b d
      unfold side
      simp only [← hy]
    have hside0 : ∀ r : Nat, side r s =
          if s.p.y < (r : ℚ) then 0 else if (r : ℚ) < s.p.y then 1
          else if s.bHorizontal then (if s.dir = 1 then 1 else 0)
          else (if s.dir = 1 then 0 else 1) := fun r => rfl
    have hcase : ∀ r : Nat, s.p.y < (r : ℚ) ∨ (r : ℚ) < s.p.y ∨
        (¬ s.p.y < (r : ℚ) ∧ ¬ (r : ℚ) < s.p.y ∧ s.p.y = (r : ℚ)) := by
      intro r
      rcases lt_trichotomy s.p.y (r : ℚ) with h | h | h
      · exact Or.inl h
      · exact Or.inr (Or.inr ⟨by rw [h]; exact lt_irrefl _, by rw [h]; exact lt_irrefl _, h⟩)
      · exact Or.inr (Or.inl h)
    by_cases hb : s.bHorizontal = true
    · by_cases hdd : s.dir ≠ sign s.p.x (pi + delta).x
      · refine ⟨{ p := pi + delta, bHorizontal := true, dir := sign s.p.x (pi + delta).x }, bound T s.p.x (toInt s.p.y), by
          simp only [add_point, if_pos hy, if_pos hc, if_pos hb, if_pos hdd], bound_length _ _ _, ?_⟩
        intro r hr
        rw [bound_row_length T _ _ r hi hr, hside, hside0, hb]
        rcases hcase r with h | h | ⟨h1, h2, h3⟩
        · have h' : ¬ s.p.y = (r : ℚ) := ne_of_lt h
          simp only [if_pos h, if_neg h']
        · have h' : ¬ s.p.y = (r : ℚ) := ne_of_gt h
          have h'' : ¬ s.p.y < (r : ℚ) := not_lt.2 (le_of_lt h)
          simp only [if_pos h, if_neg h', if_neg h'']
        · simp only [if_neg h1, if_neg h2, if_pos h3, if_true]
          rcases hd with hd | hd <;> rcases hsg with hs | hs <;> rw [hd, hs] at hdd <;>
            simp [hd, hs] at hdd ⊢
          all_goals omega
      · refine ⟨{ p := pi + delta, bHorizontal := true, dir := sign s.p.x (pi + delta).x }, T, by
          simp only [add_point, if_pos hy, if_pos hc, if_pos hb, if_neg hdd], rfl, ?_⟩
        intro r hr
        rw [hside, hside0, hb]
        have hdd' : s.dir = sign s.p.x (pi + delta).x := by
          by_contra hcn
          exact hdd hcn
        rw [hdd']
    · have hb' : s.bHorizontal = false := by simpa using hb
      by_cases hdd : s.dir = sign s.p.x (pi + delta).x
      · refine ⟨{ p := pi + delta, bHorizontal := true, dir := sign s.p.x (pi + delta).x }, bound T s.p.x (toInt s.p.y), by
          simp only [add_point, if_pos hy, if_pos hc, if_neg hb, if_pos hdd], bound_length _ _ _, ?_⟩
        intro r hr
        rw [bound_row_length T _ _ r hi hr, hside, hside0, hb']
        rcases hcase r with h | h | ⟨h1, h2, h3⟩
        · have h' : ¬ s.p.y = (r : ℚ) := ne_of_lt h
          simp only [if_pos h, if_neg h']
        · have h' : ¬ s.p.y = (r : ℚ) := ne_of_gt h
          have h'' : ¬ s.p.y < (r : ℚ) := not_lt.2 (le_of_lt h)
          simp only [if_pos h, if_neg h', if_neg h'']
        · simp only [if_neg h1, if_neg h2, if_pos h3, if_true]
          rw [← hdd]
          rcases hd with hd | hd <;> simp [hd]
          all_goals omega
      · refine ⟨{ p := pi + delta, bHorizontal := true, dir := sign s.p.x (pi + delta).x }, T, by
          simp only [add_point, if_pos hy, if_pos hc, if_neg hb, if_neg hdd], rfl, ?_⟩
        intro r hr
        rw [hside, hside0, hb']
        rcases hcase r with h | h | ⟨h1, h2, h3⟩
        · simp only [if_pos h]
        · have h'' : ¬ s.p.y < (r : ℚ) := not_lt.2 (le_of_lt h)
          simp only [if_pos h, if_neg h'']
        · simp only [if_neg h1, if_neg h2, if_true]
          rcases hd with hd | hd <;> rcases hsg with hs | hs <;> rw [hd, hs] at hdd <;>
            simp [hd, hs] at hdd ⊢
  · refine ⟨{ p := pi + delta, bHorizontal := s.bHorizontal, dir := s.dir }, T, by
      simp only [add_point, if_pos hy, if_neg hc], rfl, ?_⟩
    intro r _
    unfold side
    simp only [← hy]

/-- Any edge from a vertex with non-negative shifted `y` changes the parity of the number of
bounds on row `r` exactly when it changes the side of the row. -/
theorem add_point_parity (s : PolyIterator) (pi : Point) (T : Table) (ha : Aligned s)
    (hd : s.dir = 1 ∨ s.dir = -1) (h0 : 0 ≤ s.p.y) :
    ∃ s' T', add_point s pi T = some (s', T') ∧ T'.length = T.length ∧
      ∀ r : Nat, r < T.length →
        ((T'.getD r []).length + side r s') % 2 = ((T.getD r []).length + side r s) % 2 := by
  rcases lt_trichotomy s.p.y (pi + delta).y with h | h | h
  · exact add_point_parity_up s pi T ha hd h
  · exact add_point_parity_flat s pi T hd h
  · exact add_point_parity_down s pi T ha hd h h0

theorem add_points_parity (pts : List Point) : ∀ (s : PolyIterator) (T : Table),
    Aligned s → (s.dir = 1 ∨ s.dir = -1) → 0 ≤ s.p.y → (∀ pt ∈ pts, 0 ≤ (pt + delta).y) →
    ∃ s' T', add_points s pts T = some (s', T') ∧ T'.length = T.length ∧
      ∀ r : Nat, r < T.length →
        ((T'.getD r []).length + side r s') % 2 = ((T.getD r []).length + side r s) % 2 := by
  induction pts with
  | nil =>
    intro s T _ _ _ _
    exact ⟨s, T, rfl, rfl, fun _ _ => rfl⟩
  | cons pt rest ih =>
    intro s T ha hd h0 hpts
    obtain ⟨s1, T1, e1, l1, p1⟩ := add_point_parity s pt T ha hd h0
    have ha1 := aligned_add_point s s1 pt T T1 ha e1
    have hd1 := add_point_dir s s1 pt T T1 hd e1
    have h01 : 0 ≤ s1.p.y := by
      rw [add_point_p s s1 pt T T1 e1]
      exact hpts pt (List.mem_cons_self _ _)
    obtain ⟨s2, T2, e2, l2, p2⟩ := ih s1 T1 ha1 hd1 h01
      (fun q hq => hpts q (List.mem_cons_of_mem _ hq))
    refine ⟨s2, T2, by simp only [add_points, e1]; exact e2, by rw [l2, l1], ?_⟩
    intro r hr
    rw [p2 r (by rw [l1]; exact hr), p1 r hr]

theorem side_sim (r : Nat) (s1 s2 : PolyIterator) (h : Sim s1 s2) : side r s1 = side r s2 := by
  obtain ⟨hp, hb, hdir⟩ := h
  unfold side
  rw [← hp, ← hb]
  by_cases h1 : s1.p.y < (r : ℚ)
  · rw [if_pos h1, if_pos h1]
  · rw [if_neg h1, if_neg h1]
    by_cases h2 : (r : ℚ) < s1.p.y
    · rw [if_pos h2, if_pos h2]
    · rw [if_neg h2, if_neg h2]
      have heq : s1.p.y = (r : ℚ) := le_antisymm (not_lt.1 h2) (not_lt.1 h1)
      have hi : is_integer s1.p.y = true := by
        rw [is_integer_true_iff, heq, toInt_natCast]
        simp
      rw [hdir hi]

/-- At the end of the closed walk the walker is back in the state of the constructor (up to
a direction that is not read). -/
theorem walk_closed_sim (a : Point) (l : List Point) (T T' : Table) (sn : PolyIterator)
    (h : add_points (PolyIterator.init (a :: l)) (l ++ [a]) T = some (sn, T')) :
    Sim sn (PolyIterator.init (a :: l)) := by
  have hinit := init_eq_arrive (a :: l)
  rw [List.headD_cons] at hinit
  have ha0 : Aligned (PolyIterator.init (a :: l)) := by rw [hinit]; exact aligned_arrive _ _
  have hp0 : (PolyIterator.init (a :: l)).p = a + delta := by
    rw [hinit]; unfold arrive; split <;> rfl
  obtain ⟨w1, w2⟩ := walk_final a (l ++ [a]) _ sn T T' ha0 h (by simp)
    (by intro x hx; simpa using hx.symm)
  have hrev : (l ++ [a]).reverse.find? (fun x => decide (x ≠ a)) =
      l.reverse.find? (fun x => decide (x ≠ a)) := by
    rw [List.reverse_append, List.reverse_singleton, List.singleton_append,
      List.find?_cons_of_neg _ (by simp)]
  have hpv : prev_vertex (a :: l) =
      (l.reverse.find? (fun x => decide (x ≠ a))).getD a := by
    have hr : (a :: l).reverse = l.reverse ++ [a] := by simp
    unfold prev_vertex
    rw [hr, List.headD_cons, List.find?_append, List.find?_cons_of_neg _ (by simp)]
    simp
  rw [hrev] at w1 w2
  cases hf : l.reverse.find? (fun x => decide (x ≠ a)) with
  | some q =>
    have := w1 q hf
    rw [hinit, hpv, hf]
    exact this
  | none => rw [(w2 hf).2 hp0]; exact Sim.refl _

/-- The edge walk of a curve whose vertices all have `y ≥ 1/2` completes, and every row of
its table holds an even number of bounds. -/
theorem edge_walk_even (curve : List Point) (h : Nat) (hne : curve ≠ [])
    (hy : ∀ pt ∈ curve, 1 / 2 ≤ pt.y) :
    ∃ T, edge_walk curve h = some T ∧ T.length = h ∧ ∀ r, Even (T.getD r []).length := by
  obtain ⟨a, l, rfl⟩ : ∃ a l, curve = a :: l := by
    cases curve with
    | nil => exact absurd rfl hne
    | cons a l => exact ⟨a, l, rfl⟩
  have hshift : ∀ pt ∈ a :: l, 0 ≤ (pt + delta).y := by
    intro pt hpt
    have h1 : (pt + delta).y = pt.y + -1 / 2 := rfl
    have h2 := hy pt hpt
    rw [h1]
    linarith
  have hinit := init_eq_arrive (a :: l)
  rw [List.headD_cons] at hinit
  have ha0 : Aligned (PolyIterator.init (a :: l)) := by rw [hinit]; exact aligned_arrive _ _
  have hd0 : (PolyIterator.init (a :: l)).dir = 1 ∨ (PolyIterator.init (a :: l)).dir = -1 := by
    rw [hinit]; exact arrive_dir _ _
  have hp0 : (PolyIterator.init (a :: l)).p = a + delta := by
    rw [hinit]; unfold arrive; split <;> rfl
  have h00 : 0 ≤ (PolyIterator.init (a :: l)).p.y := by
    rw [hp0]; exact hshift a (List.mem_cons_self _ _)
  have hpts : ∀ pt ∈ l ++ [a], 0 ≤ (pt + delta).y := by
    intro pt hpt
    apply hshift
    rcases List.mem_append.1 hpt with h1 | h1
    · exact List.mem_cons_of_mem _ h1
    · rw [List.mem_singleton.1 h1]; exact List.mem_cons_self _ _
  obtain ⟨sn, T, e, hl, hpar⟩ := add_points_parity (l ++ [a]) _ (List.replicate h []) ha0 hd0
    h00 hpts
  have hside := fun r => side_sim r _ _ (walk_closed_sim a l _ T sn e)
  rw [List.length_replicate] at hl hpar
  refine ⟨T, ?_, hl, ?_⟩
  · rw [edge_walk_eq, List.tail_cons, List.headD_cons, e]
    rfl
  · intro r
    by_cases hr : r < h
    · have := hpar r hr
      rw [hside r, getD_replicate_nil, List.length_nil] at this
      rw [Nat.even_iff]
      omega
    · rw [List.getD_eq_default _ _ (by omega)]
      exact ⟨0, rfl⟩

/-- In exact arithmetic: for every non-empty closed curve all of whose vertices have
`y ≥ 0.5` (shifted `y ≥ 0`) and every table height `h`, the edge walk performed by
`fill_curve` completes and every row of the interval table holds an even number of bounds, so
that `fill_line` never fails its consistency assertion on any row of the table. -/
theorem rows_even_in_half_plane_exact (curve : List Point) (h : Nat) (value : α) (buf : List α)
    (hne : curve ≠ []) (hy : ∀ pt ∈ curve, 1 / 2 ≤ pt.y) :
    ∃ T, edge_walk curve h = some T ∧ T.length = h ∧
      (∀ r, Even (T.getD r []).length) ∧
      ∀ r im w : Nat, fill_line value buf im (im + w) (T.getD r []) ≠ none := by
  obtain ⟨T, h1, h2, h3⟩ := edge_walk_even curve h hne hy
  refine ⟨T, h1, h2, h3, ?_⟩
  intro r im w hc
  have := ((fill_line_eq_none_iff value buf im w _).1 hc).1
  exact (Nat.not_odd_iff_even.2 (h3 r)) this

/-! ## C15: the assertion of the stepping loop -/

/-- C15. The code on the edge from the shifted vertex `(4.5, -0.25)` down to `(5.25, -0.5)`:
the stepping loop starts at row `(int)(-0.25) = 0`, which lies above `q.y`, the crossing
computed for it is `3.75`, outside `[4.5, 5.25]`, and the assertion fails: `add_point` does
not return, and neither does `fill_curve` on the curve `(5, 0.25), (5.75, 0)`, which lies
inside the raster. -/
theorem crossing_assert_fails :
    PolyIterator.init [⟨5, 1/4⟩, ⟨23/4, 0⟩] =
      { p := ⟨9/2, -1/4⟩, bHorizontal := false, dir := 1 } ∧
    start_row { p := ⟨9/2, -1/4⟩, bHorizontal := false, dir := 1 } ((⟨23/4, 0⟩ : Point) + delta)
      = 0 ∧
    (9/2 : ℚ) + ((9/2 : ℚ) - 21/4) / ((-1/4 : ℚ) - -1/2) * ((0 : ℚ) - -1/4) = 15/4 ∧
    add_point { p := ⟨9/2, -1/4⟩, bHorizontal := false, dir := 1 } ⟨23/4, 0⟩ [[]] = none ∧
    fill_curve [⟨5, 1/4⟩, ⟨23/4, 0⟩] (1 : Nat) [0, 0, 0, 0, 0, 0, 0, 0] 8 1 none = none := by
  decide!

/-! # Theorems on the program in binary32 arithmetic -/

/-! ## Binary32 rounding -/

theorem pow2_eq (k : Int) : Binary32.pow2 k = (2 : ℚ) ^ k := by
  unfold Binary32.pow2
  split
  · rename_i h
    obtain ⟨n, rfl⟩ := Int.eq_ofNat_of_zero_le h
    simp
  · rename_i h
    obtain ⟨n, hn⟩ := Int.eq_ofNat_of_zero_le (show 0 ≤ -k by omega)
    have hk : k = -(n : Int) := by omega
    subst hk
    simp

theorem pow2_pos (k : Int) : 0 < Binary32.pow2 k := by
  rw [pow2_eq]; positivity

theorem log2f_eq (f : Nat) : ∀ n, n ≤ f → Binary32.log2f f n = Nat.log2 n := by
  induction f with
  | zero =>
    intro n hn
    have : n = 0 := by omega
    subst this
    simp [Binary32.log2f, Nat.log2]
  | succ f ih =>
    intro n hn
    rw [Binary32.log2f, Nat.log2]
    by_cases h : 2 ≤ n
    · rw [if_pos h, if_pos h, ih _ (by omega)]
    · rw [if_neg h, if_neg h]

theorem abs_eq_natAbs_div (x : ℚ) : |x| = (x.num.natAbs : ℚ) / (x.den : ℚ) := by
  conv_lhs => rw [← Rat.num_div_den x]
  rw [abs_div, Nat.abs_cast, Nat.cast_natAbs, Int.cast_abs]

/-- The exponent found by `ilog2` is not too large: `2^(ilog2 x) ≤ |x|`. -/
theorem pow2_ilog2_le (x : ℚ) (hx : x ≠ 0) : Binary32.pow2 (Binary32.ilog2 x) ≤ |x| := by
  unfold Binary32.ilog2
  split
  · assumption
  · rw [log2f_eq _ _ le_rfl, log2f_eq _ _ le_rfl, pow2_eq, abs_eq_natAbs_div]
    have hn : x.num.natAbs ≠ 0 := by
      simpa using Rat.num_ne_zero.2 hx
    have h1 : (2 : ℚ) ^ (Nat.log2 x.num.natAbs) ≤ (x.num.natAbs : ℚ) := by
      exact_mod_cast Nat.log2_self_le hn
    have h2 : (x.den : ℚ) ≤ (2 : ℚ) ^ (Nat.log2 x.den + 1) := by
      exact_mod_cast le_of_lt (Nat.lt_log2_self (n := x.den))
    have hd : (0 : ℚ) < (x.den : ℚ) := by exact_mod_cast x.den_pos
    rw [le_div_iff₀ hd]
    have h3 : (2 : ℚ) ^ ((Nat.log2 x.num.natAbs : Int) - (Nat.log2 x.den : Int) - 1) =
        (2 : ℚ) ^ (Nat.log2 x.num.natAbs) / (2 : ℚ) ^ (Nat.log2 x.den + 1) := by
      rw [show ((Nat.log2 x.num.natAbs : Int) - (Nat.log2 x.den : Int) - 1) =
        (Nat.log2 x.num.natAbs : Int) - ((Nat.log2 x.den + 1 : Nat) : Int) by push_cast; ring]
      rw [zpow_sub₀ (by norm_num), zpow_natCast, zpow_natCast]
    rw [h3, div_mul_eq_mul_div, div_le_iff₀ (by positivity)]
    exact mul_le_mul h1 h2 (le_of_lt hd) (le_trans (by positivity) h1)

/-- The exponent found by `ilog2` is not too small: `|x| < 2^(ilog2 x + 1)`. -/
theorem lt_pow2_ilog2 (x : ℚ) (hx : x ≠ 0) : |x| < Binary32.pow2 (Binary32.ilog2 x + 1) := by
  unfold Binary32.ilog2
  have hn : x.num.natAbs ≠ 0 := by
    simpa using Rat.num_ne_zero.2 hx
  have h1 : (x.num.natAbs : ℚ) < (2 : ℚ) ^ (Nat.log2 x.num.natAbs + 1) := by
    exact_mod_cast Nat.lt_log2_self (n := x.num.natAbs)
  have h2 : (2 : ℚ) ^ (Nat.log2 x.den) ≤ (x.den : ℚ) := by
    exact_mod_cast Nat.log2_self_le x.den_nz
  have hd : (0 : ℚ) < (x.den : ℚ) := by exact_mod_cast x.den_pos
  split
  · rw [log2f_eq _ _ le_rfl, log2f_eq _ _ le_rfl, pow2_eq, abs_eq_natAbs_div, div_lt_iff₀ hd]
    have h3 : (2 : ℚ) ^ ((Nat.log2 x.num.natAbs : Int) - (Nat.log2 x.den : Int) + 1) =
        (2 : ℚ) ^ (Nat.log2 x.num.natAbs + 1) / (2 : ℚ) ^ (Nat.log2 x.den) := by
      rw [show ((Nat.log2 x.num.natAbs : Int) - (Nat.log2 x.den : Int) + 1) =
        ((Nat.log2 x.num.natAbs + 1 : Nat) : Int) - (Nat.log2 x.den : Int) by push_cast; ring]
      rw [zpow_sub₀ (by norm_num), zpow_natCast, zpow_natCast]
    rw [h3, div_mul_eq_mul_div, lt_div_iff₀ (by positivity)]
    calc (x.num.natAbs : ℚ) * (2 : ℚ) ^ (Nat.log2 x.den)
        ≤ (x.num.natAbs : ℚ) * (x.den : ℚ) := by
          apply mul_le_mul_of_nonneg_left h2 (by positivity)
      _ < (2 : ℚ) ^ (Nat.log2 x.num.natAbs + 1) * (x.den : ℚ) := by
          apply mul_lt_mul_of_pos_right h1 hd
  · rename_i h
    rw [sub_add_cancel]
    exact lt_of_not_le h

theorem round_even_intCast (z : Int) : Binary32.round_even (z : ℚ) = z := by
  unfold Binary32.round_even
  simp

theorem round_even_near (q : ℚ) : |q - (Binary32.round_even q : ℚ)| ≤ 1 / 2 := by
  have h1 := Int.floor_le q
  have h2 := Int.lt_floor_add_one q
  unfold Binary32.round_even
  split
  · rw [abs_le]; constructor <;> linarith
  · split
    · push_cast; rw [abs_le]; constructor <;> linarith
    · split
      · rw [abs_le]; constructor <;> linarith
      · push_cast; rw [abs_le]; constructor <;> linarith

/-- The value `round32 x` is a multiple of the spacing `2^e` of the binary32 numbers at `x`,
`e = max (ilog2 x - 23) (-149)`, and lies within half a spacing of `x`. -/
theorem round32_near (x : ℚ) (hx : x ≠ 0) :
    (∃ m : Int, Binary32.round32 x =
      (m : ℚ) * Binary32.pow2 (max (Binary32.ilog2 x - 23) (-149))) ∧
    |x - Binary32.round32 x| ≤ Binary32.pow2 (max (Binary32.ilog2 x - 23) (-149)) / 2 := by
  unfold Binary32.round32
  rw [if_neg hx]
  refine ⟨⟨_, rfl⟩, ?_⟩
  have hg := pow2_pos (max (Binary32.ilog2 x - 23) (-149))
  have h1 := round_even_near (x / Binary32.pow2 (max (Binary32.ilog2 x - 23) (-149)))
  have h2 : x - (Binary32.round_even (x / Binary32.pow2 (max (Binary32.ilog2 x - 23) (-149))) : ℚ) *
      Binary32.pow2 (max (Binary32.ilog2 x - 23) (-149)) =
      (x / Binary32.pow2 (max (Binary32.ilog2 x - 23) (-149)) -
        (Binary32.round_even (x / Binary32.pow2 (max (Binary32.ilog2 x - 23) (-149))) : ℚ)) *
      Binary32.pow2 (max (Binary32.ilog2 x - 23) (-149)) := by
    field_simp
    ring
  rw [h2, abs_mul, abs_of_pos hg]
  calc _ ≤ 1 / 2 * Binary32.pow2 (max (Binary32.ilog2 x - 23) (-149)) :=
        mul_le_mul_of_nonneg_right h1 (le_of_lt hg)
    _ = _ := by ring

/-- A multiple `m * 2^e` of a power of two with `|m| ≤ 2^24` and `e ≥ -149` is a binary32
number (of any exponent): rounding leaves it as it is. -/
theorem round32_exact (m e : Int) (hm : |m| ≤ 2 ^ 24) (he : -149 ≤ e) :
    Binary32.round32 ((m : ℚ) * Binary32.pow2 e) = (m : ℚ) * Binary32.pow2 e := by
  unfold Binary32.round32
  split
  · rename_i h0
    exact h0.symm
  · rename_i h0
    have hle := pow2_ilog2_le _ h0
    have hlt : |(m : ℚ) * Binary32.pow2 e| ≤ Binary32.pow2 (24 + e) := by
      rw [abs_mul, abs_of_pos (pow2_pos e), pow2_eq, pow2_eq, zpow_add₀ (by norm_num)]
      apply mul_le_mul_of_nonneg_right _ (by positivity)
      exact_mod_cast (Int.cast_le (R := ℚ)).2 hm
    have hk : Binary32.ilog2 ((m : ℚ) * Binary32.pow2 e) ≤ 24 + e := by
      have h2 := le_trans hle hlt
      rw [pow2_eq (Binary32.ilog2 _), pow2_eq (24 + e)] at h2
      have h12 : (1 : ℚ) < 2 := by norm_num
      exact (zpow_le_zpow_iff_right₀ h12).1 h2
    -- the case of equality: then m = ± 2^24 and the spacing is 2^(e+1)
    set g := max (Binary32.ilog2 ((m : ℚ) * Binary32.pow2 e) - 23) (-149) with hg
    by_cases hge : g ≤ e
    · have hsplit : (m : ℚ) * Binary32.pow2 e / Binary32.pow2 g =
          ((m * 2 ^ (e - g).toNat : Int) : ℚ) := by
        rw [pow2_eq, pow2_eq]
        push_cast
        rw [mul_div_assoc, ← zpow_sub₀ (by norm_num), ← zpow_natCast, Int.toNat_of_nonneg (by omega)]
      rw [hsplit, round_even_intCast, ← hsplit]
      field_simp [(pow2_pos g).ne.symm]
    · have hgeq : g = e + 1 := by
        have h1 : g ≤ max (24 + e - 23) (-149) := by
          rw [hg]; exact max_le_max (by omega) le_rfl
        have h2 : max (24 + e - 23) (-149) = e + 1 := by
          rw [max_eq_left (by omega)]; ring
        omega
      have hilog : Binary32.ilog2 ((m : ℚ) * Binary32.pow2 e) = 24 + e := by
        have : Binary32.ilog2 ((m : ℚ) * Binary32.pow2 e) - 23 ≤ g := le_max_left _ _
        have h3 : g ≤ max (24 + e - 23) (-149) := by
          rw [hg]; exact max_le_max (by omega) le_rfl
        rcases le_max_iff.1 (le_of_eq hg) with h | h
        · omega
        · omega
      have hm' : |(m : ℚ)| = 2 ^ 24 := by
        apply le_antisymm
        · exact_mod_cast (Int.cast_le (R := ℚ)).2 hm
        · rw [hilog, pow2_eq, abs_mul, abs_of_pos (pow2_pos e), pow2_eq,
            zpow_add₀ (by norm_num)] at hle
          have hp : (0 : ℚ) < 2 ^ e := by positivity
          have h24 : (2 : ℚ) ^ (24 : Int) = 2 ^ 24 := by norm_num
          rw [h24] at hle
          exact le_of_mul_le_mul_right hle hp
      have hmeven : ∃ k : Int, m = 2 * k := by
        have hmi : |m| = 2 ^ 24 := by
          have : ((|m| : Int) : ℚ) = ((2 ^ 24 : Int) : ℚ) := by
            push_cast; exact hm'
          exact_mod_cast this
        rcases abs_eq (by norm_num : (0 : Int) ≤ 2 ^ 24) |>.1 hmi with h | h
        · exact ⟨2 ^ 23, by rw [h]; norm_num⟩
        · exact ⟨-2 ^ 23, by rw [h]; norm_num⟩
      obtain ⟨k, hk2⟩ := hmeven
      have hsplit : (m : ℚ) * Binary32.pow2 e / Binary32.pow2 g = ((k : Int) : ℚ) := by
        rw [hgeq, pow2_eq, pow2_eq, hk2, zpow_add₀ (by norm_num)]
        push_cast
        field_simp
        ring
      rw [hsplit, round_even_intCast, ← hsplit]
      field_simp [(pow2_pos g).ne.symm]

theorem round32_intCast (n : Int) (hn : |n| ≤ 2 ^ 24) :
    Binary32.round32 (n : ℚ) = (n : ℚ) := by
  have := round32_exact n 0 hn (by norm_num)
  simpa [pow2_eq] using this

theorem round32_natCast (n : Nat) (hn : n ≤ 2 ^ 24) :
    Binary32.round32 (n : ℚ) = (n : ℚ) := by
  have := round32_intCast (n : Int) (by rw [abs_of_nonneg (by positivity)]; exact_mod_cast hn)
  simpa using this

theorem ofInt_natCast (n : Nat) (hn : n ≤ 2 ^ 24) :
    Binary32.ofInt (n : Int) = (n : ℚ) := by
  unfold Binary32.ofInt
  simpa using round32_natCast n hn

/-- The half-integers `n - 1/2` with `n ≤ 2^23` are binary32 numbers. -/
theorem round32_half (n : Nat) (hn : n ≤ 2 ^ 23) :
    Binary32.round32 ((n : ℚ) + -1 / 2) = (n : ℚ) + -1 / 2 := by
  have := round32_exact (2 * (n : Int) - 1) (-1)
    (by rw [abs_le]; constructor <;> omega) (by norm_num)
  have h2 : (((2 * (n : Int) - 1 : Int)) : ℚ) * Binary32.pow2 (-1) = (n : ℚ) + -1 / 2 := by
    rw [pow2_eq]; push_cast; norm_num; ring
  rwa [h2] at this

/-! ## The row filler in binary32: rows of at most `2^24` pixels -/

theorem le_round_even (q : ℚ) : ⌊q⌋ ≤ Binary32.round_even q := by
  unfold Binary32.round_even
  split
  · exact le_rfl
  · split
    · omega
    · split
      · exact le_rfl
      · omega

/-- Rounding does not take a value from `2^24` on below `2^24`. -/
theorem le_round32 (x : ℚ) (hx : (2 : ℚ) ^ 24 ≤ x) : (2 : ℚ) ^ 24 ≤ Binary32.round32 x := by
  have hpos : 0 < x := lt_of_lt_of_le (by positivity) hx
  have h0 : x ≠ 0 := hpos.ne.symm
  have h12 : (1 : ℚ) < 2 := by norm_num
  have hlt := lt_pow2_ilog2 x h0
  have hle := pow2_ilog2_le x h0
  rw [abs_of_pos hpos, pow2_eq] at hlt hle
  have hk : 24 ≤ Binary32.ilog2 x := by
    have h1 : (2 : ℚ) ^ (24 : Int) < 2 ^ (Binary32.ilog2 x + 1) := by
      have h24 : (2 : ℚ) ^ (24 : Int) = 2 ^ 24 := by norm_num
      rw [h24]
      exact lt_of_le_of_lt hx hlt
    have := (zpow_lt_zpow_iff_right₀ h12).1 h1
    omega
  unfold Binary32.round32
  rw [if_neg h0, max_eq_left (by omega), pow2_eq]
  have hg : (0 : ℚ) < 2 ^ (Binary32.ilog2 x - 23) := by positivity
  have hq : ((2 ^ 23 : Int) : ℚ) ≤ x / 2 ^ (Binary32.ilog2 x - 23) := by
    rw [le_div_iff₀ hg]
    have h23 : ((2 ^ 23 : Int) : ℚ) = (2 : ℚ) ^ (23 : Int) := by norm_num
    rw [h23, ← zpow_add₀ (by norm_num)]
    rw [show (23 : Int) + (Binary32.ilog2 x - 23) = Binary32.ilog2 x by ring]
    exact hle
  have hz : (2 ^ 23 : Int) ≤ Binary32.round_even (x / 2 ^ (Binary32.ilog2 x - 23)) :=
    le_trans (Int.le_floor.2 hq) (le_round_even _)
  have hzq : ((2 ^ 23 : Int) : ℚ) ≤
      ((Binary32.round_even (x / 2 ^ (Binary32.ilog2 x - 23)) : Int) : ℚ) := by
    exact_mod_cast hz
  have h1 : (1 : ℚ) ≤ 2 ^ (Binary32.ilog2 x - 23 - 1) := by
    apply one_le_zpow₀ (le_of_lt h12)
    omega
  calc (2 : ℚ) ^ 24 = ((2 ^ 23 : Int) : ℚ) * 2 * 1 := by norm_num
    _ ≤ ((2 ^ 23 : Int) : ℚ) * 2 * 2 ^ (Binary32.ilog2 x - 23 - 1) := by
        apply mul_le_mul_of_nonneg_left h1 (by norm_num)
    _ = ((2 ^ 23 : Int) : ℚ) * 2 ^ (Binary32.ilog2 x - 23) := by
        rw [mul_assoc]
        congr 1
        rw [show Binary32.ilog2 x - 23 = 1 + (Binary32.ilog2 x - 23 - 1) by ring,
          zpow_add₀ (by norm_num)]
        norm_num
    _ ≤ _ := mul_le_mul_of_nonneg_right hzq (le_of_lt hg)

/-- While the pixel number stays within `2^24`, the increment `i++` is exact, and the sweep is
the sweep in exact arithmetic. -/
theorem b32_sweep_eq (v : α) (n : Nat) : ∀ (im i : Nat) (b : Bool) (it : List ℚ)
    (buf : List α), (n ≠ 0 → i + n ≤ 2 ^ 24) →
    Binary32.sweep v n im (i : ℚ) b it buf = sweep v n im (i : ℚ) b it buf := by
  induction n with
  | zero => intros; rfl
  | succ n ih =>
    intro im i b it buf h
    have hi : i + (n + 1) ≤ 2 ^ 24 := h (by omega)
    have hr : Binary32.round32 ((i : ℚ) + 1) = ((i + 1 : Nat) : ℚ) := by
      have := round32_natCast (i + 1) (by omega)
      push_cast at this ⊢
      exact this
    have hc : (i : ℚ) + 1 = ((i + 1 : Nat) : ℚ) := by push_cast; rfl
    unfold Binary32.sweep sweep
    rcases hsk : skip_lt (i : ℚ) b it with ⟨b', l⟩
    cases l with
    | nil => rfl
    | cons x rest =>
      simp only
      rw [hr, hc]
      exact ih (im + 1) (i + 1) b' (x :: rest) _ (by intro _; omega)

/-- On a row of at most `2^24` pixels, `fill_line` in binary32 is `fill_line` in exact
arithmetic. -/
theorem b32_fill_line_eq (v : α) (buf : List α) (im w : Nat) (inter : List ℚ)
    (hw : w ≤ 2 ^ 24) :
    Binary32.fill_line v buf im (im + w) inter = fill_line v buf im (im + w) inter := by
  unfold Binary32.fill_line fill_line
  simp only
  have hsp := (skip_left_spec (inter.insertionSort (· ≤ ·))).2
  rcases hsk : skip_left false (inter.insertionSort (· ≤ ·)) with ⟨bIn, l⟩
  rw [hsk] at hsp
  cases l with
  | nil => rfl
  | cons x rest =>
    simp only
    have hx : 0 ≤ x := hsp x rfl
    obtain ⟨ht0, _, _⟩ := toInt_of_nonneg hx
    obtain ⟨k, hk⟩ := Int.eq_ofNat_of_zero_le ht0
    by_cases hsmall : k ≤ 2 ^ 24
    · have hof : Binary32.ofInt (toInt x) = ((k : Nat) : ℚ) := by
        rw [hk]; exact ofInt_natCast k hsmall
      have hti : toInt ((k : Nat) : ℚ) = (k : Int) := by
        have := toInt_intCast (k : Int)
        simpa using this
      rw [hof, hti, hk]
      simp only [Int.toNat_ofNat, Int.cast_natCast]
      rw [b32_sweep_eq]
      intro hn
      omega
    · have hbig : (2 : ℚ) ^ 24 ≤ ((toInt x : Int) : ℚ) := by
        rw [hk]
        have : 2 ^ 24 ≤ k := by omega
        exact_mod_cast this
      have h1 := le_round32 _ hbig
      have h2 : (2 ^ 24 : Int) ≤ toInt (Binary32.ofInt (toInt x)) := by
        have h3 := toInt_mono h1
        have h4 : toInt ((2 : ℚ) ^ 24) = 2 ^ 24 := by
          have := toInt_intCast (2 ^ 24)
          simpa using this
        rw [h4] at h3
        exact h3
      have hn1 : im + w - (im + (toInt (Binary32.ofInt (toInt x))).toNat) = 0 := by omega
      have hn2 : im + w - (im + (toInt x).toNat) = 0 := by omega
      rw [hn1, hn2]
      rfl

theorem b32_fill_inter_loop_eq (v : α) (w : Nat) (hw : w ≤ 2 ^ 24) (n : Nat) :
    ∀ (i : Nat) (im : List α) (T : Table),
    Binary32.fill_inter_loop v w n i im T = fill_inter_loop v w n i im T := by
  induction n with
  | zero => intros; rfl
  | succ n ih =>
    intro i im T
    unfold Binary32.fill_inter_loop fill_inter_loop
    have hrow : (i + 1) * w = i * w + w := by ring
    rw [hrow, b32_fill_line_eq v im (i * w) w _ hw]
    split
    · exact ih _ _ _
    · cases fill_line v im (i * w) (i * w + w) (T.getD i []) with
      | none => rfl
      | some r => exact ih _ _ _

/-- On an image of at most `2^24` columns, `fill_inter` in binary32 is `fill_inter` in exact
arithmetic. -/
theorem b32_fill_inter_eq (v : α) (im : List α) (w h : Nat) (T : Table) (hw : w ≤ 2 ^ 24) :
    Binary32.fill_inter v im w h T = fill_inter v im w h T :=
  b32_fill_inter_loop_eq v w hw h 0 im T

/-! ## C6: the consistency check of the row filler -/

/-- C6, as stated, fails: a row of two pixels with the single bound `-1` has an odd number of
bounds and `fill_line` returns normally (the bounds run out in the left-boundary loop, before
the sweep that holds the check); so does the single bound `7` on a row of eight pixels (the
row ends before the bound is passed). -/
theorem fill_line_odd_returns :
    Odd [(-1 : ℚ)].length ∧
    Binary32.fill_line (1 : Nat) [0, 0] 0 2 [(-1 : ℚ)] = some ([0, 0], [-1]) ∧
    Odd [(7 : ℚ)].length ∧
    Binary32.fill_line (1 : Nat) [0, 0, 0, 0, 0, 0, 0, 0] 0 8 [(7 : ℚ)] =
      some ([0, 0, 0, 0, 0, 0, 0, 1], [7]) := by
  decide!

/-- C6, amended. For a row of `w ≤ 2^24` pixels and a bound list with an odd number of
entries, at least one of which is non-negative and all of which are less than `w - 1` (so
that the sweep passes the last bound before the end of the row), `fill_line` fails its
consistency check `assert(!bIn)` instead of returning normally. -/
theorem fill_line_odd_asserts (value : α) (buf : List α) (im w : Nat) (inter : List ℚ)
    (hw : w ≤ 2 ^ 24) (hodd : Odd inter.length) (hnonneg : ∃ x ∈ inter, 0 ≤ x)
    (hpassed : ∀ x ∈ inter, x < (w : ℚ) - 1) :
    Binary32.fill_line value buf im (im + w) inter = none := by
  rw [b32_fill_line_eq value buf im w inter hw]
  exact (fill_line_eq_none_iff value buf im w inter).2 ⟨hodd, hnonneg, hpassed⟩

/-- C6, amended, at a concrete row: the single bound `2` on a row of eight pixels. -/
theorem fill_line_odd_asserts_witness :
    8 ≤ 2 ^ 24 ∧ Odd [(2 : ℚ)].length ∧ (∃ x ∈ [(2 : ℚ)], 0 ≤ x) ∧
    (∀ x ∈ [(2 : ℚ)], x < ((8 : Nat) : ℚ) - 1) ∧
    Binary32.fill_line (1 : Nat) [0, 0, 0, 0, 0, 0, 0, 0] 0 (0 + 8) [(2 : ℚ)] = none :=
  ⟨by norm_num, by decide, ⟨2, by simp, by norm_num⟩, by simp; norm_num,
    fill_line_odd_asserts 1 [0, 0, 0, 0, 0, 0, 0, 0] 0 8 [(2 : ℚ)] (by norm_num) (by decide)
      ⟨2, by simp, by norm_num⟩ (by simp; norm_num)⟩

/-! ## C14: a zero-width double boundary -/

/-- Beyond `2^24` the pixel number does not advance: `16777216 + 1` rounds to `16777216`. -/
theorem round32_stuck : Binary32.round32 ((16777216 : ℚ) + 1) = 16777216 := by
  decide!

/-- With the next bound at `16777218`, the sweep in binary32 never reaches it: the pixel
number stays at most `2^24` and nothing more is written. -/
theorem b32_sweep_stuck (v : α) (n : Nat) : ∀ (im i : Nat) (buf : List α), i ≤ 2 ^ 24 →
    Binary32.sweep v n im (i : ℚ) false [16777218, 16777218] buf = some buf := by
  induction n with
  | zero => intros; rfl
  | succ n ih =>
    intro im i buf hi
    have hiq : (i : ℚ) ≤ 16777216 := by
      have h := hi
      norm_num at h
      exact_mod_cast h
    have hlt : ¬ ((16777218 : ℚ) < (i : ℚ)) := by
      intro hc
      linarith
    have hne : ¬ ((16777218 : ℚ) = (i : ℚ)) := by
      intro hc
      linarith
    have hsk : skip_lt (i : ℚ) false [16777218, 16777218] = (false, [16777218, 16777218]) := by
      simp only [skip_lt, if_neg hlt]
    unfold Binary32.sweep
    rw [hsk]
    simp only [Bool.false_eq_true, false_or, if_neg hne]
    by_cases hi2 : i < 2 ^ 24
    · have hr : Binary32.round32 ((i : ℚ) + 1) = ((i + 1 : Nat) : ℚ) := by
        have := round32_natCast (i + 1) (by omega)
        push_cast at this ⊢
        exact this
      rw [hr]
      exact ih (im + 1) (i + 1) buf (by omega)
    · have hi3 : i = 16777216 := by omega
      subst hi3
      have hr : Binary32.round32 (((16777216 : Nat) : ℚ) + 1) = ((16777216 : Nat) : ℚ) := by
        have := round32_stuck
        push_cast
        exact this
      rw [hr]
      exact ih (im + 1) 16777216 buf (by norm_num)

theorem b32_sweep_5_7 (n : Nat) (buf : List Nat) :
    Binary32.sweep (1 : Nat) (n + 4) 5 5 false [5, 7, 16777218, 16777218] buf =
      some (((buf.set 5 1).set 6 1).set 7 1) := by
  have h6 : Binary32.round32 ((5 : ℚ) + 1) = 6 := by decide!
  have h7 : Binary32.round32 ((6 : ℚ) + 1) = 7 := by decide!
  have h8 : Binary32.round32 ((7 : ℚ) + 1) = 8 := by decide!
  have h9 : Binary32.round32 ((8 : ℚ) + 1) = ((9 : Nat) : ℚ) := by decide!
  have s5 : skip_lt (5 : ℚ) false [5, 7, 16777218, 16777218] =
      (false, [5, 7, 16777218, 16777218]) := by decide!
  have s6 : skip_lt (6 : ℚ) false [5, 7, 16777218, 16777218] =
      (true, [7, 16777218, 16777218]) := by decide!
  have s7 : skip_lt (7 : ℚ) true [7, 16777218, 16777218] =
      (true, [7, 16777218, 16777218]) := by decide!
  have s8 : skip_lt (8 : ℚ) true [7, 16777218, 16777218] =
      (false, [16777218, 16777218]) := by decide!
  have e8 : ¬ ((16777218 : ℚ) = 8) := by norm_num
  rw [show n + 4 = n + 1 + 1 + 1 + 1 by ring]
  rw [Binary32.sweep, s5]
  simp only [Bool.false_eq_true, false_or, if_true, h6]
  rw [Binary32.sweep, s6]
  simp only [true_or, if_true, h7]
  rw [Binary32.sweep, s7]
  simp only [true_or, if_true, h8]
  rw [Binary32.sweep, s8]
  simp only [Bool.false_eq_true, false_or, if_neg e8, h9]
  exact b32_sweep_stuck 1 n _ 9 _ (by norm_num)

/-- C14, as stated, fails on a wide row: on a row of `16777230` pixels with the bounds 5 and 7
and the double bound `x = 16777218` (an integer column of the row), `fill_line` returns
normally and does not write column `x`: the pixel number `i`, a `float`, stops advancing at
`2^24 = 16777216` and never reaches the bound. -/
theorem fill_line_double_bound_wide :
    Even [(5 : ℚ), 7].length ∧ [(5 : ℚ), 7, 16777218, 16777218].Perm [16777218, 16777218, 5, 7] ∧
    ∃ b2, (Binary32.fill_line (1 : Nat) (List.replicate 16777230 0) 0 16777230
        [5, 7, 16777218, 16777218]).map Prod.fst = some b2 ∧ b2[16777218]? = some 0 := by
  refine ⟨by decide, by decide!, ?_⟩
  have hsort : [(5 : ℚ), 7, 16777218, 16777218].insertionSort (· ≤ ·) =
      [5, 7, 16777218, 16777218] := by decide!
  have hskip : skip_left false [(5 : ℚ), 7, 16777218, 16777218] =
      (false, [5, 7, 16777218, 16777218]) := by decide!
  have hi : Binary32.ofInt (toInt (5 : ℚ)) = 5 := by decide!
  have hti : (toInt (5 : ℚ)).toNat = 5 := by decide!
  refine ⟨(((List.replicate 16777230 (0 : Nat)).set 5 1).set 6 1).set 7 1, ?_, ?_⟩
  · unfold Binary32.fill_line
    simp only [hsort, hskip, hi, hti, Bool.false_eq_true, if_false]
    rw [show 16777230 - (0 + 5) = 16777221 + 4 by norm_num]
    rw [show 0 + 5 = 5 by norm_num, b32_sweep_5_7]
    rfl
  · rw [List.getElem?_set_ne (by norm_num), List.getElem?_set_ne (by norm_num),
      List.getElem?_set_ne (by norm_num), List.getElem?_replicate]
    norm_num

/-- C14, amended. Zero-width double boundary is parity-neutral: for a row of `w ≤ 2^24`
pixels, an even-length bound list `B` and a list `B'` that holds the bounds of `B` and two
extra copies of `x`, `fill_line` returns normally on both, and the buffer after `fill_line`
on `B'` is the buffer after `fill_line` on `B`, except that the column equal to `x` (if `x`
is an integer column of the row) is written as well. -/
theorem fill_line_double_bound (value : α) (buf : List α) (im w : Nat) (B B' : List ℚ) (x : ℚ)
    (hw : w ≤ 2 ^ 24) (heven : Even B.length) (hperm : B'.Perm (x :: x :: B))
    (hrow : im + w ≤ buf.length) :
    ∃ b1 b2, (Binary32.fill_line value buf im (im + w) B).map Prod.fst = some b1 ∧
      (Binary32.fill_line value buf im (im + w) B').map Prod.fst = some b2 ∧
      b2.length = b1.length ∧
      (∀ c : Nat, c < w →
        ((c : ℚ) = x → b2[im + c]? = some value) ∧
        ((c : ℚ) ≠ x → b2[im + c]? = b1[im + c]?)) ∧
      (∀ idx, idx < im ∨ im + w ≤ idx → b2[idx]? = b1[idx]?) := by
  rw [b32_fill_line_eq value buf im w B hw, b32_fill_line_eq value buf im w B' hw]
  exact fill_line_double_bound_exact value buf im w B B' x heven hperm hrow

/-- C14, amended, at a concrete row: eight pixels, bounds `1/2` and `5/2`, double bound at
`5`. -/
theorem fill_line_double_bound_witness :
    (8 ≤ 2 ^ 24 ∧ Even [(1/2 : ℚ), 5/2].length ∧
      [(1/2 : ℚ), 5/2, 5, 5].Perm [5, 5, 1/2, 5/2] ∧
      0 + 8 ≤ [(0 : Nat), 0, 0, 0, 0, 0, 0, 0].length) ∧
    ∃ b1 b2, (Binary32.fill_line 1 [(0 : Nat), 0, 0, 0, 0, 0, 0, 0] 0 (0 + 8)
        [(1/2 : ℚ), 5/2]).map Prod.fst = some b1 ∧
      (Binary32.fill_line 1 [(0 : Nat), 0, 0, 0, 0, 0, 0, 0] 0 (0 + 8)
        [(1/2 : ℚ), 5/2, 5, 5]).map Prod.fst = some b2 ∧
      b2.length = b1.length ∧
      (∀ c : Nat, c < 8 →
        ((c : ℚ) = 5 → b2[0 + c]? = some 1) ∧
        ((c : ℚ) ≠ 5 → b2[0 + c]? = b1[0 + c]?)) ∧
      (∀ idx, idx < 0 ∨ 0 + 8 ≤ idx → b2[idx]? = b1[idx]?) :=
  ⟨⟨by norm_num, by decide, by decide!, by decide⟩,
    fill_line_double_bound 1 [(0 : Nat), 0, 0, 0, 0, 0, 0, 0] 0 8 [(1/2 : ℚ), 5/2]
      [(1/2 : ℚ), 5/2, 5, 5] 5 (by norm_num) (by decide) (by decide!) (by decide)⟩

/-! ## The edge walker in binary32 -/

/-- A non-horizontal edge in binary32, from a vertex whose truncated `y` converts back
exactly: `add_point` records `pre_bounds`, then runs the stepping loop from `start_row` to
`(int)p.y + dir`. -/
theorem b32_add_point_eq_loop (s : PolyIterator) (pi : Point) (T : Table)
    (hq : Binary32.ofInt (toInt s.p.y) = ((toInt s.p.y : Int) : ℚ))
    (hy : s.p.y ≠ (Binary32.add pi delta).y) :
    Binary32.add_point s pi T =
      (Binary32.row_loop s.p (Binary32.add pi delta) (Binary32.slope s.p (Binary32.add pi delta))
        (sign s.p.y (Binary32.add pi delta).y)
        (toInt (Binary32.add pi delta).y + sign s.p.y (Binary32.add pi delta).y)
        (toInt (Binary32.add pi delta).y + sign s.p.y (Binary32.add pi delta).y -
          start_row s (Binary32.add pi delta)).natAbs
        (start_row s (Binary32.add pi delta))
        (apply_bounds (pre_bounds s (Binary32.add pi delta)) T)).map
      (fun t => ({ p := Binary32.add pi delta, bHorizontal := false,
                   dir := sign s.p.y (Binary32.add pi delta).y }, t)) := by
  by_cases hb : s.bHorizontal = true
  · by_cases hd : s.dir ≠ sign s.p.y (Binary32.add pi delta).y
    · simp only [Binary32.add_point, start_row, pre_bounds, hq, if_neg hy, if_pos hb, if_pos hd]
      rfl
    · simp only [Binary32.add_point, start_row, pre_bounds, hq, if_neg hy, if_pos hb, if_neg hd]
      rfl
  · by_cases hpk : sign s.p.y (Binary32.add pi delta).y ≠ s.dir ∧
        s.p.y = ((toInt s.p.y : Int) : ℚ)
    · simp only [Binary32.add_point, start_row, pre_bounds, hq, if_neg hy, if_neg hb, if_pos hpk]
      rfl
    · by_cases hup : sign s.p.y (Binary32.add pi delta).y > 0 ∧
          ((toInt s.p.y : Int) : ℚ) < s.p.y
      · simp only [Binary32.add_point, start_row, pre_bounds, hq, if_neg hy, if_neg hb,
          if_neg hpk, if_pos hup]
        rfl
      · simp only [Binary32.add_point, start_row, pre_bounds, hq, if_neg hy, if_neg hb,
          if_neg hpk, if_neg hup]
        rfl

/-- The rows of the stepping loop in binary32, whether it ends at the stop row or at the
assertion: every row gets at most one more bound, only rows from the start row on in the
direction of travel get one, and the bound is the crossing computed for that row. -/
theorem b32_row_loop_rows (q p : Point) (a : Option ℚ) (dir iy2 : Int)
    (hdir : dir = 1 ∨ dir = -1) (n : Nat) : ∀ (j : Int) (T : Table),
    ∃ T', (Binary32.row_loop q p a dir iy2 n j T = .ok T' ∨
        Binary32.row_loop q p a dir iy2 n j T = .error T') ∧
      T'.length = T.length ∧
      ∀ r : Nat, ∃ L, T'.getD r [] = T.getD r [] ++ L ∧ L.length ≤ 1 ∧
        (L ≠ [] → 0 ≤ ((r : Int) - j) * dir ∧
          ∀ x ∈ L, Binary32.crossing q a (r : Int) = some x) := by
  induction n with
  | zero =>
    intro j T
    refine ⟨T, ?_, rfl, fun r => ⟨[], by simp, by simp, fun h => absurd rfl h⟩⟩
    unfold Binary32.row_loop
    split
    · exact Or.inl rfl
    · exact Or.inr rfl
  | succ n ih =>
    intro j T
    have hstay : ∃ T', T' = T ∧ T'.length = T.length ∧
        ∀ r : Nat, ∃ L, T'.getD r [] = T.getD r [] ++ L ∧ L.length ≤ 1 ∧
          (L ≠ [] → 0 ≤ ((r : Int) - j) * dir ∧
            ∀ x ∈ L, Binary32.crossing q a (r : Int) = some x) :=
      ⟨T, rfl, rfl, fun r => ⟨[], by simp, by simp, fun h => absurd rfl h⟩⟩
    unfold Binary32.row_loop
    by_cases hj : j = iy2
    · obtain ⟨T', h1, h2, h3⟩ := hstay
      exact ⟨T', Or.inl (by rw [if_pos hj, h1]), h2, h3⟩
    · rw [if_neg hj]
      by_cases hskip : (if dir > 0 then p.y ≤ Binary32.ofInt j else Binary32.ofInt j ≤ p.y)
      · rw [if_pos hskip]
        obtain ⟨T', h1, h2, h3⟩ := ih (j + dir) T
        refine ⟨T', h1, h2, ?_⟩
        intro r
        obtain ⟨L, hL1, hL2, hL3⟩ := h3 r
        refine ⟨L, hL1, hL2, fun hne => ⟨?_, (hL3 hne).2⟩⟩
        have := (hL3 hne).1
        rcases hdir with hd | hd <;> rw [hd] at this ⊢ <;> omega
      · rw [if_neg hskip]
        cases hc : Binary32.crossing q a j with
        | none =>
          obtain ⟨T', h1, h2, h3⟩ := hstay
          exact ⟨T', Or.inr (by rw [h1]), h2, h3⟩
        | some xj =>
          simp only
          by_cases hass : (q.x ≤ xj ∧ xj ≤ p.x) ∨ (p.x ≤ xj ∧ xj ≤ q.x)
          · rw [if_pos hass]
            obtain ⟨T', h1, h2, h3⟩ := ih (j + dir) (bound T xj j)
            refine ⟨T', h1, by rw [h2, bound_length], ?_⟩
            intro r
            obtain ⟨L, hL1, hL2, hL3⟩ := h3 r
            rw [bound_getD] at hL1
            by_cases hr : (r : Int) = j ∧ r < T.length
            · have hL : L = [] := by
                by_contra hne
                have := (hL3 hne).1
                rcases hdir with hd | hd <;> rw [hd] at this <;> omega
              refine ⟨[xj], by rw [hL1, if_pos hr, hL, List.append_nil], by simp, fun _ => ⟨?_, ?_⟩⟩
              · rw [hr.1]; simp
              · intro x hx
                rw [hr.1, hc]
                simp only [List.mem_singleton] at hx
                rw [hx]
            · rw [if_neg hr, List.append_nil] at hL1
              refine ⟨L, hL1, hL2, fun hne => ⟨?_, (hL3 hne).2⟩⟩
              have := (hL3 hne).1
              rcases hdir with hd | hd <;> rw [hd] at this ⊢ <;> omega
          · rw [if_neg hass]
            obtain ⟨T', h1, h2, h3⟩ := hstay
            exact ⟨T', Or.inr (by rw [h1]), h2, h3⟩

/-- With the iterations that `add_point` provides, the stepping loop in binary32 stops short
of the stop row only through its assertion: some row `k` that is not skipped has a crossing
that is infinite, a NaN, or outside `[q.x, p.x]`. -/
theorem b32_row_loop_error_assert (q p : Point) (a : Option ℚ) (dir iy2 : Int)
    (hdir : dir = 1 ∨ dir = -1) (n : Nat) : ∀ (j : Int) (T T' : Table),
    j + dir * (n : Int) = iy2 → Binary32.row_loop q p a dir iy2 n j T = .error T' →
    ∃ k : Int, ¬ (if dir > 0 then p.y ≤ Binary32.ofInt k else Binary32.ofInt k ≤ p.y) ∧
      ∀ xj, Binary32.crossing q a k = some xj →
        ¬ ((q.x ≤ xj ∧ xj ≤ p.x) ∨ (p.x ≤ xj ∧ xj ≤ q.x)) := by
  induction n with
  | zero =>
    intro j T T' hj h
    have hj' : j = iy2 := by simpa using hj
    simp [Binary32.row_loop, hj'] at h
  | succ n ih =>
    intro j T T' hj h
    have hne : j ≠ iy2 := by
      push_cast at hj
      rcases hdir with hd | hd <;> rw [hd] at hj <;> omega
    have hj2 : j + dir + dir * (n : Int) = iy2 := by
      push_cast at hj
      rw [← hj]
      ring
    unfold Binary32.row_loop at h
    rw [if_neg hne] at h
    by_cases hskip : (if dir > 0 then p.y ≤ Binary32.ofInt j else Binary32.ofInt j ≤ p.y)
    · rw [if_pos hskip] at h
      exact ih (j + dir) T T' hj2 h
    · rw [if_neg hskip] at h
      cases hc : Binary32.crossing q a j with
      | none => exact ⟨j, hskip, fun xj hx => by rw [hc] at hx; exact absurd hx (by simp)⟩
      | some x =>
        rw [hc] at h
        simp only at h
        by_cases hass : (q.x ≤ x ∧ x ≤ p.x) ∨ (p.x ≤ x ∧ x ≤ q.x)
        · rw [if_pos hass] at h
          exact ih (j + dir) _ T' hj2 h
        · refine ⟨j, hskip, fun xj hx => ?_⟩
          rw [hc] at hx
          simp only [Option.some.injEq] at hx
          rw [← hx]
          exact hass

/-! ## C13: a local peak -/

/-- C13. Local-peak emission: for a non-horizontal edge `q → p` taken in a state with
`bHorizontal` false, previous direction different from the direction of the edge, and `q.y`
(a `float`) an exact integer row `iy` inside the table, `add_point` appends `q.x` exactly
twice to row `iy`, and on every other row it appends at most one bound, the crossing it
computes for that row, and only if the row lies strictly beyond `q.y` in the direction of
travel. This holds whether `add_point` returns or stops at the assertion of its loop, on a row
`k` whose crossing is infinite, a NaN or outside `[q.x, p.x]`; `T'` is the table at that
moment. -/
theorem local_peak_emission (s : PolyIterator) (pi : Point) (T : Table) (iy : Nat)
    (hfl : Binary32.round32 s.p.y = s.p.y)
    (hb : s.bHorizontal = false) (hy : s.p.y ≠ (Binary32.add pi delta).y)
    (hd : s.dir ≠ sign s.p.y (Binary32.add pi delta).y) (hiy : s.p.y = (iy : ℚ))
    (hin : iy < T.length) :
    ∃ T', (Binary32.add_point s pi T =
          .ok ({ p := Binary32.add pi delta, bHorizontal := false,
                 dir := sign s.p.y (Binary32.add pi delta).y }, T') ∨
        (Binary32.add_point s pi T = .error T' ∧
          ∃ k : Int, ¬ (if sign s.p.y (Binary32.add pi delta).y > 0
              then (Binary32.add pi delta).y ≤ Binary32.ofInt k
              else Binary32.ofInt k ≤ (Binary32.add pi delta).y) ∧
            ∀ xj, Binary32.crossing s.p (Binary32.slope s.p (Binary32.add pi delta)) k =
                some xj →
              ¬ ((s.p.x ≤ xj ∧ xj ≤ (Binary32.add pi delta).x) ∨
                ((Binary32.add pi delta).x ≤ xj ∧ xj ≤ s.p.x)))) ∧
      T'.length = T.length ∧
      T'.getD iy [] = T.getD iy [] ++ [s.p.x, s.p.x] ∧
      ∀ r : Nat, r ≠ iy → ∃ L, T'.getD r [] = T.getD r [] ++ L ∧ L.length ≤ 1 ∧
        (L ≠ [] → 0 < ((r : Int) - (iy : Int)) * sign s.p.y (Binary32.add pi delta).y ∧
          ∀ x ∈ L, Binary32.crossing s.p (Binary32.slope s.p (Binary32.add pi delta)) (r : Int) =
            some x) := by
  have hti : toInt s.p.y = (iy : Int) := by rw [hiy, toInt_natCast]
  have hq : Binary32.ofInt (toInt s.p.y) = ((toInt s.p.y : Int) : ℚ) := by
    unfold Binary32.ofInt
    rw [hti, Int.cast_natCast, ← hiy, hfl]
  have hpk : sign s.p.y (Binary32.add pi delta).y ≠ s.dir ∧
      s.p.y = ((toInt s.p.y : Int) : ℚ) := ⟨fun hc => hd hc.symm, by rw [hti, hiy]; simp⟩
  have hpre : pre_bounds s (Binary32.add pi delta) =
      [(s.p.x, (iy : Int)), (s.p.x, (iy : Int))] := by
    unfold pre_bounds
    rw [hb, if_neg (by simp), if_pos hpk, hti]
  have hstart : start_row s (Binary32.add pi delta) =
      (iy : Int) + sign s.p.y (Binary32.add pi delta).y := by
    unfold start_row
    rw [hb, if_neg (by simp), if_pos hpk, hti]
  have hdir := sign_eq s.p.y (Binary32.add pi delta).y
  have hreach := row_loop_reaches s.p.y (Binary32.add pi delta).y hy
    (start_row s (Binary32.add pi delta)) (start_row_cases s (Binary32.add pi delta))
  rw [hstart] at hreach
  rw [b32_add_point_eq_loop s pi T hq hy, hpre, hstart]
  obtain ⟨T', h1, h2, h3⟩ := b32_row_loop_rows s.p (Binary32.add pi delta)
    (Binary32.slope s.p (Binary32.add pi delta)) (sign s.p.y (Binary32.add pi delta).y)
    (toInt (Binary32.add pi delta).y + sign s.p.y (Binary32.add pi delta).y) hdir
    (toInt (Binary32.add pi delta).y + sign s.p.y (Binary32.add pi delta).y -
      ((iy : Int) + sign s.p.y (Binary32.add pi delta).y)).natAbs
    ((iy : Int) + sign s.p.y (Binary32.add pi delta).y)
    (apply_bounds [(s.p.x, (iy : Int)), (s.p.x, (iy : Int))] T)
  have hT0 : apply_bounds [(s.p.x, (iy : Int)), (s.p.x, (iy : Int))] T =
      bound (bound T s.p.x (iy : Int)) s.p.x (iy : Int) := rfl
  rw [hT0] at h1 h2 h3 ⊢
  refine ⟨T', ?_, by rw [h2, bound_length, bound_length], ?_, ?_⟩
  · rcases h1 with h1 | h1
    · left; rw [h1]; rfl
    · right
      refine ⟨by rw [h1]; rfl, ?_⟩
      exact b32_row_loop_error_assert s.p (Binary32.add pi delta) _ _ _ hdir _ _ _ T' hreach h1
  · obtain ⟨L, hL1, _, hL3⟩ := h3 iy
    have hL : L = [] := by
      by_contra hne
      have := (hL3 hne).1
      rcases hdir with hd' | hd' <;> rw [hd'] at this <;> omega
    rw [hL1, hL, List.append_nil, bound_getD, bound_getD, bound_length,
      if_pos ⟨rfl, hin⟩, List.append_assoc]
    rfl
  · intro r hr
    obtain ⟨L, hL1, hL2, hL3⟩ := h3 r
    have hne : ¬ ((r : Int) = (iy : Int)) := fun hc => hr (by exact_mod_cast hc)
    rw [bound_getD, bound_getD, if_neg (fun hc => hne hc.1), if_neg (fun hc => hne hc.1),
      List.append_nil, List.append_nil] at hL1
    refine ⟨L, hL1, hL2, fun hL => ⟨?_, (hL3 hL).2⟩⟩
    have := (hL3 hL).1
    rcases hdir with hd' | hd' <;> rw [hd'] at this ⊢ <;> omega

/-- C13, at a concrete peak where the loop stops at its assertion: the walker came up to the
shifted vertex `(7, 14)` and goes down to `(0, 1 - 2^-22)`. -/
theorem local_peak_emission_witness :
    (Binary32.round32 ({ p := ⟨7, 14⟩, bHorizontal := false, dir := 1 } : PolyIterator).p.y = ({ p := ⟨7, 14⟩, bHorizontal := false, dir := 1 } : PolyIterator).p.y ∧ ({ p := ⟨7, 14⟩, bHorizontal := false, dir := 1 } : PolyIterator).bHorizontal = false ∧
      ({ p := ⟨7, 14⟩, bHorizontal := false, dir := 1 } : PolyIterator).p.y ≠ (Binary32.add (⟨1/2, 3/2 - 1/2^22⟩ : Point) delta).y ∧ ({ p := ⟨7, 14⟩, bHorizontal := false, dir := 1 } : PolyIterator).dir ≠ sign ({ p := ⟨7, 14⟩, bHorizontal := false, dir := 1 } : PolyIterator).p.y (Binary32.add (⟨1/2, 3/2 - 1/2^22⟩ : Point) delta).y ∧
      ({ p := ⟨7, 14⟩, bHorizontal := false, dir := 1 } : PolyIterator).p.y = ((14 : Nat) : ℚ) ∧ 14 < (List.replicate 15 [] : Table).length) ∧
    ∃ T', (Binary32.add_point ({ p := ⟨7, 14⟩, bHorizontal := false, dir := 1 } : PolyIterator) (⟨1/2, 3/2 - 1/2^22⟩ : Point) (List.replicate 15 [] : Table) =
          .ok ({ p := Binary32.add (⟨1/2, 3/2 - 1/2^22⟩ : Point) delta, bHorizontal := false,
                 dir := sign ({ p := ⟨7, 14⟩, bHorizontal := false, dir := 1 } : PolyIterator).p.y (Binary32.add (⟨1/2, 3/2 - 1/2^22⟩ : Point) delta).y }, T') ∨
        (Binary32.add_point ({ p := ⟨7, 14⟩, bHorizontal := false, dir := 1 } : PolyIterator) (⟨1/2, 3/2 - 1/2^22⟩ : Point) (List.replicate 15 [] : Table) = .error T' ∧
          ∃ k : Int, ¬ (if sign ({ p := ⟨7, 14⟩, bHorizontal := false, dir := 1 } : PolyIterator).p.y (Binary32.add (⟨1/2, 3/2 - 1/2^22⟩ : Point) delta).y > 0
              then (Binary32.add (⟨1/2, 3/2 - 1/2^22⟩ : Point) delta).y ≤ Binary32.ofInt k
              else Binary32.ofInt k ≤ (Binary32.add (⟨1/2, 3/2 - 1/2^22⟩ : Point) delta).y) ∧
            ∀ xj, Binary32.crossing ({ p := ⟨7, 14⟩, bHorizontal := false, dir := 1 } : PolyIterator).p (Binary32.slope ({ p := ⟨7, 14⟩, bHorizontal := false, dir := 1 } : PolyIterator).p (Binary32.add (⟨1/2, 3/2 - 1/2^22⟩ : Point) delta)) k =
                some xj →
              ¬ ((({ p := ⟨7, 14⟩, bHorizontal := false, dir := 1 } : PolyIterator).p.x ≤ xj ∧ xj ≤ (Binary32.add (⟨1/2, 3/2 - 1/2^22⟩ : Point) delta).x) ∨
                ((Binary32.add (⟨1/2, 3/2 - 1/2^22⟩ : Point) delta).x ≤ xj ∧ xj ≤ ({ p := ⟨7, 14⟩, bHorizontal := false, dir := 1 } : PolyIterator).p.x)))) ∧
      T'.length = (List.replicate 15 [] : Table).length ∧
      T'.getD 14 [] = (List.replicate 15 [] : Table).getD 14 [] ++ [({ p := ⟨7, 14⟩, bHorizontal := false, dir := 1 } : PolyIterator).p.x, ({ p := ⟨7, 14⟩, bHorizontal := false, dir := 1 } : PolyIterator).p.x] ∧
      ∀ r : Nat, r ≠ 14 → ∃ L, T'.getD r [] = (List.replicate 15 [] : Table).getD r [] ++ L ∧ L.length ≤ 1 ∧
        (L ≠ [] → 0 < ((r : Int) - ((14 : Nat) : Int)) * sign ({ p := ⟨7, 14⟩, bHorizontal := false, dir := 1 } : PolyIterator).p.y (Binary32.add (⟨1/2, 3/2 - 1/2^22⟩ : Point) delta).y ∧
          ∀ x ∈ L, Binary32.crossing ({ p := ⟨7, 14⟩, bHorizontal := false, dir := 1 } : PolyIterator).p (Binary32.slope ({ p := ⟨7, 14⟩, bHorizontal := false, dir := 1 } : PolyIterator).p (Binary32.add (⟨1/2, 3/2 - 1/2^22⟩ : Point) delta)) (r : Int) =
            some x) :=
  ⟨⟨by decide!, rfl, by decide!, by decide!, by decide!, by decide⟩,
    local_peak_emission ({ p := ⟨7, 14⟩, bHorizontal := false, dir := 1 } : PolyIterator) (⟨1/2, 3/2 - 1/2^22⟩ : Point) (List.replicate 15 [] : Table) 14
      (by decide!) rfl (by decide!) (by decide!) (by decide!) (by decide)⟩

/-- The edge of C13's example in binary32: from the local peak `(7, 14)` down to
`(0, 1 - 2^-22)` the slope rounds to `4516943/8388608` and the crossing computed for row 1
is `-2^-21`, left of both ends of the edge; the assertion of the loop fails there, with the
rows 14 down to 2 recorded. -/
theorem local_peak_assert_fails :
    Binary32.add ⟨1/2, 3/2 - 1/2^22⟩ delta = ⟨0, 1 - 1/2^22⟩ ∧
    Binary32.slope ⟨7, 14⟩ ⟨0, 1 - 1/2^22⟩ = some (4516943/8388608) ∧
    Binary32.crossing ⟨7, 14⟩ (some (4516943/8388608)) 1 = some (-1/2^21) ∧
    Binary32.add_point { p := ⟨7, 14⟩, bHorizontal := false, dir := 1 } ⟨1/2, 3/2 - 1/2^22⟩
        (List.replicate 15 []) =
      .error [[], [], [1129235/2097152], [2258471/2097152], [1693853/1048576],
        [2258471/1048576], [2823089/1048576], [3387707/1048576], [15809299/4194304],
        [9033885/2097152], [10163121/2097152], [11292357/2097152], [1552699/262144],
        [3387707/524288], [7, 7]] := by
  decide!

/-! ## Edges along the axes in binary32 -/

theorem except_map_toOption {ε β γ : Type} (e : Except ε β) (f : β → γ) :
    (e.map f).toOption = e.toOption.map f := by
  cases e <;> rfl

theorem fin32_zero : Binary32.fin32 0 = some 0 := by decide!

/-- A multiple `m * 2^e` with `|m| ≤ 2^24` and `-149 ≤ e ≤ 100` is a finite binary32
number. -/
theorem fin32_exact (m e : Int) (hm : |m| ≤ 2 ^ 24) (he : -149 ≤ e) (he2 : e ≤ 100) :
    Binary32.fin32 ((m : ℚ) * Binary32.pow2 e) = some ((m : ℚ) * Binary32.pow2 e) := by
  unfold Binary32.fin32
  rw [round32_exact m e hm he, if_pos]
  rw [abs_mul, abs_of_pos (pow2_pos e), pow2_eq, pow2_eq]
  have h1 : |(m : ℚ)| ≤ 2 ^ 24 := by exact_mod_cast (Int.cast_le (R := ℚ)).2 hm
  have h12 : (1 : ℚ) ≤ 2 := by norm_num
  have h2 : (2 : ℚ) ^ e ≤ 2 ^ (100 : Int) := zpow_le_zpow_right₀ h12 he2
  have h3 : (0 : ℚ) < 2 ^ e := by positivity
  calc |(m : ℚ)| * 2 ^ e ≤ 2 ^ 24 * 2 ^ (100 : Int) :=
        mul_le_mul h1 h2 (le_of_lt h3) (by positivity)
    _ < 2 ^ (128 : Int) := by norm_num

theorem b32_is_integer_eq (f : ℚ) (h : Binary32.ofInt (toInt f) = ((toInt f : Int) : ℚ)) :
    Binary32.is_integer f = is_integer f := by
  unfold Binary32.is_integer is_integer
  rw [h]

/-- A horizontal edge does no arithmetic: when the shift of the new vertex is exact,
`add_point` in binary32 is `add_point` in exact arithmetic. -/
theorem b32_add_point_flat (s : PolyIterator) (pi : Point) (T : Table)
    (hs : Binary32.add pi delta = pi + delta)
    (hq : Binary32.ofInt (toInt s.p.y) = ((toInt s.p.y : Int) : ℚ))
    (hy : s.p.y = (pi + delta).y) :
    (Binary32.add_point s pi T).toOption = add_point s pi T := by
  unfold Binary32.add_point add_point
  simp only [hs, if_pos hy, b32_is_integer_eq _ hq]
  split
  · split <;> rfl
  · rfl

/-- The stepping loop of a vertical edge: the slope is 0 and every crossing is `q.x`, in
binary32 as in exact arithmetic, as long as the rows convert exactly. -/
theorem b32_row_loop_vertical (q p : Point) (dir iy2 : Int) (hdir : dir = 1 ∨ dir = -1)
    (hqx : Binary32.fin32 q.x = some q.x) (n : Nat) : ∀ (j : Int) (T : Table),
    0 ≤ (iy2 - j) * dir →
    (∀ k : Int, 0 ≤ (k - j) * dir → 0 < (iy2 - k) * dir →
      Binary32.ofInt k = (k : ℚ) ∧ ∃ t, Binary32.fin32 ((k : ℚ) - q.y) = some t) →
    (Binary32.row_loop q p (some 0) dir iy2 n j T).toOption = row_loop q p 0 dir iy2 n j T := by
  induction n with
  | zero =>
    intro j T _ _
    unfold Binary32.row_loop row_loop
    split <;> rfl
  | succ n ih =>
    intro j T hinv hP
    unfold Binary32.row_loop row_loop
    by_cases hj : j = iy2
    · rw [if_pos hj, if_pos hj]; rfl
    · rw [if_neg hj, if_neg hj]
      have hahead : 0 < (iy2 - j) * dir := by
        rcases hdir with hd | hd <;> rw [hd] at hinv ⊢ <;> omega
      obtain ⟨ho, t, ht⟩ := hP j (by simp) hahead
      have hinv' : 0 ≤ (iy2 - (j + dir)) * dir := by
        rcases hdir with hd | hd <;> rw [hd] at hahead ⊢ <;> omega
      have hP' : ∀ k : Int, 0 ≤ (k - (j + dir)) * dir → 0 < (iy2 - k) * dir →
          Binary32.ofInt k = (k : ℚ) ∧ ∃ t, Binary32.fin32 ((k : ℚ) - q.y) = some t := by
        intro k hk1 hk2
        apply hP k _ hk2
        rcases hdir with hd | hd <;> rw [hd] at hk1 ⊢ <;> omega
      have hcross : Binary32.crossing q (some 0) j = some q.x := by
        unfold Binary32.crossing
        simp only [ho, ht, zero_mul, fin32_zero, add_zero, hqx]
      rw [ho, hcross]
      simp only [zero_mul, add_zero]
      by_cases hskip : (if dir > 0 then p.y ≤ (j : ℚ) else (j : ℚ) ≤ p.y)
      · rw [if_pos hskip, if_pos hskip]
        exact ih (j + dir) T hinv' hP'
      · rw [if_neg hskip, if_neg hskip]
        by_cases hass : (q.x ≤ q.x ∧ q.x ≤ p.x) ∨ (p.x ≤ q.x ∧ q.x ≤ q.x)
        · rw [if_pos hass, if_pos hass]
          exact ih (j + dir) _ hinv' hP'
        · rw [if_neg hass, if_neg hass]
          rfl

/-- A vertical edge: when the shift of the new vertex is exact and the rows of the edge
convert exactly, `add_point` in binary32 is `add_point` in exact arithmetic. -/
theorem b32_add_point_vertical (s : PolyIterator) (pi : Point) (T : Table)
    (hs : Binary32.add pi delta = pi + delta)
    (hq : Binary32.ofInt (toInt s.p.y) = ((toInt s.p.y : Int) : ℚ))
    (hy : s.p.y ≠ (pi + delta).y) (hx : s.p.x = (pi + delta).x)
    (hfx : Binary32.fin32 s.p.x = some s.p.x)
    (hfd : ∃ d, Binary32.fin32 (s.p.y - (pi + delta).y) = some d ∧ d ≠ 0)
    (hP : ∀ k : Int, 0 ≤ (k - start_row s (pi + delta)) * sign s.p.y (pi + delta).y →
      0 < (toInt (pi + delta).y + sign s.p.y (pi + delta).y - k) * sign s.p.y (pi + delta).y →
      Binary32.ofInt k = (k : ℚ) ∧ ∃ t, Binary32.fin32 ((k : ℚ) - s.p.y) = some t) :
    (Binary32.add_point s pi T).toOption = add_point s pi T := by
  have hy' : s.p.y ≠ (Binary32.add pi delta).y := by rw [hs]; exact hy
  obtain ⟨d, hd1, hd2⟩ := hfd
  have hslope : Binary32.slope s.p (pi + delta) = some 0 := by
    unfold Binary32.slope
    rw [hx, sub_self, fin32_zero, hd1]
    simp only [if_neg hd2, zero_div, fin32_zero]
  have ha : (s.p.x - (pi + delta).x) / (s.p.y - (pi + delta).y) = 0 := by
    rw [hx, sub_self, zero_div]
  have hdir := sign_eq s.p.y (pi + delta).y
  have hreach := row_loop_reaches s.p.y (pi + delta).y hy (start_row s (pi + delta))
    (start_row_cases s (pi + delta))
  have hinv : 0 ≤ (toInt (pi + delta).y + sign s.p.y (pi + delta).y -
      start_row s (pi + delta)) * sign s.p.y (pi + delta).y := by
    rcases hdir with hd | hd <;> rw [hd] at hreach ⊢ <;> omega
  rw [b32_add_point_eq_loop s pi T hq hy', add_point_eq_loop s pi T hy, hs, hslope, ha,
    except_map_toOption]
  rw [b32_row_loop_vertical s.p (pi + delta) _ _ hdir hfx _ _ _ hinv hP]

/-! ## Curves along the axes with integer vertices up to `2^23` -/

theorem toInt_half (n : Nat) :
    toInt ((n : ℚ) + -1 / 2) = if n = 0 then 0 else (n : Int) - 1 := by
  by_cases hn : n = 0
  · subst hn
    rw [if_pos rfl]
    decide!
  · rw [if_neg hn]
    have h1 : (1 : ℚ) ≤ (n : ℚ) := by
      have : 1 ≤ n := by omega
      exact_mod_cast this
    unfold toInt
    rw [if_pos (by linarith), Int.floor_eq_iff]
    constructor
    · push_cast; linarith
    · push_cast; linarith

theorem shift_grid (a b : ℚ) : ((⟨a, b⟩ : Point) + delta) = ⟨a + -1 / 2, b + -1 / 2⟩ := rfl

theorem b32_shift_grid (pt : Point) (h : Binary32.OnGrid pt) :
    Binary32.add pt delta = pt + delta := by
  obtain ⟨a, b, ha, hb, rfl⟩ := h
  rw [shift_grid]
  unfold Binary32.add delta
  simp only
  rw [round32_half a ha, round32_half b hb]

theorem b32_ofInt_toInt_half (b : Nat) (hb : b ≤ 2 ^ 23) :
    Binary32.ofInt (toInt ((b : ℚ) + -1 / 2)) = ((toInt ((b : ℚ) + -1 / 2) : Int) : ℚ) := by
  unfold Binary32.ofInt
  apply round32_intCast
  rw [toInt_half]
  split
  · norm_num
  · rw [abs_le]
    constructor <;> omega

/-- An edge along an axis between two vertices with integer coordinates up to `2^23`:
`add_point` in binary32 is `add_point` in exact arithmetic. -/
theorem b32_add_point_grid (s : PolyIterator) (prev pi : Point) (T : Table)
    (hprev : Binary32.OnGrid prev) (hsp : s.p = prev + delta) (hpi : Binary32.OnGrid pi)
    (hax : prev.x = pi.x ∨ prev.y = pi.y) :
    (Binary32.add_point s pi T).toOption = add_point s pi T := by
  have hs := b32_shift_grid pi hpi
  obtain ⟨a, b, ha, hb, rfl⟩ := hprev
  obtain ⟨a', b', ha', hb', rfl⟩ := hpi
  rw [shift_grid] at hsp
  have hq : Binary32.ofInt (toInt s.p.y) = ((toInt s.p.y : Int) : ℚ) := by
    rw [hsp]; exact b32_ofInt_toInt_half b hb
  by_cases hy : s.p.y = ((⟨(a' : ℚ), (b' : ℚ)⟩ : Point) + delta).y
  · exact b32_add_point_flat s _ T hs hq hy
  · have hbb : b ≠ b' := by
      intro hc
      apply hy
      rw [hsp, shift_grid, hc]
    have hxx : (a : ℚ) = (a' : ℚ) := by
      rcases hax with h | h
      · exact h
      · have h' : (b : ℚ) = (b' : ℚ) := h
        exact absurd (by exact_mod_cast h') hbb
    apply b32_add_point_vertical s _ T hs hq hy
    · rw [hsp, shift_grid, hxx]
    · rw [hsp]
      have := fin32_exact (2 * (a : Int) - 1) (-1) (by rw [abs_le]; constructor <;> omega)
        (by norm_num) (by norm_num)
      have h2 : (((2 * (a : Int) - 1 : Int)) : ℚ) * Binary32.pow2 (-1) = (a : ℚ) + -1 / 2 := by
        rw [pow2_eq]; push_cast; norm_num; ring
      rwa [h2] at this
    · refine ⟨(b : ℚ) - (b' : ℚ), ?_, ?_⟩
      · rw [hsp, shift_grid]
        have := fin32_exact ((b : Int) - (b' : Int)) 0 (by rw [abs_le]; constructor <;> omega)
          (by norm_num) (by norm_num)
        have h2 : ((((b : Int) - (b' : Int) : Int)) : ℚ) * Binary32.pow2 0 =
            (b : ℚ) + -1 / 2 - ((b' : ℚ) + -1 / 2) := by
          rw [pow2_eq]; push_cast; ring
        rw [h2] at this
        rw [this]
        congr 1
        ring
      · intro hc
        apply hbb
        have : (b : ℚ) = (b' : ℚ) := by linarith
        exact_mod_cast this
    · intro k hk1 hk2
      have hstart := start_row_cases s ((⟨(a' : ℚ), (b' : ℚ)⟩ : Point) + delta)
      rw [shift_grid] at hstart hk1 hk2
      rw [hsp] at hstart hk1 hk2 ⊢
      simp only at hstart hk1 hk2 ⊢
      rw [toInt_half] at hstart hk2
      have hsign : sign ((b : ℚ) + -1 / 2) ((b' : ℚ) + -1 / 2) = if b < b' then 1 else -1 := by
        unfold sign
        by_cases hlt : b < b'
        · have : (b : ℚ) < (b' : ℚ) := by exact_mod_cast hlt
          rw [if_pos (by linarith), if_pos hlt]
        · have : (b' : ℚ) ≤ (b : ℚ) := by exact_mod_cast (not_lt.1 hlt)
          rw [if_neg (by linarith), if_neg hlt]
      rw [hsign] at hstart hk1 hk2
      have hk : 0 ≤ k ∧ k ≤ 2 ^ 23 - 1 := by
        by_cases hlt : b < b'
        · rw [if_pos hlt] at hstart hk1 hk2
          split at hstart <;> split at hk2 <;> rcases hstart with h | h <;>
            rw [h] at hk1 <;> constructor <;> omega
        · rw [if_neg hlt] at hstart hk1 hk2
          split at hstart <;> split at hk2 <;> rcases hstart with h | h <;>
            rw [h] at hk1 <;> constructor <;> omega
      constructor
      · unfold Binary32.ofInt
        exact round32_intCast k (by rw [abs_le]; constructor <;> omega)
      · have := fin32_exact (2 * k - 2 * (b : Int) + 1) (-1)
          (by rw [abs_le]; constructor <;> omega) (by norm_num) (by norm_num)
        have h2 : (((2 * k - 2 * (b : Int) + 1 : Int)) : ℚ) * Binary32.pow2 (-1) =
            (k : ℚ) - ((b : ℚ) + -1 / 2) := by
          rw [pow2_eq]; push_cast; norm_num; ring
        rw [h2] at this
        exact ⟨_, this⟩

theorem b32_add_points_grid (pts : List Point) : ∀ (prev : Point) (s : PolyIterator)
    (T : Table), Binary32.OnGrid prev → s.p = prev + delta →
    (∀ pt ∈ pts, Binary32.OnGrid pt) →
    List.Chain (fun u v : Point => u.x = v.x ∨ u.y = v.y) prev pts →
    (Binary32.add_points s pts T).toOption = add_points s pts T := by
  induction pts with
  | nil => intros; rfl
  | cons pt rest ih =>
    intro prev s T hprev hsp hall hchain
    have hpt : Binary32.OnGrid pt := hall pt (List.mem_cons_self _ _)
    rw [List.chain_cons] at hchain
    have h1 := b32_add_point_grid s prev pt T hprev hsp hpt hchain.1
    unfold Binary32.add_points add_points
    cases hB : Binary32.add_point s pt T with
    | error e =>
      rw [hB] at h1
      rw [← h1]
      rfl
    | ok r =>
      rw [hB] at h1
      rw [← h1]
      obtain ⟨s', T'⟩ := r
      have hp : s'.p = pt + delta := add_point_p s s' pt T T' h1.symm
      exact ih pt s' T' hpt hp (fun q hq => hall q (List.mem_cons_of_mem _ hq)) hchain.2

theorem b32_add_points_append (s : PolyIterator) (l1 l2 : List Point) (T : Table) :
    Binary32.add_points s (l1 ++ l2) T =
      (Binary32.add_points s l1 T).bind (fun r => Binary32.add_points r.1 l2 r.2) := by
  induction l1 generalizing s T with
  | nil => rfl
  | cons pt l1 ih =>
    simp only [List.cons_append, Binary32.add_points]
    cases Binary32.add_point s pt T with
    | error e => rfl
    | ok r => exact ih r.1 r.2

theorem b32_edge_walk_eq (line : List Point) (h : Nat) :
    Binary32.edge_walk line h =
      (Binary32.add_points (Binary32.init line) (line.tail ++ [line.headD default])
        (List.replicate h [])).map Prod.snd := by
  unfold Binary32.edge_walk
  rw [b32_add_points_append]
  cases Binary32.add_points (Binary32.init line) line.tail (List.replicate h []) with
  | error e => rfl
  | ok r =>
    obtain ⟨p, tbl⟩ := r
    simp only [Except.bind, Binary32.add_points]
    cases Binary32.add_point p (line.headD default) tbl with
    | error e => rfl
    | ok r2 => rfl

theorem getD_onGrid (curve : List Point) (hall : ∀ pt ∈ curve, Binary32.OnGrid pt) (i : Nat) :
    Binary32.OnGrid (curve.getD i default) := by
  rw [List.getD_eq_getElem?_getD]
  cases hc : curve[i]? with
  | none => exact ⟨0, 0, by norm_num, by norm_num, by simp; rfl⟩
  | some x => exact hall x (List.getElem?_mem hc)

theorem b32_init_grid (curve : List Point) (hall : ∀ pt ∈ curve, Binary32.OnGrid pt) :
    Binary32.init curve = PolyIterator.init curve := by
  unfold Binary32.init PolyIterator.init
  simp only [b32_shift_grid _ (getD_onGrid curve hall _)]
  obtain ⟨a, b, ha, hb, h0⟩ := getD_onGrid curve hall 0
  rw [h0, shift_grid (a : ℚ) (b : ℚ)]
  simp only
  rw [b32_is_integer_eq _ (b32_ofInt_toInt_half b hb)]

theorem init_p (curve : List Point) :
    (PolyIterator.init curve).p = curve.getD 0 default + delta := by
  unfold PolyIterator.init
  simp only
  split <;> rfl

/-- A closed curve whose vertices have integer coordinates from 0 to `2^23` and whose edges
all run along an axis: the edge walk in binary32 is the edge walk in exact arithmetic. -/
theorem b32_edge_walk_grid (a : Point) (l : List Point) (h : Nat)
    (hall : ∀ pt ∈ a :: l, Binary32.OnGrid pt)
    (hchain : List.Chain (fun u v : Point => u.x = v.x ∨ u.y = v.y) a (l ++ [a])) :
    (Binary32.edge_walk (a :: l) h).toOption = edge_walk (a :: l) h := by
  rw [b32_edge_walk_eq, edge_walk_eq, except_map_toOption, b32_init_grid _ hall]
  simp only [List.tail_cons, List.headD_cons]
  rw [b32_add_points_grid (l ++ [a]) a _ _ (hall a (List.mem_cons_self _ _))
    (by rw [init_p]; rfl) _ hchain]
  intro pt hpt
  rcases List.mem_append.1 hpt with h1 | h1
  · exact hall pt (List.mem_cons_of_mem _ h1)
  · rw [List.mem_singleton] at h1
    rw [h1]
    exact hall a (List.mem_cons_self _ _)

/-- The buffer computed by `fill_curve` in binary32 on a non-empty curve: the edge walk, then
the fill of the rows. -/
theorem b32_fill_curve_fst_eq (line : List Point) (value : α) (out : List α) (w h : Nat)
    (t : Option Table) (hne : line ≠ []) :
    (Binary32.fill_curve line value out w h t).map Prod.fst =
      (Binary32.edge_walk line h).toOption.bind
        (fun T => (Binary32.fill_inter value out w h T).map Prod.fst) := by
  have htbl : (match t with
        | none => List.replicate h []
        | some t => init_inter t h) = (List.replicate h [] : Table) := by
    cases t with
    | none => rfl
    | some t => exact init_inter_eq t h
  have hl : line.isEmpty = false := by
    cases line with
    | nil => exact absurd rfl hne
    | cons a l => rfl
  have hdir : (Binary32.init line).dir ≠ 0 := by
    unfold Binary32.init
    simp only
    split <;> exact sign_ne_zero _ _
  unfold Binary32.fill_curve Binary32.edge_walk
  simp only [hl, hdir, if_false, Bool.false_eq_true, htbl]
  cases Binary32.add_points (Binary32.init line) line.tail (List.replicate h []) with
  | error e => rfl
  | ok r =>
    obtain ⟨p, tbl⟩ := r
    simp only
    cases Binary32.add_point p (line.headD default) tbl with
    | error e => rfl
    | ok r2 =>
      obtain ⟨p2, tbl2⟩ := r2
      simp only [Except.toOption, Option.some_bind]
      cases Binary32.fill_inter value out w h tbl2 with
      | none => rfl
      | some r3 => rfl

/-- When the edge walk in binary32 is the edge walk in exact arithmetic and the image has at
most `2^24` columns, `fill_curve` in binary32 computes the buffer of `fill_curve` in exact
arithmetic. -/
theorem b32_fill_curve_fst_of_walk (line : List Point) (value : α) (out : List α) (w h : Nat)
    (t : Option Table) (hw : w ≤ 2 ^ 24)
    (hwalk : (Binary32.edge_walk line h).toOption = edge_walk line h) :
    (Binary32.fill_curve line value out w h t).map Prod.fst =
      (fill_curve line value out w h t).map Prod.fst := by
  by_cases hne : line = []
  · subst hne
    rfl
  · rw [b32_fill_curve_fst_eq _ _ _ _ _ _ hne, fill_curve_fst_eq _ _ _ _ _ _ hne, hwalk]
    simp only [b32_fill_inter_eq _ _ _ _ _ hw]

/-! ## C2: an axis-aligned rectangle -/

/-- C2, as stated, fails beyond `2^23`: for the rectangle with corners `(8388609, 0)` and
`(8388611, 1)` on a buffer of `8388611` by 1 pixels, the shifted abscissas `8388608.5` and
`8388610.5` are not binary32 numbers and round to `8388608` and `8388610`; the bounds of row
0 lie on the grid, and `fill_curve` writes column `8388608 = x0 - 1`, which is outside the
rectangle. -/
theorem fill_curve_rectangle_beyond :
    Binary32.edge_walk [⟨8388609, 0⟩, ⟨8388611, 0⟩, ⟨8388611, 1⟩, ⟨8388609, 1⟩] 1 =
      .ok [[8388610, 8388608]] ∧
    ∃ out', (Binary32.fill_curve [⟨8388609, 0⟩, ⟨8388611, 0⟩, ⟨8388611, 1⟩, ⟨8388609, 1⟩]
        (1 : Nat) (List.replicate 8388611 0) 8388611 1 none).map Prod.fst = some out' ∧
      out'[8388608]? = some 1 := by
  have hwalk : Binary32.edge_walk [⟨8388609, 0⟩, ⟨8388611, 0⟩, ⟨8388611, 1⟩, ⟨8388609, 1⟩] 1 =
      .ok [[8388610, 8388608]] := by decide!
  refine ⟨hwalk, ?_⟩
  have heven : ∀ r, Even ((([[8388610, 8388608]] : Table).getD r [])).length := by
    intro r
    cases r with
    | zero => exact ⟨1, rfl⟩
    | succ r => exact ⟨0, by simp⟩
  obtain ⟨out', T', h1, _, h3⟩ := fill_inter_loop_spec (1 : Nat) 8388611 1 1 0
    (List.replicate 8388611 0) [[8388610, 8388608]] (by norm_num)
    (by rw [List.length_replicate]) heven
  refine ⟨out', ?_, ?_⟩
  · rw [b32_fill_curve_fst_eq _ _ _ _ _ _ (List.cons_ne_nil _ _), hwalk]
    simp only [Except.toOption, Option.some_bind]
    rw [b32_fill_inter_eq _ _ _ _ _ (by norm_num)]
    unfold fill_inter
    rw [h1]
    rfl
  · have h4 := (h3 0 8388608 (by norm_num) (by norm_num)).1
      ⟨le_rfl, Or.inr (by simp)⟩
    simpa using h4

/-- C2, amended. Axis-aligned rectangle fill: for integers `0 ≤ x0 < x1 ≤ 2^23` and
`0 ≤ y0 < y1 ≤ 2^23` and a buffer of `w ≤ 2^24` by `h` pixels, `fill_curve` on the curve
`[(x0,y0), (x1,y0), (x1,y1), (x0,y1)]` with value `v` returns normally, sets exactly the
pixels with column in `[x0, x1-1]` and row in `[y0, y1-1]` to `v` and leaves every other pixel
of the buffer unchanged (this holds in particular when `x1 ≤ w ≤ 2^23` and `y1 ≤ h ≤ 2^23`; a
rectangle that reaches beyond the buffer is clipped); in particular the curve
`[(0,0), (4,0), (4,4), (0,4)]` with value 1 on an 8x8 zero buffer sets exactly the pixels with
row and column in `[0,3]`. -/
theorem fill_curve_rectangle (x0 x1 y0 y1 w h : Nat) (value : α) (out : List α)
    (t : Option Table) (hx : x0 < x1) (hy : y0 < y1) (hx1 : x1 ≤ 2 ^ 23) (hy1 : y1 ≤ 2 ^ 23)
    (hw : w ≤ 2 ^ 24) (hlen : out.length = w * h) :
    (∃ out', (Binary32.fill_curve [⟨x0, y0⟩, ⟨x1, y0⟩, ⟨x1, y1⟩, ⟨x0, y1⟩] value out w h
          t).map Prod.fst = some out' ∧ out'.length = out.length ∧
      ∀ r c : Nat, r < h → c < w →
        out'[r * w + c]? =
          if (x0 ≤ c ∧ c < x1) ∧ (y0 ≤ r ∧ r < y1) then some value else out[r * w + c]?) ∧
    (Binary32.fill_curve [⟨0, 0⟩, ⟨4, 0⟩, ⟨4, 4⟩, ⟨0, 4⟩] (1 : Nat) (List.replicate 64 0) 8 8
        none).map Prod.fst =
      some [1, 1, 1, 1, 0, 0, 0, 0, 1, 1, 1, 1, 0, 0, 0, 0, 1, 1, 1, 1, 0, 0, 0, 0,
        1, 1, 1, 1, 0, 0, 0, 0, 0, 0, 0, 0, 0, 0, 0, 0, 0, 0, 0, 0, 0, 0, 0, 0,
        0, 0, 0, 0, 0, 0, 0, 0, 0, 0, 0, 0, 0, 0, 0, 0] := by
  refine ⟨?_, by decide!⟩
  have hall : ∀ pt ∈ [(⟨x0, y0⟩ : Point), ⟨x1, y0⟩, ⟨x1, y1⟩, ⟨x0, y1⟩], Binary32.OnGrid pt := by
    intro pt hpt
    simp only [List.mem_cons, List.mem_singleton, List.not_mem_nil, or_false] at hpt
    rcases hpt with rfl | rfl | rfl | rfl
    · exact ⟨x0, y0, by omega, by omega, rfl⟩
    · exact ⟨x1, y0, by omega, by omega, rfl⟩
    · exact ⟨x1, y1, by omega, by omega, rfl⟩
    · exact ⟨x0, y1, by omega, by omega, rfl⟩
  have hchain : List.Chain (fun u v : Point => u.x = v.x ∨ u.y = v.y) (⟨x0, y0⟩ : Point)
      ([(⟨x1, y0⟩ : Point), ⟨x1, y1⟩, ⟨x0, y1⟩] ++ [⟨x0, y0⟩]) := by
    exact List.Chain.cons (Or.inr rfl) (List.Chain.cons (Or.inl rfl)
      (List.Chain.cons (Or.inr rfl) (List.Chain.cons (Or.inl rfl) List.Chain.nil)))
  have hwalk := b32_edge_walk_grid ⟨x0, y0⟩ [⟨x1, y0⟩, ⟨x1, y1⟩, ⟨x0, y1⟩] h hall hchain
  rw [b32_fill_curve_fst_of_walk _ _ _ _ _ _ hw hwalk]
  exact (fill_curve_rectangle_exact x0 x1 y0 y1 w h value out t hx hy hlen).1

/-- C2, amended, at the square of the specification: corners `(0,0)` and `(4,4)`, 8x8 zero
buffer. -/
theorem fill_curve_rectangle_witness :
    ((0 : Nat) < 4 ∧ (0 : Nat) < 4 ∧ 4 ≤ 2 ^ 23 ∧ 4 ≤ 2 ^ 23 ∧ 8 ≤ 2 ^ 24 ∧
      (List.replicate 64 (0 : Nat)).length = 8 * 8) ∧
    ((∃ out', (Binary32.fill_curve [⟨(0 : Nat), (0 : Nat)⟩, ⟨(4 : Nat), (0 : Nat)⟩,
          ⟨(4 : Nat), (4 : Nat)⟩, ⟨(0 : Nat), (4 : Nat)⟩] (1 : Nat) (List.replicate 64 0) 8 8
          none).map Prod.fst =
        some out' ∧ out'.length = (List.replicate 64 (0 : Nat)).length ∧
      ∀ r c : Nat, r < 8 → c < 8 →
        out'[r * 8 + c]? =
          if (0 ≤ c ∧ c < 4) ∧ (0 ≤ r ∧ r < 4) then some 1
          else (List.replicate 64 (0 : Nat))[r * 8 + c]?) ∧
    (Binary32.fill_curve [⟨0, 0⟩, ⟨4, 0⟩, ⟨4, 4⟩, ⟨0, 4⟩] (1 : Nat) (List.replicate 64 0) 8 8
        none).map Prod.fst =
      some [1, 1, 1, 1, 0, 0, 0, 0, 1, 1, 1, 1, 0, 0, 0, 0, 1, 1, 1, 1, 0, 0, 0, 0,
        1, 1, 1, 1, 0, 0, 0, 0, 0, 0, 0, 0, 0, 0, 0, 0, 0, 0, 0, 0, 0, 0, 0, 0,
        0, 0, 0, 0, 0, 0, 0, 0, 0, 0, 0, 0, 0, 0, 0, 0]) :=
  ⟨⟨by decide, by decide, by norm_num, by norm_num, by norm_num, by decide⟩,
    fill_curve_rectangle 0 4 0 4 8 8 1 (List.replicate 64 0) none (by decide) (by decide)
      (by norm_num) (by norm_num) (by norm_num) (by decide)⟩

/-! ## C3: rotation of the vertex list -/

/-- C3. The code on the curve `(0, 1.5), (2.5, 0.5), (2.5, 2.5), (2^-30, 1.5)`, a triangle
with a fourth vertex next to the first one. The shift by `delta` rounds `2^-30 - 0.5` to
`-0.5`, so the last vertex and the first one, different for `last_point`, have the same
shifted position. The constructor takes the edge between them for a horizontal run on the row
boundary 1 (`bHorizontal` set); the walk arrives there over the slanted edge from `(2, 2)`
with `bHorizontal` clear, and the closing edge has no length and records nothing. Row 1 ends
with the single bound 2 and `fill_curve` stops at `assert(!bIn)`. On the curve rotated by one
vertex every row is even and `fill_curve` returns the filled triangle. -/
theorem fill_curve_rotate_differs :
    Binary32.add ⟨1/2^30, 3/2⟩ delta = Binary32.add ⟨0, 3/2⟩ delta ∧
    Binary32.init [⟨0, 3/2⟩, ⟨5/2, 1/2⟩, ⟨5/2, 5/2⟩, ⟨1/2^30, 3/2⟩] =
      { p := ⟨-1/2, 1⟩, bHorizontal := true, dir := -1 } ∧
    Binary32.add_points (Binary32.init [⟨0, 3/2⟩, ⟨5/2, 1/2⟩, ⟨5/2, 5/2⟩, ⟨1/2^30, 3/2⟩])
        [⟨5/2, 1/2⟩, ⟨5/2, 5/2⟩, ⟨1/2^30, 3/2⟩] [[], [], []] =
      .ok ({ p := ⟨-1/2, 1⟩, bHorizontal := false, dir := -1 }, [[2, 2], [2], [2, 2]]) ∧
    Binary32.edge_walk [⟨0, 3/2⟩, ⟨5/2, 1/2⟩, ⟨5/2, 5/2⟩, ⟨1/2^30, 3/2⟩] 3 =
      .ok [[2, 2], [2], [2, 2]] ∧
    Binary32.fill_curve [⟨0, 3/2⟩, ⟨5/2, 1/2⟩, ⟨5/2, 5/2⟩, ⟨1/2^30, 3/2⟩] (1 : Nat)
        [0, 0, 0, 0, 0, 0, 0, 0, 0, 0, 0, 0] 4 3 none = none ∧
    [(⟨0, 3/2⟩ : Point), ⟨5/2, 1/2⟩, ⟨5/2, 5/2⟩, ⟨1/2^30, 3/2⟩].rotate 1 =
      [⟨5/2, 1/2⟩, ⟨5/2, 5/2⟩, ⟨1/2^30, 3/2⟩, ⟨0, 3/2⟩] ∧
    Binary32.edge_walk ([⟨0, 3/2⟩, ⟨5/2, 1/2⟩, ⟨5/2, 5/2⟩, ⟨1/2^30, 3/2⟩].rotate 1) 3 =
      .ok [[2, 2], [2, -1/2], [2, 2]] ∧
    Binary32.fill_curve ([⟨0, 3/2⟩, ⟨5/2, 1/2⟩, ⟨5/2, 5/2⟩, ⟨1/2^30, 3/2⟩].rotate 1) (1 : Nat)
        [0, 0, 0, 0, 0, 0, 0, 0, 0, 0, 0, 0] 4 3 none =
      some ([0, 0, 1, 0, 1, 1, 1, 0, 0, 0, 1, 0], none) := by
  decide!

/-! ## C18: parity of the rows in the half-plane -/

/-- C18. The code on the curve `(2^-30, 2.5), (2.5, 0.5), (2.5, 3.5), (0, 2.5)`, all of whose
vertices have `y ≥ 0.5`: the first and the last vertex are different and have the same
shifted position `(-0.5, 2)`, the edge walk completes and leaves row 2 with the single bound
2, and `fill_line` on that row, hence `fill_curve`, stops at `assert(!bIn)`. -/
theorem rows_odd_in_half_plane :
    (∀ pt ∈ [(⟨1/2^30, 5/2⟩ : Point), ⟨5/2, 1/2⟩, ⟨5/2, 7/2⟩, ⟨0, 5/2⟩], 1 / 2 ≤ pt.y) ∧
    Binary32.add ⟨1/2^30, 5/2⟩ delta = ⟨-1/2, 2⟩ ∧ Binary32.add ⟨0, 5/2⟩ delta = ⟨-1/2, 2⟩ ∧
    Binary32.edge_walk [⟨1/2^30, 5/2⟩, ⟨5/2, 1/2⟩, ⟨5/2, 7/2⟩, ⟨0, 5/2⟩] 4 =
      .ok [[2, 2], [3/4, 2], [2], [2, 2]] ∧
    Odd [(2 : ℚ)].length ∧
    Binary32.fill_line (1 : Nat) [0, 0, 0, 0, 0, 0, 0, 0, 0, 0, 0, 0, 0, 0, 0, 0] (2 * 4) (3 * 4)
      [(2 : ℚ)] = none ∧
    Binary32.fill_curve [⟨1/2^30, 5/2⟩, ⟨5/2, 1/2⟩, ⟨5/2, 7/2⟩, ⟨0, 5/2⟩] (1 : Nat)
        [0, 0, 0, 0, 0, 0, 0, 0, 0, 0, 0, 0, 0, 0, 0, 0] 4 4 none = none := by
  decide!

/-! ## The failing inputs of the exact part, in binary32 -/

/-- The inputs on which the program fails in exact arithmetic (a single vertex, the curve
`(0.5,0.25), (0.5,0), (1.5,0)`, the edge from `(4.5, -0.25)` down to `(5.25, -0.5)`) give the
same results in binary32: no operation on them rounds. -/
theorem b32_same_failures :
    Binary32.fill_curve [⟨11/2, 7/2⟩] (1 : Nat) (List.replicate 64 0) 8 8 none =
      some (List.replicate 64 (0 : Nat), none) ∧
    Binary32.edge_walk [⟨1/2, 1/4⟩, ⟨1/2, 0⟩, ⟨3/2, 0⟩] 1 = .ok ([[0]] : Table) ∧
    Binary32.fill_curve [⟨1/2, 1/4⟩, ⟨1/2, 0⟩, ⟨3/2, 0⟩] (1 : Nat) [0, 0] 2 1 none = none ∧
    Binary32.init [⟨5, 1/4⟩, ⟨23/4, 0⟩] =
      { p := ⟨9/2, -1/4⟩, bHorizontal := false, dir := 1 } ∧
    Binary32.crossing ⟨9/2, -1/4⟩ (Binary32.slope ⟨9/2, -1/4⟩ ⟨21/4, -1/2⟩) 0 = some (15/4) ∧
    Binary32.add_point { p := ⟨9/2, -1/4⟩, bHorizontal := false, dir := 1 } ⟨23/4, 0⟩ [[]] =
      .error ([[]] : Table) ∧
    Binary32.fill_curve [⟨5, 1/4⟩, ⟨23/4, 0⟩] (1 : Nat) [0, 0, 0, 0, 0, 0, 0, 0] 8 1 none =
      none := by
  exact ⟨by decide!, by decide!, by decide!, by decide!, by decide!, by decide!, by decide!⟩

end MicroCurv
